import Mathlib

/-!
# Verification of the MQT circuit-optimizer core

Shallow embedding of the `qc::CircuitOptimizer` passes (identity removal,
SWAP reconstruction, SWAP decomposition, measurement deferral, dynamic-circuit
detection, operation reordering, DSU block collection) and of the
`qc::NonUnitaryOperation` constructors and `actsOn`, together with theorems
settling the behavioural claims about them.

Conventions of the embedding:
* Qubits and classical bits are `Nat`.
* The polymorphic `qc::Operation` hierarchy is a closed inductive `Op` with
  one constructor per variant (Standard, Compound, NonUnitary,
  ClassicControlled); accessor functions mirror the C++ virtual methods.
* A circuit is its ordered operation list plus a qubit count (modelling an
  identity `initialLayout` over qubits `0 .. n-1`, so the lane DAG has `n`
  lanes like `highestPhysicalQubit + 1` in the C++).
* C++ `throw` is `Except.error`; loops without a structural termination
  measure take explicit fuel, and fuel exhaustion is an error, never a
  silently wrong answer.
* Iterators into the operation vector are list indices, and the
  erase/insert index arithmetic mirrors the C++ iterator invalidation
  handling literally.
-/

namespace MQT

/-- Gate / operation type tags (`qc::OpType`), restricted to the members the
optimizer passes inspect. -/
inductive OpType where
  | I | H | X | Y | Z | S | Sdg | T | Tdg | SX | SXdg | SWAP
  | Measure | Reset | Barrier | Snapshot | ShowProbabilities
  | Compound | ClassicControlled
  deriving DecidableEq

/-- Control polarity (`qc::Control::Type`). -/
inductive CtrlType where
  | Pos | Neg
  deriving DecidableEq

/-- A quantum control (`qc::Control`): a qubit with a polarity. -/
structure Ctrl where
  qubit : Nat
  ctype : CtrlType
  deriving DecidableEq

/-- The operation variants (`qc::StandardOperation`, `qc::CompoundOperation`,
`qc::NonUnitaryOperation`, `qc::ClassicControlledOperation`).  A NonUnitary
operation stores both the `targets` vector (Reset/Barrier/Snapshot/...) and
the `qubits`/`classics` pair used by Measure, exactly like the C++ class.
A classic-controlled operation wraps an inner operation together with a
classical control register `(regStart, regSize)` and an expected value. -/
inductive Op where
  | std (controls : List Ctrl) (targets : List Nat) (ty : OpType)
  | comp (children : List Op)
  | nonunitary (ty : OpType) (targets : List Nat)
      (qubits : List Nat) (classics : List Nat)
  | classicCtrl (inner : Op) (regStart : Nat) (regSize : Nat) (expected : Nat)

namespace Op

/-- Boolean structural equality on operations (the nested inductive does not
support derived decidable equality, so it is spelled out). -/
def beq : Op → Op → Bool
  | .std cs ts ty, .std cs' ts' ty' => cs == cs' && ts == ts' && ty == ty'
  | .comp children, .comp children' => beqList children children'
  | .nonunitary ty ts qs cls, .nonunitary ty' ts' qs' cls' =>
      ty == ty' && ts == ts' && qs == qs' && cls == cls'
  | .classicCtrl inner rs rn e, .classicCtrl inner' rs' rn' e' =>
      beq inner inner' && rs == rs' && rn == rn' && e == e'
  | _, _ => false
where
  /-- Boolean structural equality on operation lists. -/
  beqList : List Op → List Op → Bool
    | [], [] => true
    | o :: os, o' :: os' => beq o o' && beqList os os'
    | _, _ => false

mutual

theorem beq_iff : ∀ a b : Op, beq a b = true ↔ a = b
  | .std cs ts ty, .std cs' ts' ty' => by
      simp [beq, and_assoc]
  | .std _ _ _, .comp _ => by simp [beq]
  | .std _ _ _, .nonunitary _ _ _ _ => by simp [beq]
  | .std _ _ _, .classicCtrl _ _ _ _ => by simp [beq]
  | .comp _, .std _ _ _ => by simp [beq]
  | .comp children, .comp children' => by
      simp [beq, beqList_iff children children']
  | .comp _, .nonunitary _ _ _ _ => by simp [beq]
  | .comp _, .classicCtrl _ _ _ _ => by simp [beq]
  | .nonunitary _ _ _ _, .std _ _ _ => by simp [beq]
  | .nonunitary _ _ _ _, .comp _ => by simp [beq]
  | .nonunitary ty ts qs cls, .nonunitary ty' ts' qs' cls' => by
      simp [beq, and_assoc]
  | .nonunitary _ _ _ _, .classicCtrl _ _ _ _ => by simp [beq]
  | .classicCtrl _ _ _ _, .std _ _ _ => by simp [beq]
  | .classicCtrl _ _ _ _, .comp _ => by simp [beq]
  | .classicCtrl _ _ _ _, .nonunitary _ _ _ _ => by simp [beq]
  | .classicCtrl inner rs rn e, .classicCtrl inner' rs' rn' e' => by
      simp [beq, beq_iff inner inner', and_assoc]

theorem beqList_iff : ∀ as bs : List Op, beq.beqList as bs = true ↔ as = bs
  | [], [] => by simp [beq.beqList]
  | [], _ :: _ => by simp [beq.beqList]
  | _ :: _, [] => by simp [beq.beqList]
  | o :: os, o' :: os' => by
      simp [beq.beqList, beq_iff o o', beqList_iff os os']

end

instance : DecidableEq Op := fun a b => decidable_of_iff _ (beq_iff a b)

/-- `Operation::getType`. -/
def getType : Op → OpType
  | .std _ _ ty => ty
  | .comp _ => .Compound
  | .nonunitary ty _ _ _ => ty
  | .classicCtrl _ _ _ _ => .ClassicControlled

/-- `Operation::isStandardOperation`. -/
def isStandardOperation : Op → Bool
  | .std _ _ _ => true
  | _ => false

/-- `Operation::isCompoundOperation`. -/
def isCompoundOperation : Op → Bool
  | .comp _ => true
  | _ => false

/-- `Operation::isNonUnitaryOperation`. -/
def isNonUnitaryOperation : Op → Bool
  | .nonunitary _ _ _ _ => true
  | _ => false

/-- `Operation::isClassicControlledOperation`. -/
def isClassicControlledOperation : Op → Bool
  | .classicCtrl _ _ _ _ => true
  | _ => false

/-- `Operation::isUnitary`: true for standard and compound operations, false
for non-unitary and classic-controlled ones (the deferMeasurements scan
relies on classic-controlled operations reaching its non-unitary branch). -/
def isUnitary : Op → Bool
  | .std _ _ _ => true
  | .comp _ => true
  | .nonunitary _ _ _ _ => false
  | .classicCtrl _ _ _ _ => false

/-- `Operation::getControls` (a classic-controlled operation delegates to its
wrapped operation; compound and non-unitary operations expose the base
class's empty control set). -/
def getControls : Op → List Ctrl
  | .std cs _ _ => cs
  | .comp _ => []
  | .nonunitary _ _ _ _ => []
  | .classicCtrl inner _ _ _ => inner.getControls

/-- `Operation::getTargets`; for a Measure the measured `qubits` play the
role of the targets, and a classic-controlled operation delegates to its
wrapped operation. -/
def getTargets : Op → List Nat
  | .std _ ts _ => ts
  | .comp _ => []
  | .nonunitary ty ts qs _ => if ty = .Measure then qs else ts
  | .classicCtrl inner _ _ _ => inner.getTargets

/-- `NonUnitaryOperation::getClassics` (empty for the other variants). -/
def getClassics : Op → List Nat
  | .nonunitary _ _ _ cs => cs
  | _ => []

/-- `Operation::getNcontrols`. -/
def getNcontrols (o : Op) : Nat := o.getControls.length

/-- `Operation::actsOn`.  The NonUnitary case is the literal translation of
`NonUnitaryOperation::actsOn`: a Measure acts on its measured qubits, a
Reset on its targets, and every other non-unitary kind on nothing.  A
compound operation acts on a qubit iff one of its children does, and a
classic-controlled operation delegates to its wrapped operation. -/
def actsOn : Op → Nat → Bool
  | .std cs ts _, q => cs.any (fun c => c.qubit == q) || ts.contains q
  | .comp children, q => actsOnList children q
  | .nonunitary ty ts qs _, q =>
      if ty = .Measure then qs.contains q
      else if ty = .Reset then ts.contains q
      else false
  | .classicCtrl inner _ _ _, q => inner.actsOn q
where
  /-- Helper: whether any operation in the list acts on `q`. -/
  actsOnList : List Op → Nat → Bool
    | [], _ => false
    | o :: os, q => o.actsOn q || actsOnList os q

/-- The raw (unsorted, possibly duplicated) qubit usage of an operation:
controls and targets, recursing through compound children. -/
def rawUsedQubits : Op → List Nat
  | .std cs ts _ => cs.map Ctrl.qubit ++ ts
  | .comp children => rawUsedQubitsList children
  | .nonunitary ty ts qs _ => if ty = .Measure then qs else ts
  | .classicCtrl inner _ _ _ => inner.rawUsedQubits
where
  /-- Helper: raw qubit usage of a list of operations. -/
  rawUsedQubitsList : List Op → List Nat
    | [] => []
    | o :: os => o.rawUsedQubits ++ rawUsedQubitsList os

end Op

/-- Insert into an ascending list, keeping it ascending. -/
def insertAsc (x : Nat) : List Nat → List Nat
  | [] => [x]
  | y :: ys => if x ≤ y then x :: y :: ys else y :: insertAsc x ys

/-- Sort a list of naturals ascending (insertion sort). -/
def sortAsc (l : List Nat) : List Nat := l.foldr insertAsc []

/-- `Operation::getUsedQubits` returns a `std::set<Qubit>`: the distinct
used qubits in ascending order. -/
def Op.getUsedQubits (o : Op) : List Nat := sortAsc o.rawUsedQubits.dedup

/-- A quantum computation (`qc::QuantumComputation`) restricted to what the
optimizer passes read: the ordered operation list and the qubit count.  The
initial layout is modelled as the identity over `0 .. nqubits-1`, so
`highestPhysicalQubit + 1 = nqubits` and the lane DAG has `nqubits` lanes. -/
structure Circuit where
  nqubits : Nat
  ops : List Op
  deriving DecidableEq

/-! ## NonUnitaryOperation constructors (`NonUnitaryOperation.cpp`) -/

/-- The register-based measurement constructor
`NonUnitaryOperation(nq, qubitRegister, classicalRegister)`: throws
`std::invalid_argument` when the two registers differ in size, otherwise
builds a Measure whose `qubits`/`classics` are the given registers. -/
def mkMeasureRegister (qubitRegister classicalRegister : List Nat) :
    Except String Op :=
  if qubitRegister.length ≠ classicalRegister.length then
    .error "Sizes of qubit register and classical register do not match."
  else
    .ok (.nonunitary .Measure [] qubitRegister classicalRegister)

/-- The single-qubit measurement constructor
`NonUnitaryOperation(nq, qubit, clbit)`. -/
def mkMeasureSingle (qubit clbit : Nat) : Op :=
  .nonunitary .Measure [] [qubit] [clbit]

/-- The general non-unitary constructor
`NonUnitaryOperation(nq, qubitRegister, op)` (used for Reset, Barrier,
Snapshot, ShowProbabilities): the register becomes the targets. -/
def mkNonUnitary (qubitRegister : List Nat) (op : OpType) : Op :=
  .nonunitary op qubitRegister [] []

/-- **C9.** Every Measure has equal-length, order-matched qubit and
classical-bit lists: the register constructor returns the two registers
verbatim when their lengths agree and throws otherwise, and the
single-pair constructor trivially satisfies the invariant. -/
theorem C9_theorem :
    (∀ qs cs m, mkMeasureRegister qs cs = Except.ok m →
        m.getTargets = qs ∧ m.getClassics = cs ∧
        m.getTargets.length = m.getClassics.length) ∧
    (∀ qs cs, qs.length ≠ cs.length →
        ∃ e, mkMeasureRegister qs cs = Except.error e) ∧
    (∀ q c, (mkMeasureSingle q c).getTargets = [q] ∧
        (mkMeasureSingle q c).getClassics = [c]) := by
  refine ⟨fun qs cs m h => ?_, fun qs cs h => ?_, fun q c => ⟨rfl, rfl⟩⟩
  · unfold mkMeasureRegister at h
    split at h
    · exact absurd h (by simp)
    · rename_i hlen
      simp only [Except.ok.injEq] at h
      subst h
      refine ⟨rfl, rfl, ?_⟩
      simpa [Op.getTargets, Op.getClassics] using not_not.mp hlen
  · refine ⟨"Sizes of qubit register and classical register do not match.", ?_⟩
    unfold mkMeasureRegister
    simp [h]

/-- Witness for C9 at concrete registers. -/
theorem C9_witness :
    ((Op.nonunitary .Measure [] [0, 2] [1, 3]).getTargets =
        [0, 2] ∧ (Op.nonunitary .Measure [] [0, 2] [1, 3]).getClassics = [1, 3] ∧
      (Op.nonunitary .Measure [] [0, 2] [1, 3]).getTargets.length =
        (Op.nonunitary .Measure [] [0, 2] [1, 3]).getClassics.length) ∧
    ∃ e, mkMeasureRegister [0] [] = Except.error e :=
  ⟨C9_theorem.1 [0, 2] [1, 3] _ rfl, C9_theorem.2.1 [0] [] (by decide)⟩

/-! ## removeIdentities (`CircuitOptimizer::removeIdentities`) -/

/-- `CircuitOptimizer::removeIdentities`: erases every top-level operation
whose type tag is `I`; for a compound operation it erases the identity-typed
children (one level deep), then erases the compound if it became empty and
replaces it by its single child if exactly one child remains. -/
def removeIdentities : List Op → List Op
  | [] => []
  | o :: rest =>
    if o.getType = .I then removeIdentities rest
    else
      match o with
      | .comp children =>
          match children.filter (fun c => c.getType ≠ OpType.I) with
          | [] => removeIdentities rest
          | [c] => c :: removeIdentities rest
          | c₀ :: c₁ :: cs => .comp (c₀ :: c₁ :: cs) :: removeIdentities rest
      | other => other :: removeIdentities rest

/-- Spec-side reading of "identity-typed operation at any nesting level":
an operation is or contains (through compound nesting, to any depth) an
operation whose type tag is `I`. -/
def Op.hasIdentityDeep : Op → Bool
  | .std _ _ ty => ty == .I
  | .comp children => hasIdentityDeepList children
  | .nonunitary ty _ _ _ => ty == .I
  | .classicCtrl _ _ _ _ => false
where
  /-- Helper for lists of operations. -/
  hasIdentityDeepList : List Op → Bool
    | [] => false
    | o :: os => o.hasIdentityDeep || hasIdentityDeepList os

/-- A circuit contains an identity-typed operation at some nesting level. -/
def containsIdentityDeep (ops : List Op) : Bool :=
  ops.any Op.hasIdentityDeep

/-- An operation whose compound children (if any) are not themselves
compound: one level of nesting at most. -/
def Op.flatCompound : Op → Bool
  | .comp children => children.all (fun c => !c.isCompoundOperation)
  | _ => true

/-- Shape of the operations surviving one `removeIdentities` pass on a
circuit without nested compounds: no identity type tag, and a compound has
at least two children, none identity-typed and none compound. -/
def cleanOp : Op → Prop
  | .comp children =>
      2 ≤ children.length ∧
        ∀ c ∈ children, c.getType ≠ OpType.I ∧ c.isCompoundOperation = false
  | o => o.getType ≠ OpType.I

theorem removeIdentities_clean {ops : List Op}
    (h : ∀ o ∈ ops, o.flatCompound = true) :
    ∀ o' ∈ removeIdentities ops, cleanOp o' := by
  induction ops with
  | nil => intro o' ho'; simp [removeIdentities] at ho'
  | cons o rest ih =>
    have hflat := h o (by simp)
    have hrest : ∀ o ∈ rest, o.flatCompound = true :=
      fun o ho => h o (by simp [ho])
    intro o' ho'
    unfold removeIdentities at ho'
    split at ho'
    · exact ih hrest o' ho'
    · rename_i hI
      match ho : o, ho' with
      | .comp children, ho' =>
        simp only at ho'
        have hmem : ∀ c ∈ children.filter (fun c => c.getType ≠ OpType.I),
            c.getType ≠ OpType.I ∧ c.isCompoundOperation = false := by
          intro c hc
          have hc' := List.of_mem_filter hc
          have hcm := List.mem_of_mem_filter hc
          refine ⟨by simpa using hc', ?_⟩
          have := hflat
          simp only [Op.flatCompound, List.all_eq_true] at this
          simpa using this c hcm
        split at ho'
        · exact ih hrest o' ho'
        · rename_i c hfil
          rcases List.mem_cons.mp ho' with h1 | h1
          · subst h1
            have hc : o' ∈ children.filter (fun c => c.getType ≠ OpType.I) := by
              rw [hfil]; simp
            have := hmem o' hc
            rcases ho'' : o' with _ | children' | _ | _ <;>
              simp_all [cleanOp, Op.isCompoundOperation]
          · exact ih hrest o' h1
        · rename_i c₀ c₁ cs hfil
          rcases List.mem_cons.mp ho' with h1 | h1
          · subst h1
            refine ⟨by simp, ?_⟩
            intro c hc
            exact hmem c (by rw [hfil]; exact hc)
          · exact ih hrest o' h1
      | .std cs ts ty, ho' =>
        rcases List.mem_cons.mp ho' with h1 | h1
        · subst h1; simpa [cleanOp] using hI
        · exact ih hrest o' h1
      | .nonunitary ty ts qs cls, ho' =>
        rcases List.mem_cons.mp ho' with h1 | h1
        · subst h1; simpa [cleanOp] using hI
        · exact ih hrest o' h1
      | .classicCtrl inner rs rn e, ho' =>
        rcases List.mem_cons.mp ho' with h1 | h1
        · subst h1; simpa [cleanOp] using hI
        · exact ih hrest o' h1

theorem removeIdentities_fixed {ops : List Op}
    (h : ∀ o ∈ ops, cleanOp o) : removeIdentities ops = ops := by
  induction ops with
  | nil => rfl
  | cons o rest ih =>
    have ho := h o (by simp)
    have hrest : ∀ o ∈ rest, cleanOp o := fun o ho => h o (by simp [ho])
    match hmo : o with
    | .comp children =>
      rcases ho with ⟨hlen, hch⟩
      have hfil : children.filter (fun c => c.getType ≠ OpType.I) = children :=
        List.filter_eq_self.mpr (fun c hc => by simpa using (hch c hc).1)
      match children, hlen, hfil, hch with
      | c₀ :: c₁ :: cs, _, hfil, hch =>
        simp only [removeIdentities]
        rw [hfil]
        simp [Op.getType, ih hrest]
    | .std cs ts ty =>
      have : ty ≠ OpType.I := by simpa [cleanOp, Op.getType] using ho
      simp [removeIdentities, Op.getType, this, ih hrest]
    | .nonunitary ty ts qs cls =>
      have : ty ≠ OpType.I := by simpa [cleanOp, Op.getType] using ho
      simp [removeIdentities, Op.getType, this, ih hrest]
    | .classicCtrl inner rs rn e =>
      simp [removeIdentities, Op.getType, ih hrest]

theorem cleanOp_no_identity {o : Op} (hc : cleanOp o) (hf : o.flatCompound = true) :
    o.hasIdentityDeep = false := by
  match o with
  | .comp children =>
    rcases hc with ⟨-, hch⟩
    simp only [Op.hasIdentityDeep]
    clear hf
    induction children with
    | nil => rfl
    | cons c cs ihc =>
      have h1 := hch c (by simp)
      have h2 : ∀ c ∈ cs, c.getType ≠ OpType.I ∧ c.isCompoundOperation = false :=
        fun c hc => hch c (by simp [hc])
      simp only [Op.hasIdentityDeep.hasIdentityDeepList, Bool.or_eq_false_iff]
      refine ⟨?_, ihc h2⟩
      match c, h1 with
      | .std _ _ ty, ⟨hty, _⟩ => simpa [Op.hasIdentityDeep, Op.getType] using hty
      | .nonunitary ty _ _ _, ⟨hty, _⟩ =>
          simpa [Op.hasIdentityDeep, Op.getType] using hty
      | .classicCtrl _ _ _ _, _ => rfl
  | .std _ _ ty => simpa [Op.hasIdentityDeep, cleanOp, Op.getType] using hc
  | .nonunitary ty _ _ _ => simpa [Op.hasIdentityDeep, cleanOp, Op.getType] using hc
  | .classicCtrl _ _ _ _ => rfl

theorem removeIdentities_flat {ops : List Op}
    (h : ∀ o ∈ ops, o.flatCompound = true) :
    ∀ o' ∈ removeIdentities ops, o'.flatCompound = true := by
  induction ops with
  | nil => intro o' ho'; simp [removeIdentities] at ho'
  | cons o rest ih =>
    have hflat := h o (by simp)
    have hrest : ∀ o ∈ rest, o.flatCompound = true :=
      fun o ho => h o (by simp [ho])
    intro o' ho'
    unfold removeIdentities at ho'
    split at ho'
    · exact ih hrest o' ho'
    · match ho : o, ho' with
      | .comp children, ho' =>
        simp only at ho'
        have hsub : ∀ c ∈ children.filter (fun c => c.getType ≠ OpType.I),
            c.isCompoundOperation = false := by
          intro c hc
          have hcm := List.mem_of_mem_filter hc
          have := hflat
          simp only [Op.flatCompound, List.all_eq_true] at this
          simpa using this c hcm
        split at ho'
        · exact ih hrest o' ho'
        · rename_i c hfil
          rcases List.mem_cons.mp ho' with h1 | h1
          · subst h1
            have hc : o' ∈ children.filter (fun c => c.getType ≠ OpType.I) := by
              rw [hfil]; simp
            have := hsub o' hc
            match o', this with
            | .std _ _ _, _ => rfl
            | .nonunitary _ _ _ _, _ => rfl
            | .classicCtrl _ _ _ _, _ => rfl
          · exact ih hrest o' h1
        · rename_i c₀ c₁ cs hfil
          rcases List.mem_cons.mp ho' with h1 | h1
          · subst h1
            simp only [Op.flatCompound, List.all_eq_true]
            intro c hc
            have : c ∈ children.filter (fun c => c.getType ≠ OpType.I) := by
              rw [hfil]; exact hc
            simpa using hsub c this
          · exact ih hrest o' h1
      | .std cs ts ty, ho' =>
        rcases List.mem_cons.mp ho' with h1 | h1
        · subst h1; rfl
        · exact ih hrest o' h1
      | .nonunitary ty ts qs cls, ho' =>
        rcases List.mem_cons.mp ho' with h1 | h1
        · subst h1; rfl
        · exact ih hrest o' h1
      | .classicCtrl inner rs rn e, ho' =>
        rcases List.mem_cons.mp ho' with h1 | h1
        · subst h1; rfl
        · exact ih hrest o' h1

/-- **C2 (counterexample).** With a compound nested inside a compound,
`removeIdentities` is not idempotent, and one run leaves an identity-typed
operation (here even directly among a compound's children). -/
theorem C2_counterexample :
    removeIdentities (removeIdentities [Op.comp [Op.comp [Op.std [] [0] .I]]]) ≠
        removeIdentities [Op.comp [Op.comp [Op.std [] [0] .I]]] ∧
      containsIdentityDeep
        (removeIdentities [Op.comp [Op.comp [Op.std [] [0] .I]]]) = true := by
  constructor
  · decide
  · decide

/-- **C2 (amended).** On circuits whose compounds contain no nested
compounds, a single `removeIdentities` run leaves no identity-typed
operation at any nesting level and running it twice equals running it
once. -/
theorem C2_theorem (ops : List Op)
    (h : ∀ o ∈ ops, o.flatCompound = true) :
    removeIdentities (removeIdentities ops) = removeIdentities ops ∧
      containsIdentityDeep (removeIdentities ops) = false := by
  have hclean := removeIdentities_clean h
  have hflat' := removeIdentities_flat h
  constructor
  · exact removeIdentities_fixed hclean
  · simp only [containsIdentityDeep, List.any_eq_false]
    intro o' ho'
    simp [cleanOp_no_identity (hclean o' ho') (hflat' o' ho')]

/-- Witness for C2 (amended) at a concrete flat circuit. -/
theorem C2_witness :
    removeIdentities (removeIdentities
        [Op.std [] [0] .X, Op.comp [Op.std [] [1] .I, Op.std [] [0] .H]]) =
      removeIdentities
        [Op.std [] [0] .X, Op.comp [Op.std [] [1] .I, Op.std [] [0] .H]] ∧
    containsIdentityDeep (removeIdentities
        [Op.std [] [0] .X, Op.comp [Op.std [] [1] .I, Op.std [] [0] .H]]) = false :=
  C2_theorem _ (by decide)

/-! ## decomposeSWAP (`CircuitOptimizer::decomposeSWAP`) -/

/-- The sequence of operations `CircuitOptimizer::decomposeSWAP` leaves at
the position of one erased SWAP with target vector `ts` (after its
erase/insert dance): three CNOTs, or — on a directed architecture — three
CNOTs of one fixed direction with Hadamard sandwiches.  `ts[0]`/`ts[1]` are
vector indexing in the C++; out-of-range access is undefined there and
modelled by a default. -/
def swapReplacement (directed : Bool) (ts : List Nat) : List Op :=
  let t0 := ts.getD 0 0
  let t1 := ts.getD 1 0
  if directed then
    [Op.std [⟨t0, .Pos⟩] [t1] .X, Op.std [] [t1] .H, Op.std [] [t0] .H,
     Op.std [⟨t0, .Pos⟩] [t1] .X, Op.std [] [t1] .H, Op.std [] [t0] .H,
     Op.std [⟨t0, .Pos⟩] [t1] .X]
  else
    [Op.std [⟨t0, .Pos⟩] [t1] .X, Op.std [⟨t1, .Pos⟩] [t0] .X,
     Op.std [⟨t0, .Pos⟩] [t1] .X]

/-- The child loop of `CircuitOptimizer::decomposeSWAP`: replaces standard
SWAP children of a compound (one level, no recursion into nested
compounds). -/
def decomposeSWAPChildren (directed : Bool) : List Op → List Op
  | [] => []
  | c :: cs =>
    if c.isStandardOperation && c.getType == OpType.SWAP then
      swapReplacement directed c.getTargets ++ decomposeSWAPChildren directed cs
    else c :: decomposeSWAPChildren directed cs

/-- `CircuitOptimizer::decomposeSWAP`: replaces every top-level standard
SWAP, and every standard SWAP directly inside a top-level compound, by its
replacement sequence. -/
def decomposeSWAP (directed : Bool) : List Op → List Op
  | [] => []
  | o :: rest =>
    if o.isStandardOperation && o.getType == OpType.SWAP then
      swapReplacement directed o.getTargets ++ decomposeSWAP directed rest
    else
      match o with
      | .comp children =>
          .comp (decomposeSWAPChildren directed children) ::
            decomposeSWAP directed rest
      | other => other :: decomposeSWAP directed rest

/-- Spec-side reading of "contains a SWAP operation" at any compound
nesting depth. -/
def Op.hasSwapDeep : Op → Bool
  | .std _ _ ty => ty == .SWAP
  | .comp children => hasSwapDeepList children
  | .nonunitary _ _ _ _ => false
  | .classicCtrl _ _ _ _ => false
where
  /-- Helper for lists of operations. -/
  hasSwapDeepList : List Op → Bool
    | [] => false
    | o :: os => o.hasSwapDeep || hasSwapDeepList os

/-- A circuit contains a standard SWAP at some nesting level. -/
def containsSwapDeep (ops : List Op) : Bool := ops.any Op.hasSwapDeep

/-- The claim's three-CNOT sequence `CNOT(a,b); CNOT(b,a); CNOT(a,b)`. -/
def swapCNOTs (a b : Nat) : List Op :=
  [Op.std [⟨a, .Pos⟩] [b] .X, Op.std [⟨b, .Pos⟩] [a] .X,
   Op.std [⟨a, .Pos⟩] [b] .X]

/-- Rewrite described by the amended claim for an operation directly inside
a top-level compound: a standard SWAP gate on qubits `(a, b)` (its first
and second target) becomes the three CNOTs `CNOT(a,b); CNOT(b,a);
CNOT(a,b)`; everything else stays unchanged. -/
def specSwapChild (o : Op) : List Op :=
  if o.isStandardOperation && o.getType == OpType.SWAP then
    swapCNOTs (o.getTargets.getD 0 0) (o.getTargets.getD 1 0)
  else [o]

/-- Rewrite described by the amended claim for a top-level operation: a
standard SWAP becomes three CNOTs, a compound keeps its place with each
child rewritten one level deep, everything else (including any compound
nested inside a compound, with all its contents) stays unchanged. -/
def specSwapTop (o : Op) : List Op :=
  if o.isStandardOperation && o.getType == OpType.SWAP then
    swapCNOTs (o.getTargets.getD 0 0) (o.getTargets.getD 1 0)
  else
    match o with
    | .comp children => [.comp (children.flatMap specSwapChild)]
    | o => [o]

theorem decomposeSWAPChildren_spec (children : List Op) :
    decomposeSWAPChildren false children = children.flatMap specSwapChild := by
  induction children with
  | nil => rfl
  | cons c cs ih =>
    by_cases hc : (c.isStandardOperation && c.getType == OpType.SWAP) = true
    · simp [decomposeSWAPChildren, hc, specSwapChild, swapReplacement,
        swapCNOTs, ih]
    · simp [decomposeSWAPChildren, hc, specSwapChild, ih]

/-- **C6 (counterexample).** A SWAP nested two compound levels deep is left
completely unchanged by `decomposeSWAP(directed = false)`, although the
circuit contains a SWAP inside a compound operation. -/
theorem C6_counterexample :
    decomposeSWAP false [Op.comp [Op.comp [Op.std [] [0, 1] .SWAP]]] =
        [Op.comp [Op.comp [Op.std [] [0, 1] .SWAP]]] ∧
      containsSwapDeep [Op.comp [Op.comp [Op.std [] [0, 1] .SWAP]]] = true := by
  constructor
  · decide
  · decide

/-- **C6 (amended).** `decomposeSWAP(directed = false)` replaces each SWAP
at the top level, or directly inside a top-level compound, by
`CNOT(a,b); CNOT(b,a); CNOT(a,b)` in place, and leaves every other
operation — including SWAPs nested deeper than one compound level —
unchanged: the pass equals the pointwise rewrite `specSwapTop`. -/
theorem C6_theorem (ops : List Op) :
    decomposeSWAP false ops = ops.flatMap specSwapTop := by
  induction ops with
  | nil => rfl
  | cons o rest ih =>
    by_cases hc : (o.isStandardOperation && o.getType == OpType.SWAP) = true
    · simp [decomposeSWAP, hc, specSwapTop, swapReplacement, swapCNOTs, ih]
    · match o with
      | .comp children =>
        simp [decomposeSWAP, hc, specSwapTop,
          decomposeSWAPChildren_spec children, ih]
      | .std cs' ts' ty' => simp [decomposeSWAP, hc, specSwapTop, ih]
      | .nonunitary ty ts qs cls => simp [decomposeSWAP, hc, specSwapTop, ih]
      | .classicCtrl i r n e => simp [decomposeSWAP, hc, specSwapTop, ih]

/-! ## swapReconstruction (`CircuitOptimizer::swapReconstruction`)

The pass walks the circuit keeping a lane DAG: per qubit, the indices of
the operations pushed so far that touch it.  Lanes are stored most-recent
first, so `push` is cons, `back` is the head and `pop_back` is the tail;
lanes are a total function on qubits (the C++ `DAG` is a vector of
`highestPhysicalQubit + 1` lanes whose `.at` would throw on a qubit out of
range; the claims concern circuits whose qubits are in range). -/

/-- Push operation index `i` onto qubit `q`'s lane. -/
def lanePush (lanes : Nat → List Nat) (q i : Nat) : Nat → List Nat :=
  fun p => if p = q then i :: lanes p else lanes p

/-- Pop the most recent entry of qubit `q`'s lane. -/
def lanePop (lanes : Nat → List Nat) (q : Nat) : Nat → List Nat :=
  fun p => if p = q then (lanes p).tail else lanes p

/-- `CircuitOptimizer::addToDag`: push the operation onto the lane of every
control and of every target. -/
def addToDag (lanes : Nat → List Nat) (i : Nat) (o : Op) : Nat → List Nat :=
  let l1 := o.getControls.foldl (fun ls c => lanePush ls c.qubit i) lanes
  o.getTargets.foldl (fun ls t => lanePush ls t i) l1

/-- `CircuitOptimizer::addNonStandardOperationToDag`: a compound is pushed
onto every used qubit's lane, a non-unitary operation onto every target's
lane, and a classic-controlled operation onto the lanes of its wrapped
operation's controls and targets.  (The C++ `throw` for an unknown variant
is unreachable: the four variants are the whole hierarchy.) -/
def addNonStdToDag (lanes : Nat → List Nat) (i : Nat) (o : Op) :
    Nat → List Nat :=
  match o with
  | .comp _ => o.getUsedQubits.foldl (fun ls q => lanePush ls q i) lanes
  | .nonunitary _ _ _ _ =>
      o.getTargets.foldl (fun ls t => lanePush ls t i) lanes
  | .classicCtrl inner _ _ _ => addToDag lanes i inner
  | .std _ _ _ => addToDag lanes i o

/-- `setGate(I)` followed by `clearControls()` on a standard operation. -/
def setToIdentity (o : Op) : Op :=
  match o with
  | .std _ ts _ => .std [] ts .I
  | o => o

/-- State of the swapReconstruction walk: the circuit slots (mutated in
place) and the lane DAG. -/
structure SwapSt where
  slots : List Op
  lanes : Nat → List Nat

/-- Placeholder returned by out-of-range slot reads (never hit on the
indices the walk uses). -/
def dummyOp : Op := .std [] [] .I

/-- One iteration of the swapReconstruction loop, processing the operation
at slot `i`: the literal translation of the loop body, including the
elimination branch (identical previous CNOT) and the
SWAP-plus-CNOT rewrite branch (reversed previous CNOT). -/
def swapStep (s : SwapSt) (i : Nat) : SwapSt :=
  let o := s.slots.getD i dummyOp
  if !o.isStandardOperation then { s with lanes := addNonStdToDag s.lanes i o }
  else if !(o.getType == OpType.X && o.getNcontrols == 1 &&
      (o.getControls.headD ⟨0, .Pos⟩).ctype == CtrlType.Pos) then
    { s with lanes := addToDag s.lanes i o }
  else
    let control := (o.getControls.headD ⟨0, .Pos⟩).qubit
    let target := o.getTargets.getD 0 0
    if (s.lanes control).isEmpty || (s.lanes target).isEmpty then
      { s with lanes := addToDag s.lanes i o }
    else
      let jC := (s.lanes control).headD 0
      let jT := (s.lanes target).headD 0
      let opC := s.slots.getD jC dummyOp
      let opT := s.slots.getD jT dummyOp
      if !(opC.getType == OpType.X && opC.getNcontrols == 1 &&
          (opC.getControls.headD ⟨0, .Pos⟩).ctype == CtrlType.Pos &&
          opT.getType == OpType.X && opT.getNcontrols == 1 &&
          (opT.getControls.headD ⟨0, .Pos⟩).ctype == CtrlType.Pos) then
        { s with lanes := addToDag s.lanes i o }
      else
        let opCcontrol := (opC.getControls.headD ⟨0, .Pos⟩).qubit
        let opCtarget := opC.getTargets.getD 0 0
        let opTcontrol := (opT.getControls.headD ⟨0, .Pos⟩).qubit
        let opTtarget := opT.getTargets.getD 0 0
        if !(opCcontrol == opTcontrol && opCtarget == opTtarget) then
          { s with lanes := addToDag s.lanes i o }
        else if control == opCcontrol && target == opCtarget then
          let lanes := lanePop (lanePop s.lanes control) target
          let slots := (s.slots.set jC (setToIdentity opC)).set i
            (setToIdentity o)
          ⟨slots, lanes⟩
        else if control == opCtarget && target == opCcontrol then
          let lanes := lanePop (lanePop s.lanes control) target
          let newPrev := Op.std []
            (if target > control then [control, target] else [target, control])
            .SWAP
          let slots1 := s.slots.set jC newPrev
          let lanes1 := addToDag lanes jC newPrev
          let newCur := Op.std [⟨target, .Pos⟩] [control] .X
          ⟨slots1.set i newCur, addToDag lanes1 i newCur⟩
        else { s with lanes := addToDag s.lanes i o }

/-- `CircuitOptimizer::swapReconstruction`: run the walk over all slots in
program order, then remove the identities it left behind. -/
def swapReconstruction (qc : Circuit) : Circuit :=
  let final := (List.range qc.ops.length).foldl swapStep ⟨qc.ops, fun _ => []⟩
  ⟨qc.nqubits, removeIdentities final.slots⟩

/-- **C1 (counterexample).** On `[CNOT(1→0), CNOT(0→1)]` the reversed-CNOT
rewrite fires: the earlier operation becomes `SWAP(0,1)` (ascending), but
the current operation becomes `CNOT(1→0)` — control and target swapped
relative to its own pre-rewrite direction `CNOT(0→1)` — so the direction of
the current CNOT is *not* preserved. -/
theorem C1_counterexample :
    swapReconstruction
        ⟨2, [Op.std [⟨1, .Pos⟩] [0] .X, Op.std [⟨0, .Pos⟩] [1] .X]⟩ =
        ⟨2, [Op.std [] [0, 1] .SWAP, Op.std [⟨1, .Pos⟩] [0] .X]⟩ ∧
      swapReconstruction
          ⟨2, [Op.std [⟨1, .Pos⟩] [0] .X, Op.std [⟨0, .Pos⟩] [1] .X]⟩ ≠
        ⟨2, [Op.std [] [0, 1] .SWAP, Op.std [⟨0, .Pos⟩] [1] .X]⟩ := by
  constructor
  · decide
  · decide

/-- **C1 (amended).** When the walk reaches a positive-control single-target
CNOT `control = c`, `target = t` whose previous operation on both lanes is
the same instance and is the reversed CNOT `CNOT(t→c)`, the earlier
operation is rewritten to a SWAP on the two qubits with targets in
ascending order, and the current operation becomes the CNOT `CNOT(t→c)` —
its former target as control and its former control as target (the
direction of the *earlier* CNOT of the pair, not the current one). -/
theorem C1_theorem (slots : List Op) (lanes : Nat → List Nat)
    (i jC c t : Nat) (restC restT : List Nat)
    (hne : c ≠ t) (hij : jC ≠ i)
    (hi : slots.get? i = some (Op.std [⟨c, .Pos⟩] [t] .X))
    (hLc : lanes c = jC :: restC) (hLt : lanes t = jC :: restT)
    (hprev : slots.get? jC = some (Op.std [⟨t, .Pos⟩] [c] .X)) :
    (swapStep ⟨slots, lanes⟩ i).slots.get? jC =
        some (Op.std [] [min c t, max c t] .SWAP) ∧
      (swapStep ⟨slots, lanes⟩ i).slots.get? i =
        some (Op.std [⟨t, .Pos⟩] [c] .X) := by
  rw [List.get?_eq_getElem?] at hi hprev
  have hiLen : i < slots.length := (List.getElem?_eq_some.mp hi).1
  have hjLen : jC < slots.length := (List.getElem?_eq_some.mp hprev).1
  have hmm : (if t > c then [c, t] else [t, c]) = [min c t, max c t] := by
    rcases Nat.lt_or_ge c t with hlt | hge
    · simp [hlt, Nat.min_def, Nat.max_def, Nat.le_of_lt hlt]
    · have hgt : t < c := Nat.lt_of_le_of_ne hge (Ne.symm hne)
      have hnot : ¬ (t > c) := by omega
      simp only [hnot, if_false, Nat.min_def, Nat.max_def]
      have h1 : ¬ (c ≤ t) := by omega
      simp [h1]
  simp only [swapStep]
  simp [Op.isStandardOperation, Op.getType, Op.getNcontrols, Op.getControls,
    Op.getTargets, hi, hprev, hLc, hLt, hne, Ne.symm hne, hmm]
  constructor
  · rw [List.getElem?_set_ne hij.symm, List.getElem?_set_self hjLen]
  · rw [List.getElem?_set_self]
    simpa using hiLen

/-- Witness for C1 (amended) at the concrete two-CNOT circuit. -/
theorem C1_witness :
    ((swapStep ⟨[Op.std [⟨1, .Pos⟩] [0] .X, Op.std [⟨0, .Pos⟩] [1] .X],
          fun p => if p = 0 then [0] else if p = 1 then [0] else []⟩
        1).slots.get? 0 = some (Op.std [] [min 0 1, max 0 1] .SWAP)) ∧
      ((swapStep ⟨[Op.std [⟨1, .Pos⟩] [0] .X, Op.std [⟨0, .Pos⟩] [1] .X],
          fun p => if p = 0 then [0] else if p = 1 then [0] else []⟩
        1).slots.get? 1 = some (Op.std [⟨1, .Pos⟩] [0] .X)) :=
  C1_theorem _ _ 1 0 0 1 [] [] (by decide) (by decide) rfl rfl rfl rfl

/-! ## isDynamicCircuit (`CircuitOptimizer::isDynamicCircuit`)

The pass builds its own value-based lane DAG (per qubit, the operations —
respectively compound *children* — touching it, most recent first), records
whether a Measure was seen, and returns `true` early on any top-level Reset
or classic-controlled operation or any compound child whose type is Reset
or which is classic-controlled.  It then walks each lane backwards from the
end. -/

/-- Push a value onto the lanes of each qubit in `L`. -/
def dynPushAll (lanes : Nat → List Op) (L : List Nat) (o : Op) :
    Nat → List Op :=
  L.foldl (fun ls x => fun p => if p = x then o :: ls p else ls p) lanes

/-- `addToDag` for the value-based DAG: push onto every control's and every
target's lane. -/
def dynAddToDag (lanes : Nat → List Op) (o : Op) : Nat → List Op :=
  dynPushAll (dynPushAll lanes (o.getControls.map Ctrl.qubit) o)
    o.getTargets o

/-- The compound-children loop of `isDynamicCircuit`: `none` stands for the
early `return true` (Reset-typed or classic-controlled child). -/
def dynScanChildren (lanes : Nat → List Op) (hm : Bool) :
    List Op → Option ((Nat → List Op) × Bool)
  | [] => some (lanes, hm)
  | c :: cs =>
    if c.getType == OpType.Reset || c.isClassicControlledOperation then none
    else
      let hm := hm || c.getType == OpType.Measure
      if c.isNonUnitaryOperation then
        dynScanChildren (dynPushAll lanes c.getTargets c) hm cs
      else dynScanChildren (dynAddToDag lanes c) hm cs

/-- The DAG-building loop of `isDynamicCircuit`: `none` stands for the
early `return true`. -/
def dynScan (lanes : Nat → List Op) (hm : Bool) :
    List Op → Option ((Nat → List Op) × Bool)
  | [] => some (lanes, hm)
  | o :: rest =>
    match o with
    | .std _ _ _ => dynScan (dynAddToDag lanes o) hm rest
    | .nonunitary ty _ _ _ =>
        if ty = .Reset then none
        else
          dynScan (dynPushAll lanes o.getTargets o)
            (hm || ty == OpType.Measure) rest
    | .classicCtrl _ _ _ _ => none
    | .comp children =>
        match dynScanChildren lanes hm children with
        | none => none
        | some (lanes', hm') => dynScan lanes' hm' rest

/-- The operation kinds that set the per-qubit `operation` flag in the
backward lane walk: standard, classic-controlled, compound, or
Reset-typed. -/
def dynCountedKind (o : Op) : Bool :=
  o.isStandardOperation || o.isClassicControlledOperation ||
    o.isCompoundOperation || o.getType == OpType.Reset

/-- The backward walk over one lane (stored most recent first): stop at the
first Measure-typed entry and report whether a counted operation was seen
before it; without a Measure the lane contributes nothing. -/
def laneDynamic : List Op → Bool → Bool
  | [], _ => false
  | o :: os, opSeen =>
    if o.getType == OpType.Measure then opSeen
    else laneDynamic os (opSeen || dynCountedKind o)

/-- `CircuitOptimizer::isDynamicCircuit`. -/
def isDynamicCircuit (qc : Circuit) : Bool :=
  match dynScan (fun _ => []) false qc.ops with
  | none => true
  | some (lanes, hasMeasurements) =>
      if !hasMeasurements then false
      else (List.range qc.nqubits).any fun q => laneDynamic (lanes q) false

/-- Spec-side reading of "contains a Reset or ClassicControlledOperation
anywhere (top level or inside a Compound)", through every nesting level. -/
def Op.hasResetOrCCDeep : Op → Bool
  | .std _ _ ty => ty == .Reset
  | .comp children => hasResetOrCCDeepList children
  | .nonunitary ty _ _ _ => ty == .Reset
  | .classicCtrl _ _ _ _ => true
where
  /-- Helper for lists of operations. -/
  hasResetOrCCDeepList : List Op → Bool
    | [] => false
    | o :: os => o.hasResetOrCCDeep || hasResetOrCCDeepList os

/-- One level of compound flattening: a top-level compound contributes its
children, every other operation itself (the dynamic-circuit DAG pushes
compound children individually). -/
def flattenTop (ops : List Op) : List Op :=
  ops.flatMap fun o =>
    match o with
    | .comp cs => cs
    | o => [o]

/-- An operation touches qubit `q`'s lane when `q` is among its controls or
targets (for a compound: none, its children stand in for it; for a Measure
the measured qubits are its targets). -/
def laneTouches (o : Op) (q : Nat) : Bool :=
  o.getControls.any (fun c => c.qubit == q) || o.getTargets.contains q

/-- The lane of qubit `q` as the spec describes it: the operations (with
top-level compounds replaced by their children) touching `q`, in program
order. -/
def specLane (ops : List Op) (q : Nat) : List Op :=
  (flattenTop ops).filter (fun o => laneTouches o q)

/-- A Reset or classic-controlled operation at the top level or directly
inside a top-level compound (the shapes `isDynamicCircuit` actually
detects): a top-level one is detected by variant, a compound child by its
type tag. -/
def topRCC (o : Op) : Bool :=
  match o with
  | .nonunitary ty _ _ _ => ty == .Reset
  | .classicCtrl _ _ _ _ => true
  | .comp children =>
      children.any fun c =>
        c.getType == OpType.Reset || c.isClassicControlledOperation
  | .std _ _ _ => false

/-- The circuit has a Reset or classic-controlled operation at nesting
depth at most one. -/
def hasRCCShallow (ops : List Op) : Bool := ops.any topRCC

/-- A Measure at the top level (as a non-unitary operation) or as a
compound child (by type tag). -/
def topMeas (o : Op) : Bool :=
  match o with
  | .nonunitary ty _ _ _ => ty == .Measure
  | .comp children => children.any fun c => c.getType == OpType.Measure
  | _ => false

/-- The circuit has a Measure at nesting depth at most one. -/
def hasMeasShallow (ops : List Op) : Bool := ops.any topMeas

/-- The claim's per-lane condition, on a lane in program order: the lane
has a Measure, and some operation of a counted kind (standard, compound,
classic-controlled, Reset-typed) sits after the lane's last Measure. -/
def specLaneDynamic (lane : List Op) : Bool :=
  lane.any (fun o => o.getType == OpType.Measure) &&
    ((lane.reverse.takeWhile fun o => !(o.getType == OpType.Measure)).any
      dynCountedKind)

/-- The amended claim's reading of `isDynamicCircuit`: a shallow Reset or
classic-controlled operation, or a Measure together with some qubit whose
lane has a counted operation after its last Measure. -/
def specIsDynamic (qc : Circuit) : Bool :=
  hasRCCShallow qc.ops ||
    (hasMeasShallow qc.ops &&
      (List.range qc.nqubits).any fun q => specLaneDynamic (specLane qc.ops q))

/-- Each qubit appears at most once among an operation's controls and
targets (the data model's fixed-arity shape; it makes an operation appear
once per lane it touches). -/
def Op.laneWF (o : Op) : Bool :=
  decide ((o.getControls.map Ctrl.qubit ++ o.getTargets).Nodup)

/-- Lane well-formedness down to compound children. -/
def laneWFShallow (ops : List Op) : Bool :=
  ops.all fun o =>
    o.laneWF &&
      (match o with
       | .comp cs => cs.all Op.laneWF
       | _ => true)

theorem dynPushAll_apply (L : List Nat) (lanes : Nat → List Op) (o : Op)
    (q : Nat) :
    dynPushAll lanes L o q = List.replicate (L.count q) o ++ lanes q := by
  induction L generalizing lanes with
  | nil => simp [dynPushAll]
  | cons x L ih =>
    simp only [dynPushAll, List.foldl_cons] at ih ⊢
    rw [ih]
    by_cases hx : q = x
    · subst hx
      simp [List.count_cons, List.replicate_succ']
    · simp [List.count_cons, hx, Ne.symm hx]

theorem dynAddToDag_apply (lanes : Nat → List Op) (o : Op) (q : Nat)
    (hwf : o.laneWF = true) :
    dynAddToDag lanes o q =
      if laneTouches o q then o :: lanes q else lanes q := by
  have hnd : (o.getControls.map Ctrl.qubit ++ o.getTargets).Nodup := by
    simpa [Op.laneWF] using hwf
  have hcount :
      (o.getControls.map Ctrl.qubit ++ o.getTargets).count q ≤ 1 :=
    List.nodup_iff_count_le_one.mp hnd q
  have happ : dynAddToDag lanes o q =
      List.replicate ((o.getControls.map Ctrl.qubit ++ o.getTargets).count q)
        o ++ lanes q := by
    simp only [dynAddToDag, dynPushAll_apply, List.count_append,
      List.replicate_add, List.append_assoc]
    rw [← List.append_assoc, ← List.replicate_add, ← List.append_assoc,
      ← List.replicate_add, Nat.add_comm]
  have hmem : laneTouches o q = true ↔
      q ∈ o.getControls.map Ctrl.qubit ++ o.getTargets := by
    simp only [laneTouches, List.mem_append, List.mem_map, Bool.or_eq_true,
      List.any_eq_true, beq_iff_eq, List.elem_iff]
  by_cases ht : laneTouches o q = true
  · have hq : q ∈ o.getControls.map Ctrl.qubit ++ o.getTargets := hmem.mp ht
    have h1 : 0 < (o.getControls.map Ctrl.qubit ++ o.getTargets).count q :=
      List.count_pos_iff.mpr hq
    have hc1 : (o.getControls.map Ctrl.qubit ++ o.getTargets).count q = 1 := by
      omega
    simp [happ, hc1, ht]
  · have hq : q ∉ o.getControls.map Ctrl.qubit ++ o.getTargets :=
      fun hq => ht (hmem.mpr hq)
    have hc0 : (o.getControls.map Ctrl.qubit ++ o.getTargets).count q = 0 :=
      List.count_eq_zero.mpr hq
    simp only [Bool.not_eq_true] at ht
    simp [happ, hc0, ht]

theorem dynScanChildren_char (children : List Op) :
    ∀ (lanes0 : Nat → List Op) (hm0 : Bool),
      children.all Op.laneWF = true →
      ((dynScanChildren lanes0 hm0 children = none ↔
        (children.any fun c =>
          c.getType == OpType.Reset || c.isClassicControlledOperation) = true) ∧
      (∀ lanes hm, dynScanChildren lanes0 hm0 children = some (lanes, hm) →
        (∀ q, lanes q =
            (children.filter (fun c => laneTouches c q)).reverse ++ lanes0 q) ∧
        hm = (hm0 || children.any fun c => c.getType == OpType.Measure))) := by
  induction children with
  | nil =>
    intro lanes0 hm0 _
    refine ⟨by simp [dynScanChildren], ?_⟩
    intro lanes hm h
    simp only [dynScanChildren, Option.some.injEq, Prod.mk.injEq] at h
    obtain ⟨h1, h2⟩ := h
    subst h1; subst h2
    simp
  | cons c cs ih =>
    intro lanes0 hm0 hwf
    simp only [List.all_cons, Bool.and_eq_true] at hwf
    by_cases hrc :
        (c.getType == OpType.Reset || c.isClassicControlledOperation) = true
    · refine ⟨by simp [dynScanChildren, hrc], ?_⟩
      intro lanes hm h
      simp [dynScanChildren, hrc] at h
    · have hrc' :
          (c.getType == OpType.Reset || c.isClassicControlledOperation) =
            false := by simpa using hrc
      have hscan : dynScanChildren lanes0 hm0 (c :: cs) =
          dynScanChildren (dynAddToDag lanes0 c)
            (hm0 || c.getType == OpType.Measure) cs := by
        simp only [dynScanChildren, hrc', Bool.false_eq_true, if_false]
        match c with
        | .nonunitary ty ts qs cls => rfl
        | .std _ _ _ => rfl
        | .comp _ => rfl
        | .classicCtrl _ _ _ _ => rfl
      obtain ⟨ihNone, ihSome⟩ :=
        ih (dynAddToDag lanes0 c) (hm0 || c.getType == OpType.Measure) hwf.2
      constructor
      · rw [hscan, ihNone]
        simp [hrc']
      · intro lanes hm h
        rw [hscan] at h
        obtain ⟨hLanes, hHm⟩ := ihSome lanes hm h
        constructor
        · intro q
          rw [hLanes q, dynAddToDag_apply _ _ _ hwf.1]
          by_cases ht : laneTouches c q = true
          · simp [List.filter_cons, ht]
          · simp only [Bool.not_eq_true] at ht
            simp [List.filter_cons, ht]
        · rw [hHm]
          simp [Bool.or_assoc]

theorem dynScan_char (ops : List Op) :
    ∀ (lanes0 : Nat → List Op) (hm0 : Bool),
      laneWFShallow ops = true →
      ((dynScan lanes0 hm0 ops = none ↔ hasRCCShallow ops = true) ∧
      (∀ lanes hm, dynScan lanes0 hm0 ops = some (lanes, hm) →
        (∀ q, lanes q = (specLane ops q).reverse ++ lanes0 q) ∧
        hm = (hm0 || hasMeasShallow ops))) := by
  induction ops with
  | nil =>
    intro lanes0 hm0 _
    refine ⟨by simp [dynScan, hasRCCShallow], ?_⟩
    intro lanes hm h
    simp only [dynScan, Option.some.injEq, Prod.mk.injEq] at h
    obtain ⟨h1, h2⟩ := h
    subst h1; subst h2
    simp [specLane, flattenTop, hasMeasShallow]
  | cons o rest ih =>
    intro lanes0 hm0 hwf
    simp only [laneWFShallow, List.all_cons, Bool.and_eq_true] at hwf
    have hwfRest : laneWFShallow rest = true := hwf.2
    have hconsLane : ∀ (q : Nat) (L : List Op),
        (specLane (o :: rest) q).reverse ++ L =
          (specLane rest q).reverse ++
            (((match o with | .comp cc => cc | o => [o]).filter
              (fun c => laneTouches c q)).reverse ++ L) := by
      intro q L
      simp [specLane, flattenTop, List.filter_append, List.reverse_append]
    cases o with
    | std scs sts sty =>
      have hscan : dynScan lanes0 hm0 (Op.std scs sts sty :: rest) =
          dynScan (dynAddToDag lanes0 (Op.std scs sts sty)) hm0 rest := rfl
      obtain ⟨ihNone, ihSome⟩ :=
        ih (dynAddToDag lanes0 (Op.std scs sts sty)) hm0 hwfRest
      constructor
      · rw [hscan, ihNone]
        simp [hasRCCShallow, topRCC]
      · intro lanes hm h
        rw [hscan] at h
        obtain ⟨hLanes, hHm⟩ := ihSome lanes hm h
        constructor
        · intro q
          rw [hLanes q, dynAddToDag_apply _ _ _ hwf.1.1, hconsLane]
          by_cases ht : laneTouches (Op.std scs sts sty) q = true
          · simp [List.filter_cons, ht]
          · simp only [Bool.not_eq_true] at ht
            simp [List.filter_cons, ht]
        · rw [hHm]
          simp [hasMeasShallow, topMeas]
    | nonunitary ty ts qs cls =>
      by_cases hres : ty = OpType.Reset
      · subst hres
        refine ⟨by simp [dynScan, hasRCCShallow, topRCC], ?_⟩
        intro lanes hm h
        simp [dynScan] at h
      · have hpush : dynPushAll lanes0 (Op.nonunitary ty ts qs cls).getTargets
            (Op.nonunitary ty ts qs cls) =
              dynAddToDag lanes0 (Op.nonunitary ty ts qs cls) := rfl
        have hscan : dynScan lanes0 hm0 (Op.nonunitary ty ts qs cls :: rest) =
            dynScan (dynAddToDag lanes0 (Op.nonunitary ty ts qs cls))
              (hm0 || ty == OpType.Measure) rest := by
          simp only [dynScan, hres, if_false, hpush]
        obtain ⟨ihNone, ihSome⟩ :=
          ih (dynAddToDag lanes0 (Op.nonunitary ty ts qs cls))
            (hm0 || ty == OpType.Measure) hwfRest
        constructor
        · rw [hscan, ihNone]
          simp [hasRCCShallow, topRCC, hres]
        · intro lanes hm h
          rw [hscan] at h
          obtain ⟨hLanes, hHm⟩ := ihSome lanes hm h
          constructor
          · intro q
            rw [hLanes q, dynAddToDag_apply _ _ _ hwf.1.1, hconsLane]
            by_cases ht :
                laneTouches (Op.nonunitary ty ts qs cls) q = true
            · simp [List.filter_cons, ht]
            · simp only [Bool.not_eq_true] at ht
              simp [List.filter_cons, ht]
          · rw [hHm]
            simp [hasMeasShallow, topMeas, Bool.or_assoc]
    | classicCtrl inner rs rn e =>
      refine ⟨by simp [dynScan, hasRCCShallow, topRCC], ?_⟩
      intro lanes hm h
      simp [dynScan] at h
    | comp children =>
      have hwfCh : children.all Op.laneWF = true := by
        simpa using hwf.1.2
      obtain ⟨chNone, chSome⟩ := dynScanChildren_char children lanes0 hm0 hwfCh
      by_cases hch : dynScanChildren lanes0 hm0 children = none
      · have hrcc :
            (children.any fun c =>
              c.getType == OpType.Reset || c.isClassicControlledOperation) =
              true := chNone.mp hch
        refine ⟨?_, ?_⟩
        · simp [dynScan, hch, hasRCCShallow, topRCC, hrcc]
        · intro lanes hm h
          simp [dynScan, hch] at h
      · obtain ⟨⟨lanes1, hm1⟩, hsome⟩ := Option.ne_none_iff_exists'.mp hch
        have hrcc :
            (children.any fun c =>
              c.getType == OpType.Reset || c.isClassicControlledOperation) =
              false := by
          rcases Bool.eq_false_or_eq_true (children.any fun c =>
            c.getType == OpType.Reset || c.isClassicControlledOperation) with
            ht | hf
          · exact absurd (chNone.mpr ht) hch
          · exact hf
        obtain ⟨chLanes, chHm⟩ := chSome lanes1 hm1 hsome
        have hscan : dynScan lanes0 hm0 (Op.comp children :: rest) =
            dynScan lanes1 hm1 rest := by
          simp [dynScan, hsome]
        obtain ⟨ihNone, ihSome⟩ := ih lanes1 hm1 hwfRest
        constructor
        · rw [hscan, ihNone]
          simp [hasRCCShallow, topRCC, hrcc]
        · intro lanes hm h
          rw [hscan] at h
          obtain ⟨hLanes, hHm⟩ := ihSome lanes hm h
          constructor
          · intro q
            rw [hLanes q, chLanes q, hconsLane]
          · rw [hHm, chHm]
            simp [hasMeasShallow, topMeas, Bool.or_assoc]

theorem laneDynamic_char (M : List Op) :
    ∀ b : Bool, laneDynamic M b =
      (M.any (fun o => o.getType == OpType.Measure) &&
        (b || (M.takeWhile (fun o => !(o.getType == OpType.Measure))).any
          dynCountedKind)) := by
  induction M with
  | nil => intro b; simp [laneDynamic]
  | cons o os ih =>
    intro b
    by_cases hm : (o.getType == OpType.Measure) = true
    · simp [laneDynamic, hm, List.takeWhile_cons]
    · simp only [Bool.not_eq_true] at hm
      simp [laneDynamic, hm, ih, List.takeWhile_cons, Bool.or_assoc]

/-- **C7 (counterexample).** A Reset nested two compound levels deep is a
Reset "anywhere" in the circuit, yet `isDynamicCircuit` returns `false`:
the compound-child scan does not recurse into nested compounds. -/
theorem C7_counterexample :
    Op.hasResetOrCCDeep (Op.comp [Op.comp [Op.nonunitary .Reset [0] [] []]]) =
        true ∧
      isDynamicCircuit
          ⟨1, [Op.comp [Op.comp [Op.nonunitary .Reset [0] [] []]]]⟩ =
        false := by
  constructor
  · decide
  · decide

/-- **C7 (amended).** For circuits whose per-operation qubit mentions are
duplicate-free, `isDynamicCircuit` returns true exactly when the circuit
has a Reset or classic-controlled operation at the top level or directly
inside a top-level compound, or else has a Measure at those depths and
some qubit (below the qubit count) whose lane contains a standard,
compound, classic-controlled or Reset-typed operation after that lane's
last Measure in program order.  Deeper nesting is invisible to the pass. -/
theorem C7_theorem (qc : Circuit) (hwf : laneWFShallow qc.ops = true) :
    isDynamicCircuit qc = specIsDynamic qc := by
  obtain ⟨scNone, scSome⟩ := dynScan_char qc.ops (fun _ => []) false hwf
  unfold isDynamicCircuit specIsDynamic
  cases hsc : dynScan (fun _ => []) false qc.ops with
  | none =>
    have := scNone.mp hsc
    simp [this]
  | some p =>
    obtain ⟨lanes, hm⟩ := p
    obtain ⟨hLanes, hHm⟩ := scSome lanes hm hsc
    have hrcc : hasRCCShallow qc.ops = false := by
      rcases Bool.eq_false_or_eq_true (hasRCCShallow qc.ops) with ht | hf
      · exact absurd (scNone.mpr ht) (by simp [hsc])
      · exact hf
    have hq : ∀ q, laneDynamic (lanes q) false = specLaneDynamic
        (specLane qc.ops q) := by
      intro q
      rw [hLanes q]
      simp [laneDynamic_char, specLaneDynamic, List.any_reverse]
    rw [hHm]
    simp only [hrcc, Bool.false_or, Bool.false_eq_true, if_false]
    by_cases hms : hasMeasShallow qc.ops = true
    · simp only [hms, Bool.true_and, Bool.not_true, Bool.false_eq_true,
        if_false]
      simp [hq]
    · simp only [Bool.not_eq_true] at hms
      simp [hms]

/-- Witness for C7 (amended) at a concrete dynamic circuit. -/
theorem C7_witness :
    isDynamicCircuit
        ⟨1, [Op.nonunitary .Measure [] [0] [0], Op.std [] [0] .X]⟩ =
      specIsDynamic
        ⟨1, [Op.nonunitary .Measure [] [0] [0], Op.std [] [0] .X]⟩ :=
  C7_theorem _ (by decide)

/-! ## deferMeasurements (`CircuitOptimizer::deferMeasurements`)

Iterators into the operation vector are indices; erases and inserts mirror
the C++ invalidation handling literally (`it >= opIt` comparisons and
re-derivations).  The loops take fuel: the C++ inner loop does not advance
past a Barrier/Snapshot-like non-unitary operation and can also loop through
repeated erase/insert cycles, so fuel exhaustion models non-termination as
an explicit error. -/

/-- The fatal conditions of the measurement-deferral pass (plus `fuel`). -/
inductive DeferErr where
  | multiTargetMeasure
  | resetDuringDefer
  | multiBitControl
  | malformedClassicCtrl
  | implicitReset
  | fuel
  deriving DecidableEq

/-- `Controls::emplace` on the `std::set<Control>` ordered by qubit: sorted
insert, a no-op when a control on that qubit is already present. -/
def insertCtrl (c : Ctrl) : List Ctrl → List Ctrl
  | [] => [c]
  | c' :: cs =>
    if c.qubit < c'.qubit then c :: c' :: cs
    else if c.qubit = c'.qubit then c' :: cs
    else c' :: insertCtrl c cs

/-- `unordered_map` assignment `m[k] = v`: overwrite in place or append. -/
def mapSet (m : List (Nat × Nat)) (k v : Nat) : List (Nat × Nat) :=
  match m with
  | [] => [(k, v)]
  | (k', v') :: rest =>
      if k' = k then (k, v) :: rest else (k', v') :: mapSet rest k v

/-- The inner scan of `deferMeasurements`, from the former position of an
erased Measure of qubit `measQ` into bit `measBit` (whose target/classic
vectors are `mT`/`mC`): unitary operations pass (advancing the insertion
point when they do not act on `measQ`), a Reset is fatal, the same Measure
again ends the scan, and a classic-controlled operation keyed on `measBit`
is rewritten into a quantum-controlled standard operation at the insertion
point, with the C++ iterator re-derivations.  A non-unitary operation of
any other shape leaves the iterator unchanged (the C++ loops forever
there; fuel runs out).  Returns the operation list and outer iterator. -/
def deferInner : Nat → List Op → Nat → Nat → Nat → List Nat → List Nat →
    Nat → Nat → Except DeferErr (List Op × Nat)
  | 0, _, _, _, _, _, _, _, _ => .error .fuel
  | fuel+1, ops, it, opIt, insPt, mT, mC, measQ, measBit =>
    if opIt < ops.length then
      let op := ops.getD opIt dummyOp
      if op.isUnitary then
        deferInner fuel ops it (opIt+1)
          (if !op.actsOn measQ then insPt+1 else insPt) mT mC measQ measBit
      else if op.getType == OpType.Reset then .error .resetDuringDefer
      else if op.isNonUnitaryOperation && op.getType == OpType.Measure then
        if op.getTargets = mT ∧ op.getClassics = mC then .ok (ops, it)
        else deferInner fuel ops it (opIt+1) (insPt+1) mT mC measQ measBit
      else
        match op with
        | .classicCtrl inner rs rn e =>
          if rn ≠ 1 ∧ e ≤ 1 then .error .multiBitControl
          else if rs = measBit then
            match inner with
            | .std scs sts sty =>
              if sts.contains measQ then .error .implicitReset
              else
                let ctype := if e = 1 then CtrlType.Pos else CtrlType.Neg
                let newOp := Op.std (insertCtrl ⟨measQ, ctype⟩ scs) sts sty
                let itInv := it ≥ opIt
                let insPtInv := insPt ≥ opIt
                let ops1 := ops.eraseIdx opIt
                let it1 := if itInv then opIt else it
                let insPt1 := if insPtInv then opIt else insPt
                let itInv2 := it1 ≥ insPt1
                let ops2 := ops1.insertIdx insPt1 newOp
                let it2 := if itInv2 then insPt1 else it1
                deferInner fuel ops2 it2 (insPt1+1) (insPt1+1) mT mC measQ
                  measBit
            | _ => .error .malformedClassicCtrl
          else
            deferInner fuel ops it (opIt+1)
              (if !op.actsOn measQ then insPt+1 else insPt) mT mC measQ
                measBit
        | _ => deferInner fuel ops it opIt insPt mT mC measQ measBit
    else .ok (ops, it)

/-- The outer loop of `deferMeasurements`: find the next Measure; reject a
multi-target/multi-bit one (both vectors off length one); leave a trailing
Measure alone (exiting the loop); otherwise record qubit→bit, erase the
Measure and run the inner scan from its position. -/
def deferOuter : Nat → List Op → Nat → List (Nat × Nat) →
    Except DeferErr (List Op × List (Nat × Nat))
  | 0, _, _, _ => .error .fuel
  | fuel+1, ops, it, m =>
    if it < ops.length then
      let op := ops.getD it dummyOp
      if op.isNonUnitaryOperation && op.getType == OpType.Measure then
        let targets := op.getTargets
        let classics := op.getClassics
        if targets.length ≠ 1 ∧ classics.length ≠ 1 then
          .error .multiTargetMeasure
        else if it = ops.length - 1 then .ok (ops, m)
        else
          let measQ := targets.getD 0 0
          let measBit := classics.getD 0 0
          let m1 := mapSet m measQ measBit
          let ops1 := ops.eraseIdx it
          match deferInner fuel ops1 it it it targets classics measQ measBit
            with
          | .error e => .error e
          | .ok (ops2, it2) => deferOuter fuel ops2 (it2+1) m1
      else deferOuter fuel ops (it+1) m
    else .ok (ops, m)

/-- `CircuitOptimizer::deferMeasurements`: run the outer loop, then append
one fresh trailing Measure per migrated qubit (in map order; the C++
clearing and re-derivation of the output permutation is outside the
modelled circuit state). -/
def deferMeasurements (fuel : Nat) (qc : Circuit) : Except DeferErr Circuit :=
  match deferOuter fuel qc.ops 0 [] with
  | .error e => .error e
  | .ok (ops, m) =>
      if m.isEmpty then .ok ⟨qc.nqubits, ops⟩
      else
        .ok ⟨qc.nqubits,
          ops ++ m.map fun p => Op.nonunitary .Measure [] [p.1] [p.2]⟩

/-- An operation the outer deferral loop recognizes as a measurement: a
NonUnitary operation with the Measure type tag. -/
def isMeasureOp (o : Op) : Bool :=
  o.isNonUnitaryOperation && o.getType == OpType.Measure

theorem C4_aux (ts qs cls : List Nat) (rest : List Op)
    (hlen : qs.length = cls.length) (hmulti : 1 < qs.length) :
    ∀ (pfx : List Op) (it fuel : Nat) (ops : List Op) (m : List (Nat × Nat)),
      ops.drop it = pfx ++ Op.nonunitary .Measure ts qs cls :: rest →
      (∀ o ∈ pfx, isMeasureOp o = false) →
      pfx.length < fuel →
      deferOuter fuel ops it m = .error .multiTargetMeasure := by
  intro pfx
  induction pfx with
  | nil =>
    intro it fuel ops m hdrop hpfx hfuel
    match fuel, hfuel with
    | f+1, _ =>
      have hlt : it < ops.length := by
        by_contra hge
        push_neg at hge
        rw [List.drop_eq_nil_of_le hge] at hdrop
        simp at hdrop
      have hop : ops.getD it dummyOp = Op.nonunitary .Measure ts qs cls := by
        have h0 : (ops.drop it)[0]? =
            some (Op.nonunitary .Measure ts qs cls) := by rw [hdrop]; simp
        rw [List.getElem?_drop] at h0
        simp only [Nat.add_zero] at h0
        simp [List.getD, h0]
      have h1 : qs.length ≠ 1 := by omega
      have h2 : cls.length ≠ 1 := by omega
      simp only [deferOuter]
      rw [if_pos hlt, hop]
      simp [Op.isNonUnitaryOperation, Op.getType, Op.getTargets,
        Op.getClassics, h1, h2]
  | cons p pfx ih =>
    intro it fuel ops m hdrop hpfx hfuel
    match fuel, hfuel with
    | f+1, hfuel =>
      have hlt : it < ops.length := by
        by_contra hge
        push_neg at hge
        rw [List.drop_eq_nil_of_le hge] at hdrop
        simp at hdrop
      have hop : ops.getD it dummyOp = p := by
        have h0 : (ops.drop it)[0]? = some p := by rw [hdrop]; simp
        rw [List.getElem?_drop] at h0
        simp only [Nat.add_zero] at h0
        simp [List.getD, h0]
      have hnm : (p.isNonUnitaryOperation && p.getType == OpType.Measure) =
          false := by
        have := hpfx p (by simp)
        simpa [isMeasureOp] using this
      have hdrop' : ops.drop (it+1) =
          pfx ++ Op.nonunitary .Measure ts qs cls :: rest := by
        rw [← List.tail_drop, hdrop]
        rfl
      have hstep : deferOuter (f+1) ops it m = deferOuter f ops (it+1) m := by
        simp only [deferOuter]
        rw [if_pos hlt, hop, hnm]
        simp
      rw [hstep]
      exact ih (it+1) f ops m hdrop' (fun o ho => hpfx o (by simp [ho]))
        (by simpa using Nat.lt_of_succ_lt_succ hfuel)

/-- **C4 (counterexample).** The outer deferral loop resumes one slot past
the position of an erased (deferred) Measure, so the operation that slides
into the erased slot is never examined by the multi-target guard: on
`[Measure(0→0), Measure([1,2]→[1,2])]` the pass completes normally — the
single-target Measure is deferred behind the untouched multi-target one —
instead of raising the unsupported-measurement-shape error the original
claim promises for every multi-target Measure. -/
theorem C4_counterexample :
    deferMeasurements 10
        ⟨3, [Op.nonunitary .Measure [] [0] [0],
             Op.nonunitary .Measure [] [1, 2] [1, 2]]⟩ =
      .ok ⟨3, [Op.nonunitary .Measure [] [1, 2] [1, 2],
               Op.nonunitary .Measure [] [0] [0]]⟩ ∧
    deferMeasurements 10
        ⟨3, [Op.nonunitary .Measure [] [0] [0],
             Op.nonunitary .Measure [] [1, 2] [1, 2]]⟩ ≠
      .error .multiTargetMeasure := by
  have h1 : deferMeasurements 10
      ⟨3, [Op.nonunitary .Measure [] [0] [0],
           Op.nonunitary .Measure [] [1, 2] [1, 2]]⟩ =
      .ok ⟨3, [Op.nonunitary .Measure [] [1, 2] [1, 2],
               Op.nonunitary .Measure [] [0] [0]]⟩ := by rfl
  refine ⟨h1, fun hc => ?_⟩
  rw [h1] at hc
  cases hc

/-- **C4 (amended).** Every Measure with more than one target (and, by the
C9 constructor invariant, equally many classical bits) that the outer
deferral scan actually reaches — here: preceded only by operations the scan
does not treat as measurements — makes `deferMeasurements` raise the
unsupported-measurement-shape error.  A multi-target Measure sitting in the
slot of an erased earlier Measure is skipped by the post-erase cursor
increment and is processed silently, so the guard does not cover every
multi-target Measure in the circuit. -/
theorem C4_theorem (n fuel : Nat) (pfx rest : List Op) (ts qs cls : List Nat)
    (hpfx : ∀ o ∈ pfx, isMeasureOp o = false)
    (hlen : qs.length = cls.length) (hmulti : 1 < qs.length)
    (hfuel : pfx.length < fuel) :
    deferMeasurements fuel
        ⟨n, pfx ++ Op.nonunitary .Measure ts qs cls :: rest⟩ =
      .error .multiTargetMeasure := by
  unfold deferMeasurements
  rw [C4_aux ts qs cls rest hlen hmulti pfx 0 fuel _ [] (by simp) hpfx hfuel]

/-- Witness for C4: a two-qubit measurement after a Hadamard is rejected. -/
theorem C4_witness :
    deferMeasurements 5
        ⟨2, [Op.std [] [0] .H] ++ Op.nonunitary .Measure [] [0, 1] [0, 1] ::
          []⟩ = .error .multiTargetMeasure :=
  C4_theorem 2 5 [Op.std [] [0] .H] [] [] [0, 1] [0, 1] (by decide) (by decide)
    (by decide) (by decide)

/-- **C5 (counterexample).** A classic-controlled operation whose control
register spans two bits but whose expected value is 2 is *not* rejected:
the deferral completes, rewriting it into a negatively-controlled X and
appending the trailing measurement. -/
theorem C5_counterexample :
    deferMeasurements 10
        ⟨2, [Op.nonunitary .Measure [] [0] [0],
             Op.classicCtrl (Op.std [] [1] .X) 0 2 2]⟩ =
      Except.ok
        ⟨2, [Op.std [⟨0, .Neg⟩] [1] .X,
             Op.nonunitary .Measure [] [0] [0]]⟩ := by
  rfl

/-- **C5 (amended).** A classic-controlled operation encountered by the
inner deferral scan whose control register spans more than one bit is
rejected with the unsupported-classical-control-shape error only when its
expected value is at most 1 (the conjunction in the C++ guard); this holds
for every such operation directly following a deferred single-bit
Measure. -/
theorem C5_theorem (n fuel : Nat) (ts : List Nat) (q b : Nat) (inner : Op)
    (rs rn e : Nat) (rest : List Op)
    (hrn : rn ≠ 1) (he : e ≤ 1) (hfuel : 2 ≤ fuel) :
    deferMeasurements fuel
        ⟨n, Op.nonunitary .Measure ts [q] [b] ::
          Op.classicCtrl inner rs rn e :: rest⟩ =
      .error .multiBitControl := by
  match fuel, hfuel with
  | f+2, _ =>
    unfold deferMeasurements
    have houter : deferOuter (f+2)
        (Op.nonunitary .Measure ts [q] [b] ::
          Op.classicCtrl inner rs rn e :: rest) 0 [] =
        .error .multiBitControl := by
      have hinner : deferInner (f+1)
          (Op.classicCtrl inner rs rn e :: rest) 0 0 0 [q] [b] q b =
          .error .multiBitControl := by
        simp only [deferInner]
        rw [if_pos (by simp)]
        simp [Op.isUnitary, Op.getType, Op.isNonUnitaryOperation, List.getD,
          hrn, he]
      have hlast : ¬ ((0 : Nat) =
          (Op.nonunitary .Measure ts [q] [b] ::
            Op.classicCtrl inner rs rn e :: rest).length - 1) := by
        simp
      simp only [deferOuter]
      rw [if_pos (by simp)]
      simp [List.getD, Op.isNonUnitaryOperation, Op.getType, Op.getTargets,
        Op.getClassics, hlast, List.eraseIdx, hinner]
    rw [houter]

/-- Witness for C5 (amended) at a concrete two-bit register with expected
value 0. -/
theorem C5_witness :
    deferMeasurements 10
        ⟨2, Op.nonunitary .Measure [] [0] [0] ::
          Op.classicCtrl (Op.std [] [1] .X) 0 2 0 :: []⟩ =
      .error .multiBitControl :=
  C5_theorem 2 10 [] 0 0 (Op.std [] [1] .X) 0 2 0 [] (by decide) (by decide)
    (by decide)

/-! ## reorderOperations (`CircuitOptimizer::reorderOperations`)

The pass builds a lane DAG of indices into the operation vector (one lane
per qubit, program order), then repeatedly scans qubits from highest to
lowest, moving every "executable" operation (all lanes of qubits it acts on
have their cursor at that very operation) into a fresh output vector and
advancing the involved cursors.  Cursors are modelled by keeping each
lane's unconsumed suffix; a moved-from slot is `none`, and dereferencing
one (the C++ reads through a null `unique_ptr`) is an explicit error, as is
dereferencing an end iterator in the executability test.  The outer
`while (!done)` loop takes fuel (the C++ loops forever on a circuit whose
lanes deadlock). -/

/-- Failures of the modelled reorder pass. -/
inductive RErr where
  | movedFrom   -- reading a moved-from operation slot
  | endDeref    -- dereferencing an exhausted lane's cursor
  | fuel        -- the while loop did not terminate within the fuel
  deriving DecidableEq

/-- The qubit lanes an operation is pushed onto by `constructDAG` (in push
order, one entry per mention): controls then targets for a standard
operation, the used qubits of a compound, the targets of a non-unitary
operation, and the wrapped operation's controls and targets for a
classic-controlled one. -/
def laneQubits (o : Op) : List Nat :=
  match o with
  | .std _ _ _ => o.getControls.map Ctrl.qubit ++ o.getTargets
  | .comp _ => o.getUsedQubits
  | .nonunitary _ _ _ _ => o.getTargets
  | .classicCtrl inner _ _ _ =>
      inner.getControls.map Ctrl.qubit ++ inner.getTargets

/-- Qubit `q`'s lane over `ops`, indices offset by `i0`: each operation
contributes its slot index once per mention of `q`, in program order (the
same lane contents the sequential `push_back`s of `constructDAG`
produce). -/
def laneListFrom (i0 : Nat) (ops : List Op) (q : Nat) : List Nat :=
  match ops with
  | [] => []
  | o :: rest =>
      List.replicate ((laneQubits o).count q) i0 ++ laneListFrom (i0+1) rest q

/-- Qubit `q`'s full lane over `ops`. -/
def laneList (ops : List Op) (q : Nat) : List Nat := laneListFrom 0 ops q

/-- The lane DAG of `constructDAG`: one lane per qubit `0 .. n-1`. -/
def buildLanes (n : Nat) (ops : List Op) : List (List Nat) :=
  (List.range n).map (laneList ops)

/-- State of the reorder loop: the circuit slots (`none` once moved), the
unconsumed suffix of every lane, and the output vector. -/
structure ReorderSt where
  slots : List (Option Op)
  lanes : List (List Nat)
  output : List Op

/-- The executability test for operation `op` at slot `i`, scheduled from
qubit `q`: scan qubits `k-1, k-2, …, 0`; for every other qubit the
operation acts on, its lane cursor must sit at slot `i` (an exhausted lane
means the C++ dereferences an end iterator). -/
def execCheck (s : ReorderSt) (op : Op) (i q : Nat) : Nat → Except RErr Bool
  | 0 => .ok true
  | k+1 =>
    if k ≠ q ∧ op.actsOn k then
      match s.lanes.getD k [] with
      | [] => .error .endDeref
      | j :: _ => if j ≠ i then .ok false else execCheck s op i q k
    else execCheck s op i q k

/-- Advance (drop the head of) the lanes of `q` and of every qubit `< k`
the operation acts on — the `actsOn` bookkeeping of the C++ loop. -/
def advanceLanes (lanes : List (List Nat)) (op : Op) (q k : Nat) :
    List (List Nat) :=
  match k with
  | 0 => lanes
  | k+1 =>
      let lanes' := advanceLanes lanes op q k
      if k = q ∨ op.actsOn k then lanes'.set k (lanes'.getD k []).tail
      else lanes'

/-- Process one qubit in a round: an empty lane contributes nothing; else
dereference the cursor (error on a moved-from slot), test executability,
and on success move the operation to the output and advance the involved
cursors.  The returned flag reports whether this qubit still had pending
operations (the `done = false` of the C++). -/
def procQubit (n : Nat) (s : ReorderSt) (q : Nat) :
    Except RErr (ReorderSt × Bool) :=
  match s.lanes.getD q [] with
  | [] => .ok (s, false)
  | i :: _ =>
    match s.slots.getD i none with
    | none => .error .movedFrom
    | some op =>
      match execCheck s op i q n with
      | .error e => .error e
      | .ok false => .ok (s, true)
      | .ok true =>
          .ok (⟨s.slots.set i none, advanceLanes s.lanes op q n,
            s.output ++ [op]⟩, true)

/-- One scheduling round: process qubits `k-1` down to `0`, accumulating
whether any qubit was pending. -/
def roundGo (n : Nat) : Nat → ReorderSt → Bool →
    Except RErr (ReorderSt × Bool)
  | 0, s, pending => .ok (s, pending)
  | k+1, s, pending =>
    match procQubit n s k with
    | .error e => .error e
    | .ok (s', p) => roundGo n k s' (pending || p)

/-- The `while (!done)` loop, with fuel. -/
def reorderLoop (n : Nat) : Nat → ReorderSt → Except RErr ReorderSt
  | 0, _ => .error .fuel
  | fuel+1, s =>
    match roundGo n n s false with
    | .error e => .error e
    | .ok (s', pending) =>
        if pending then reorderLoop n fuel s' else .ok s'

/-- `CircuitOptimizer::reorderOperations` (with explicit fuel for the
outer loop): build the lane DAG, run the scheduling loop, and replace the
operation vector by the output vector. -/
def reorderOperations (fuel : Nat) (qc : Circuit) : Except RErr Circuit :=
  match reorderLoop qc.nqubits fuel
      ⟨qc.ops.map some, buildLanes qc.nqubits qc.ops, []⟩ with
  | .error e => .error e
  | .ok s => .ok ⟨qc.nqubits, s.output⟩

theorem getD_set_self {α : Type} (l : List α) (i : Nat) (x d : α)
    (h : i < l.length) : (l.set i x).getD i d = x := by
  simp [List.getD, List.getElem?_set_self h]

theorem getD_set_ne {α : Type} (l : List α) (i j : Nat) (x d : α)
    (h : i ≠ j) : (l.set i x).getD j d = l.getD j d := by
  simp [List.getD, List.getElem?_set_ne h]

theorem getD_of_ge {α : Type} (l : List α) (i : Nat) (d : α)
    (h : l.length ≤ i) : l.getD i d = d := by
  simp [List.getD, List.getElem?_eq_none h]

theorem getD_map_some (ops : List Op) (j : Nat) :
    (ops.map some).getD j none =
      if j < ops.length then some (ops.getD j dummyOp) else none := by
  by_cases h : j < ops.length
  · simp only [List.getD, List.get?_eq_getElem?, if_pos h]
    rw [List.getElem?_map]
    have := List.getElem?_eq_getElem h
    simp [this]
  · simp only [List.getD, List.get?_eq_getElem?, if_neg h]
    rw [List.getElem?_map, List.getElem?_eq_none (by omega)]
    rfl

theorem buildLanes_length (n : Nat) (ops : List Op) :
    (buildLanes n ops).length = n := by
  simp [buildLanes]

theorem buildLanes_getD (n : Nat) (ops : List Op) (q : Nat) :
    (buildLanes n ops).getD q [] =
      if q < n then laneList ops q else [] := by
  by_cases h : q < n
  · simp only [List.getD, List.get?_eq_getElem?, buildLanes, if_pos h]
    rw [List.getElem?_map, List.getElem?_range h]
    rfl
  · simp only [List.getD, List.get?_eq_getElem?, buildLanes, if_neg h]
    rw [List.getElem?_map,
      List.getElem?_eq_none (by simp only [List.length_range]; omega)]
    rfl

theorem advanceLanes_length (lanes : List (List Nat)) (op : Op) (q k : Nat) :
    (advanceLanes lanes op q k).length = lanes.length := by
  induction k with
  | zero => rfl
  | succ k ih =>
    simp only [advanceLanes]
    split
    · simp [ih]
    · exact ih

theorem advanceLanes_getD (lanes : List (List Nat)) (op : Op) (q k r : Nat) :
    k ≤ lanes.length →
    (advanceLanes lanes op q k).getD r [] =
      if r < k ∧ (r = q ∨ op.actsOn r = true) then (lanes.getD r []).tail
      else lanes.getD r [] := by
  induction k with
  | zero => intro hk; simp [advanceLanes]
  | succ k ih =>
    intro hk
    have hk' : k ≤ lanes.length := by omega
    have hlen : (advanceLanes lanes op q k).length = lanes.length :=
      advanceLanes_length lanes op q k
    simp only [advanceLanes]
    by_cases hcase : k = q ∨ op.actsOn k = true
    · rw [if_pos hcase]
      by_cases hr : r = k
      · rw [hr] at ih ⊢
        rw [getD_set_self _ _ _ _ (by rw [advanceLanes_length]; omega)]
        rw [ih hk']
        rw [if_neg (fun h => absurd h.1 (lt_irrefl k)),
          if_pos ⟨by omega, hcase⟩]
      · rw [getD_set_ne _ _ _ _ _ (fun h => hr h.symm), ih hk']
        by_cases hrk : r < k
        · have h1 : (r < k ∧ (r = q ∨ op.actsOn r = true)) ↔
              (r < k + 1 ∧ (r = q ∨ op.actsOn r = true)) := by
            constructor
            · exact fun ⟨a, b⟩ => ⟨by omega, b⟩
            · exact fun ⟨a, b⟩ => ⟨by omega, b⟩
          rw [if_congr h1 rfl rfl]
        · rw [if_neg (fun h => hrk h.1), if_neg (fun h => by omega)]
    · rw [if_neg hcase, ih hk']
      by_cases hrk : r < k
      · have h1 : (r < k ∧ (r = q ∨ op.actsOn r = true)) ↔
            (r < k + 1 ∧ (r = q ∨ op.actsOn r = true)) := by
          constructor
          · exact fun ⟨a, b⟩ => ⟨by omega, b⟩
          · intro ⟨a, b⟩
            exact ⟨by omega, b⟩
        rw [if_congr h1 rfl rfl]
      · rw [if_neg (fun h => hrk h.1)]
        have hreq : ¬ (r < k + 1 ∧ (r = q ∨ op.actsOn r = true)) := by
          intro ⟨a, b⟩
          have : r = k := by omega
          exact hcase (this ▸ b)
        rw [if_neg hreq]

/-- The operation value stored at slot `i`. -/
def rVal (ops : List Op) (i : Nat) : Op := ops.getD i dummyOp

theorem mem_laneListFrom (ops : List Op) (q : Nat) :
    ∀ (p0 i : Nat), i ∈ laneListFrom p0 ops q ↔
      ∃ j, j < ops.length ∧ i = p0 + j ∧
        0 < (laneQubits (ops.getD j dummyOp)).count q := by
  induction ops with
  | nil => intro p0 i; simp [laneListFrom]
  | cons o rest ih =>
    intro p0 i
    simp only [laneListFrom, List.mem_append, List.mem_replicate, ih (p0+1)]
    constructor
    · rintro (⟨hcnt, rfl⟩ | ⟨j, hj, rfl, hc⟩)
      · refine ⟨0, by simp, by simp, ?_⟩
        simpa [Nat.pos_iff_ne_zero] using hcnt
      · exact ⟨j+1, by simpa using hj, by omega, by simpa using hc⟩
    · rintro ⟨j, hj, rfl, hc⟩
      cases j with
      | zero =>
        left
        refine ⟨?_, by simp⟩
        simpa [Nat.pos_iff_ne_zero] using hc
      | succ j =>
        right
        exact ⟨j, by simpa using hj, by omega, by simpa using hc⟩

theorem count_laneListFrom (ops : List Op) (q : Nat) :
    ∀ (p0 i : Nat), (laneListFrom p0 ops q).count i =
      if p0 ≤ i ∧ i - p0 < ops.length then
        (laneQubits (ops.getD (i - p0) dummyOp)).count q
      else 0 := by
  induction ops with
  | nil => intro p0 i; simp [laneListFrom]
  | cons o rest ih =>
    intro p0 i
    simp only [laneListFrom, List.count_append, ih (p0+1),
      List.count_replicate]
    by_cases hip : i = p0
    · subst hip
      have h2 : ¬ (i + 1 ≤ i ∧ i - (i+1) < rest.length) := by omega
      simp [h2]
    · rw [if_neg (by simp only [beq_iff_eq]; omega), Nat.zero_add]
      by_cases h3 : p0 + 1 ≤ i ∧ i - (p0 + 1) < rest.length
      · rw [if_pos h3, if_pos (by simp only [List.length_cons]; omega)]
        have : i - p0 = (i - (p0+1)) + 1 := by omega
        rw [this]
        simp
      · rw [if_neg h3, if_neg (by simp only [List.length_cons]; omega)]

theorem lane_nodup_count_le (ops : List Op) (q i : Nat)
    (hnd : (laneList ops q).Nodup) (hi : i < ops.length) :
    (laneQubits (ops.getD i dummyOp)).count q ≤ 1 := by
  have := List.nodup_iff_count_le_one.mp hnd i
  rw [laneList, count_laneListFrom ops q 0 i] at this
  simpa [hi] using this

/-- The initial lane of qubit `q` (possibly `q ≥ n`, in which case it is
empty). -/
def rLane (n : Nat) (ops : List Op) (q : Nat) : List Nat :=
  (buildLanes n ops).getD q []

/-- Invariant of the scheduling loop relative to the original circuit
`ops`, with `σ` the slots scheduled so far in scheduling order: the
original lanes split into the scheduled entries (in schedule order) and
the unconsumed suffix; scheduled slots are consumed, unscheduled ones keep
their operation; the output lists the scheduled operations in order. -/
structure RInv (n : Nat) (ops : List Op) (σ : List Nat) (s : ReorderSt) :
    Prop where
  slotsLen : s.slots.length = ops.length
  lanesLen : s.lanes.length = n
  laneEq : ∀ q, rLane n ops q =
    σ.filter (fun i => decide (i ∈ rLane n ops q)) ++ s.lanes.getD q []
  slotsEq : ∀ j, s.slots.getD j none =
    if j ∈ σ then none else (ops.map some).getD j none
  outEq : s.output = σ.map (rVal ops)
  nodup : σ.Nodup
  inRange : ∀ i ∈ σ, i < ops.length

/-- A doomed state: some lane still holds an entry whose slot has already
been consumed (the C++ will dereference a null `unique_ptr` or never
finish). -/
def deadSt (n : Nat) (s : ReorderSt) : Prop :=
  n ≤ s.lanes.length ∧
    ∃ q i, q < n ∧ i ∈ s.lanes.getD q [] ∧ s.slots.getD i none = none

theorem execCheck_true (s : ReorderSt) (op : Op) (i q : Nat) :
    ∀ k, execCheck s op i q k = .ok true →
      ∀ r, r < k → r ≠ q → op.actsOn r = true →
        ∃ rest, s.lanes.getD r [] = i :: rest := by
  intro k
  induction k with
  | zero => intro _ r hr; omega
  | succ k ih =>
    intro h r hr hrq hacts
    unfold execCheck at h
    by_cases hc : k ≠ q ∧ op.actsOn k = true
    · rw [if_pos hc] at h
      match hL : s.lanes.getD k [] with
      | [] => rw [hL] at h; exact absurd h (by simp)
      | j :: t =>
        rw [hL] at h
        dsimp only at h
        by_cases hji : j ≠ i
        · rw [if_pos hji] at h
          exact absurd h (by simp)
        · rw [if_neg hji] at h
          push_neg at hji
          subst hji
          by_cases hrk : r = k
          · subst hrk; exact ⟨t, hL⟩
          · exact ih h r (by omega) hrq hacts
    · rw [if_neg hc] at h
      by_cases hrk : r = k
      · subst hrk
        exact absurd ⟨hrq, hacts⟩ hc
      · exact ih h r (by omega) hrq hacts

theorem procQubit_ok (n : Nat) (s : ReorderSt) (q : Nat) (s' : ReorderSt)
    (b : Bool) (h : procQubit n s q = .ok (s', b)) :
    (s.lanes.getD q [] = [] ∧ s' = s ∧ b = false) ∨
    (∃ i rest op, s.lanes.getD q [] = i :: rest ∧
      s.slots.getD i none = some op ∧ b = true ∧
      ((execCheck s op i q n = .ok false ∧ s' = s) ∨
       (execCheck s op i q n = .ok true ∧
        s' = ⟨s.slots.set i none, advanceLanes s.lanes op q n,
          s.output ++ [op]⟩))) := by
  unfold procQubit at h
  match hL : s.lanes.getD q [] with
  | [] =>
    rw [hL] at h
    simp only [Except.ok.injEq, Prod.mk.injEq] at h
    exact Or.inl ⟨rfl, h.1.symm, h.2.symm⟩
  | i :: rest =>
    rw [hL] at h
    dsimp only at h
    match hS : s.slots.getD i none with
    | none => rw [hS] at h; exact absurd h (by simp)
    | some op =>
      rw [hS] at h
      dsimp only at h
      match hE : execCheck s op i q n with
      | .error e => rw [hE] at h; exact absurd h (by simp)
      | .ok false =>
        rw [hE] at h
        dsimp only at h
        simp only [Except.ok.injEq, Prod.mk.injEq] at h
        exact Or.inr ⟨i, rest, op, rfl, hS, h.2.symm,
          Or.inl ⟨hE, h.1.symm⟩⟩
      | .ok true =>
        rw [hE] at h
        dsimp only at h
        simp only [Except.ok.injEq, Prod.mk.injEq] at h
        exact Or.inr ⟨i, rest, op, rfl, hS, h.2.symm,
          Or.inr ⟨hE, h.1.symm⟩⟩

theorem laneListFrom_lt (ops : List Op) (q p0 i : Nat)
    (h : i ∈ laneListFrom p0 ops q) : i < p0 + ops.length := by
  obtain ⟨j, hj, rfl, -⟩ := (mem_laneListFrom ops q p0 i).mp h
  omega

theorem getD_map_rVal (ops : List Op) (τ : List Nat) (p : Nat)
    (h : p < τ.length) :
    (τ.map (rVal ops)).getD p dummyOp = rVal ops (τ.getD p 0) := by
  have h1 : τ.getD p 0 = τ[p] := by
    simp [List.getD, List.getElem?_eq_getElem h]
  have h2 : (τ.map (rVal ops)).getD p dummyOp = rVal ops τ[p] := by
    simp [List.getD, List.getElem?_map, List.getElem?_eq_getElem h]
  rw [h1, h2]

theorem getD_mem {α : Type} (l : List α) (p : Nat) (d : α)
    (h : p < l.length) : l.getD p d ∈ l := by
  have he : l.getD p d = l[p] := by
    simp [List.getD, List.getElem?_eq_getElem h]
  rw [he]
  exact List.getElem_mem h

theorem nodup_getD_inj {l : List Nat} (hnd : l.Nodup) (p p' : Nat)
    (hp : p < l.length) (hp' : p' < l.length)
    (h : l.getD p 0 = l.getD p' 0) : p = p' := by
  have e1 : l.getD p 0 = l[p] := by
    simp [List.getD, List.getElem?_eq_getElem hp]
  have e2 : l.getD p' 0 = l[p'] := by
    simp [List.getD, List.getElem?_eq_getElem hp']
  rw [e1, e2] at h
  exact (List.Nodup.getElem_inj_iff hnd).mp h

theorem procQubit_dead (n : Nat) (s : ReorderSt) (q : Nat) (s' : ReorderSt)
    (b : Bool) (hd : deadSt n s) (h : procQubit n s q = .ok (s', b)) :
    deadSt n s' := by
  rcases procQubit_ok n s q s' b h with ⟨-, rfl, -⟩ | ⟨j, rest, op, hL, hS, -, hcase⟩
  · exact hd
  rcases hcase with ⟨-, rfl⟩ | ⟨hE, rfl⟩
  · exact hd
  obtain ⟨hlen, r, i, hr, hi, hslot⟩ := hd
  have hji : j ≠ i := fun hji => by rw [hji, hslot] at hS; cases hS
  refine ⟨by rw [advanceLanes_length]; exact hlen, r, i, hr, ?_, ?_⟩
  · rw [advanceLanes_getD s.lanes op q n r (by omega)]
    by_cases hc : r < n ∧ (r = q ∨ op.actsOn r = true)
    · rw [if_pos hc]
      have hhead : ∃ t, s.lanes.getD r [] = j :: t := by
        by_cases hrq : r = q
        · exact ⟨rest, hrq ▸ hL⟩
        · rcases hc.2 with hrq' | ha
          · exact absurd hrq' hrq
          · exact execCheck_true s op j q n hE r hc.1 hrq ha
      obtain ⟨t, ht⟩ := hhead
      rw [ht] at hi ⊢
      simp only [List.tail_cons]
      rcases List.mem_cons.mp hi with h1 | h1
      · exact absurd h1.symm hji
      · exact h1
    · rw [if_neg hc]; exact hi
  · rw [getD_set_ne s.slots j i none none hji]
    exact hslot

theorem roundGo_dead (n : Nat) (k : Nat) : ∀ (s : ReorderSt) (pending : Bool)
    (s' : ReorderSt) (p' : Bool), deadSt n s →
    roundGo n k s pending = .ok (s', p') → deadSt n s' := by
  induction k with
  | zero =>
    intro s pending s' p' hd h
    simp only [roundGo, Except.ok.injEq, Prod.mk.injEq] at h
    rw [← h.1]; exact hd
  | succ k ih =>
    intro s pending s' p' hd h
    simp only [roundGo] at h
    match hP : procQubit n s k with
    | .error e => rw [hP] at h; exact absurd h (by simp)
    | .ok (s₀, p) =>
      rw [hP] at h
      dsimp only at h
      exact ih s₀ (pending || p) s' p' (procQubit_dead n s k s₀ p hd hP) h

theorem roundGo_false (n : Nat) (k : Nat) : ∀ (s : ReorderSt) (pending : Bool)
    (s' : ReorderSt), roundGo n k s pending = .ok (s', false) →
    pending = false ∧ s' = s ∧ ∀ q, q < k → s.lanes.getD q [] = [] := by
  induction k with
  | zero =>
    intro s pending s' h
    simp only [roundGo, Except.ok.injEq, Prod.mk.injEq] at h
    exact ⟨h.2, h.1.symm, fun q hq => absurd hq (by omega)⟩
  | succ k ih =>
    intro s pending s' h
    simp only [roundGo] at h
    match hP : procQubit n s k with
    | .error e => rw [hP] at h; exact absurd h (by simp)
    | .ok (s₀, p) =>
      rw [hP] at h
      dsimp only at h
      obtain ⟨hor, hs', hemp⟩ := ih s₀ (pending || p) s' h
      have hpend : pending = false ∧ p = false := by
        simpa using hor
      rcases procQubit_ok n s k s₀ p hP with ⟨hLk, hs₀, -⟩ | ⟨j, rest, op, hL, hS, hb, -⟩
      · rw [hs₀] at hs' hemp
        refine ⟨hpend.1, hs', fun q hq => ?_⟩
        rcases Nat.lt_succ_iff_lt_or_eq.mp hq with h1 | rfl
        · exact hemp q h1
        · exact hLk
      · rw [hpend.2] at hb; cases hb

theorem procQubit_step (n : Nat) (ops : List Op) (σ : List Nat)
    (s : ReorderSt) (q : Nat) (s' : ReorderSt) (b : Bool)
    (hinv : RInv n ops σ s)
    (h : procQubit n s q = .ok (s', b)) :
    s' = s ∨ (∃ i, RInv n ops (σ ++ [i]) s') ∨ deadSt n s' := by
  rcases procQubit_ok n s q s' b h with ⟨-, rfl, -⟩ | ⟨i, rest, op, hL, hS, -, hcase⟩
  · exact Or.inl rfl
  rcases hcase with ⟨-, rfl⟩ | ⟨hE, rfl⟩
  · exact Or.inl rfl
  have hiσ : i ∉ σ := by
    intro hmem
    have hse := hinv.slotsEq i
    rw [if_pos hmem] at hse
    rw [hse] at hS; cases hS
  have hilen : i < ops.length := by
    by_contra hge
    have hse := hinv.slotsEq i
    rw [if_neg hiσ, getD_map_some, if_neg (by omega)] at hse
    rw [hse] at hS; cases hS
  have hopval : op = rVal ops i := by
    have hse := hinv.slotsEq i
    rw [if_neg hiσ, getD_map_some, if_pos hilen] at hse
    have := hS.symm.trans hse
    injection this
  have hlanelen : s.lanes.length = n := hinv.lanesLen
  by_cases hdead :
      ∃ r, r < n ∧ ¬(r = q ∨ op.actsOn r = true) ∧ i ∈ s.lanes.getD r []
  · right; right
    obtain ⟨r, hr, hnr, hir⟩ := hdead
    refine ⟨by rw [advanceLanes_length]; omega, r, i, hr, ?_, ?_⟩
    · rw [advanceLanes_getD s.lanes op q n r (by omega)]
      rw [if_neg (fun hc => hnr hc.2)]
      exact hir
    · exact getD_set_self s.slots i none none
        (by rw [hinv.slotsLen]; exact hilen)
  · right; left
    push_neg at hdead
    refine ⟨i, ?_⟩
    have hhead : ∀ r, r < n → (r = q ∨ op.actsOn r = true) →
        ∃ t, s.lanes.getD r [] = i :: t := by
      intro r hr hc
      by_cases hrq : r = q
      · exact ⟨rest, hrq ▸ hL⟩
      · rcases hc with hrq' | ha
        · exact absurd hrq' hrq
        · exact execCheck_true s op i q n hE r hr hrq ha
    refine { slotsLen := ?_, lanesLen := ?_, laneEq := ?_, slotsEq := ?_,
             outEq := ?_, nodup := ?_, inRange := ?_ }
    · rw [List.length_set]; exact hinv.slotsLen
    · rw [advanceLanes_length]; exact hinv.lanesLen
    · intro r
      have hold := hinv.laneEq r
      rw [advanceLanes_getD s.lanes op q n r (by omega)]
      by_cases hc : r < n ∧ (r = q ∨ op.actsOn r = true)
      · rw [if_pos hc]
        obtain ⟨t, ht⟩ := hhead r hc.1 hc.2
        have hirL : i ∈ rLane n ops r := by
          rw [hold, ht]
          exact List.mem_append_right _ (List.mem_cons_self i t)
        rw [ht] at hold ⊢
        simp only [List.tail_cons]
        have h1 : List.filter (fun j => decide (j ∈ rLane n ops r)) [i] = [i] := by
          simp [hirL]
        rw [List.filter_append, h1, List.append_assoc, List.singleton_append]
        exact hold
      · rw [if_neg hc]
        have hirL : i ∉ rLane n ops r := by
          intro hmem
          rw [hold] at hmem
          rcases List.mem_append.mp hmem with h1 | h1
          · exact hiσ (List.mem_of_mem_filter h1)
          · by_cases hr : r < n
            · exact (hdead r hr ⟨fun h2 => hc ⟨hr, Or.inl h2⟩,
                fun h2 => hc ⟨hr, Or.inr h2⟩⟩) h1
            · have hnil : s.lanes.getD r [] = [] := by
                have h0 : rLane n ops r = [] := by
                  rw [rLane, buildLanes_getD, if_neg hr]
                rw [h0] at hold
                exact (List.append_eq_nil.mp hold.symm).2
              rw [hnil] at h1
              cases h1
        have h1 : List.filter (fun j => decide (j ∈ rLane n ops r)) [i] = [] := by
          simp [hirL]
        rw [List.filter_append, h1, List.append_nil]
        exact hold
    · intro j
      by_cases hji : j = i
      · subst hji
        rw [getD_set_self s.slots j none none
          (by rw [hinv.slotsLen]; exact hilen)]
        rw [if_pos (by simp)]
      · rw [getD_set_ne s.slots i j none none (fun he => hji he.symm)]
        have hmem : (j ∈ σ ++ [i]) ↔ j ∈ σ := by simp [hji]
        rw [if_congr hmem rfl rfl]
        exact hinv.slotsEq j
    · rw [List.map_append, hinv.outEq, hopval]
      rfl
    · refine List.Nodup.append hinv.nodup (List.nodup_singleton i) ?_
      intro a ha hai
      rw [List.mem_singleton] at hai
      exact hiσ (hai ▸ ha)
    · intro j hj
      rcases List.mem_append.mp hj with h1 | h1
      · exact hinv.inRange j h1
      · rw [List.mem_singleton] at h1
        exact h1 ▸ hilen

theorem roundGo_inv (n : Nat) (ops : List Op) (k : Nat) :
    ∀ (σ : List Nat) (s : ReorderSt) (pending : Bool) (s' : ReorderSt)
    (p' : Bool), RInv n ops σ s →
    roundGo n k s pending = .ok (s', p') →
    (∃ τ, RInv n ops τ s') ∨ deadSt n s' := by
  induction k with
  | zero =>
    intro σ s pending s' p' hinv h
    simp only [roundGo, Except.ok.injEq, Prod.mk.injEq] at h
    exact Or.inl ⟨σ, h.1 ▸ hinv⟩
  | succ k ih =>
    intro σ s pending s' p' hinv h
    simp only [roundGo] at h
    match hP : procQubit n s k with
    | .error e => rw [hP] at h; exact absurd h (by simp)
    | .ok (s₀, p) =>
      rw [hP] at h
      dsimp only at h
      rcases procQubit_step n ops σ s k s₀ p hinv hP with
        hss | ⟨i, hinv'⟩ | hdead
      · exact ih σ s₀ (pending || p) s' p' (by rw [hss]; exact hinv) h
      · exact ih (σ ++ [i]) s₀ (pending || p) s' p' hinv' h
      · exact Or.inr (roundGo_dead n k s₀ (pending || p) s' p' hdead h)

theorem loop_dead (n : Nat) (fuel : Nat) : ∀ (s : ReorderSt) (sf : ReorderSt),
    deadSt n s → reorderLoop n fuel s ≠ .ok sf := by
  induction fuel with
  | zero =>
    intro s sf _ h
    exact absurd h (by simp [reorderLoop])
  | succ fuel ih =>
    intro s sf hd h
    simp only [reorderLoop] at h
    match hR : roundGo n n s false with
    | .error e => rw [hR] at h; exact absurd h (by simp)
    | .ok (s', pending) =>
      rw [hR] at h
      dsimp only at h
      cases pending with
      | true =>
        rw [if_pos rfl] at h
        exact ih s' sf (roundGo_dead n n s false s' true hd hR) h
      | false =>
        rw [if_neg Bool.false_ne_true] at h
        obtain ⟨-, hs', hemp⟩ := roundGo_false n n s false s' hR
        obtain ⟨hlen, r, i, hr, hi, -⟩ := hd
        rw [hemp r hr] at hi
        cases hi

theorem loop_inv (n : Nat) (ops : List Op) (fuel : Nat) :
    ∀ (σ : List Nat) (s : ReorderSt) (sf : ReorderSt), RInv n ops σ s →
    reorderLoop n fuel s = .ok sf →
    ∃ τ, RInv n ops τ sf ∧ ∀ q, q < n → sf.lanes.getD q [] = [] := by
  induction fuel with
  | zero =>
    intro σ s sf _ h
    exact absurd h (by simp [reorderLoop])
  | succ fuel ih =>
    intro σ s sf hinv h
    simp only [reorderLoop] at h
    match hR : roundGo n n s false with
    | .error e => rw [hR] at h; exact absurd h (by simp)
    | .ok (s', pending) =>
      rw [hR] at h
      dsimp only at h
      cases pending with
      | true =>
        rw [if_pos rfl] at h
        rcases roundGo_inv n ops n σ s false s' true hinv hR with
          ⟨τ, hinv'⟩ | hdead
        · exact ih τ s' sf hinv' h
        · exact absurd h (loop_dead n fuel s' sf hdead)
      | false =>
        rw [if_neg Bool.false_ne_true] at h
        simp only [Except.ok.injEq] at h
        obtain ⟨-, hs', hemp⟩ := roundGo_false n n s false s' hR
        rw [hs'] at h
        rw [← h]
        exact ⟨σ, hinv, hemp⟩

theorem reorder_structure (fuel : Nat) (qc qc' : Circuit)
    (h : reorderOperations fuel qc = .ok qc') :
    qc'.nqubits = qc.nqubits ∧
    ∃ τ : List Nat, τ.Nodup ∧ (∀ i ∈ τ, i < qc.ops.length) ∧
      qc'.ops = τ.map (rVal qc.ops) ∧
      ∀ q, rLane qc.nqubits qc.ops q =
        τ.filter (fun i => decide (i ∈ rLane qc.nqubits qc.ops q)) := by
  unfold reorderOperations at h
  match hR : reorderLoop qc.nqubits fuel
      ⟨qc.ops.map some, buildLanes qc.nqubits qc.ops, []⟩ with
  | .error e => rw [hR] at h; exact absurd h (by simp)
  | .ok sf =>
    rw [hR] at h
    dsimp only at h
    simp only [Except.ok.injEq] at h
    have hinit : RInv qc.nqubits qc.ops []
        ⟨qc.ops.map some, buildLanes qc.nqubits qc.ops, []⟩ :=
      { slotsLen := by simp
        lanesLen := buildLanes_length _ _
        laneEq := fun q => by simp [rLane]
        slotsEq := fun j => by simp
        outEq := rfl
        nodup := List.nodup_nil
        inRange := fun i hi => absurd hi (List.not_mem_nil i) }
    obtain ⟨τ, hinv, hemp⟩ :=
      loop_inv qc.nqubits qc.ops fuel [] _ sf hinit hR
    refine ⟨by rw [← h], τ, hinv.nodup, hinv.inRange,
      by rw [← h]; exact hinv.outEq, ?_⟩
    intro q
    have hle := hinv.laneEq q
    by_cases hq : q < qc.nqubits
    · rw [hemp q hq, List.append_nil] at hle
      exact hle
    · have hrl : rLane qc.nqubits qc.ops q = [] := by
        rw [rLane, buildLanes_getD, if_neg hq]
      rw [hrl] at hle ⊢
      exact (List.append_eq_nil.mp hle.symm).1.symm

/-- Relating two `Except` computations pointwise: equal errors, or
`R`-related results. -/
def ExcRel {ε α β : Type} (R : α → β → Prop) :
    Except ε α → Except ε β → Prop
  | .error e, .error e' => e = e'
  | .ok a, .ok b => R a b
  | _, _ => False

/-- Slot renaming between two reorder states: `s₂` is `s₁` with every slot
index `p` renamed to `φ p` (same lanes entrywise under the renaming, same
stored operations, same output). -/
structure Ren (n m L : Nat) (φ : Nat → Nat) (s₁ s₂ : ReorderSt) : Prop where
  len1 : s₁.lanes.length = n
  len2 : s₂.lanes.length = n
  sl1 : s₁.slots.length = L
  sl2 : s₂.slots.length = m
  laneMap : ∀ q, (s₂.lanes.getD q []).map φ = s₁.lanes.getD q []
  laneBound : ∀ q, ∀ p ∈ s₂.lanes.getD q [], p < m
  slotsRel : ∀ p, p < m → s₂.slots.getD p none = s₁.slots.getD (φ p) none
  outRel : s₂.output = s₁.output

theorem execCheck_ren (n m L : Nat) (φ : Nat → Nat)
    (hinj : ∀ p p', p < m → p' < m → φ p = φ p' → p = p')
    (s₁ s₂ : ReorderSt) (hR : Ren n m L φ s₁ s₂) (op : Op) (p q : Nat)
    (hp : p < m) :
    ∀ k, execCheck s₂ op p q k = execCheck s₁ op (φ p) q k := by
  intro k
  induction k with
  | zero => rfl
  | succ k ih =>
    simp only [execCheck]
    by_cases hc : k ≠ q ∧ op.actsOn k = true
    · rw [if_pos hc, if_pos hc]
      match hL : s₂.lanes.getD k [] with
      | [] =>
        have hL1 : s₁.lanes.getD k [] = [] := by
          rw [← hR.laneMap k, hL]
          rfl
        rw [hL1]
      | j :: t =>
        have hL1 : s₁.lanes.getD k [] = φ j :: t.map φ := by
          rw [← hR.laneMap k, hL]
          rfl
        rw [hL1]
        dsimp only
        have hj : j < m :=
          hR.laneBound k j (by rw [hL]; exact List.mem_cons_self j t)
        by_cases hjp : j = p
        · subst hjp
          rw [if_neg (fun hne => hne rfl), if_neg (fun hne => hne rfl)]
          exact ih
        · rw [if_pos hjp, if_pos (fun he => hjp (hinj j p hj hp he))]
    · rw [if_neg hc, if_neg hc]
      exact ih

theorem procQubit_ren (n m L : Nat) (φ : Nat → Nat)
    (hinj : ∀ p p', p < m → p' < m → φ p = φ p' → p = p')
    (hφL : ∀ p, p < m → φ p < L)
    (s₁ s₂ : ReorderSt) (hR : Ren n m L φ s₁ s₂) (q : Nat) :
    ExcRel (fun a b => a.2 = b.2 ∧ Ren n m L φ a.1 b.1)
      (procQubit n s₁ q) (procQubit n s₂ q) := by
  unfold procQubit
  match hL : s₂.lanes.getD q [] with
  | [] =>
    have hL1 : s₁.lanes.getD q [] = [] := by
      rw [← hR.laneMap q, hL]
      rfl
    rw [hL1]
    exact ⟨rfl, hR⟩
  | p :: t =>
    have hp : p < m :=
      hR.laneBound q p (by rw [hL]; exact List.mem_cons_self p t)
    have hL1 : s₁.lanes.getD q [] = φ p :: t.map φ := by
      rw [← hR.laneMap q, hL]
      rfl
    rw [hL1]
    dsimp only
    rw [← hR.slotsRel p hp]
    match hS : s₂.slots.getD p none with
    | none => exact rfl
    | some op =>
      dsimp only
      rw [← execCheck_ren n m L φ hinj s₁ s₂ hR op p q hp n]
      match hE : execCheck s₂ op p q n with
      | .error e => exact rfl
      | .ok false => exact ⟨rfl, hR⟩
      | .ok true =>
        dsimp only
        refine ⟨rfl, ?_⟩
        refine { len1 := ?_, len2 := ?_, sl1 := ?_, sl2 := ?_,
                 laneMap := ?_, laneBound := ?_, slotsRel := ?_, outRel := ?_ }
        · rw [advanceLanes_length]; exact hR.len1
        · rw [advanceLanes_length]; exact hR.len2
        · rw [List.length_set]; exact hR.sl1
        · rw [List.length_set]; exact hR.sl2
        · intro r
          rw [advanceLanes_getD s₁.lanes op q n r hR.len1.ge,
            advanceLanes_getD s₂.lanes op q n r hR.len2.ge]
          by_cases hc : r < n ∧ (r = q ∨ op.actsOn r = true)
          · rw [if_pos hc, if_pos hc, ← hR.laneMap r, List.map_tail]
          · rw [if_neg hc, if_neg hc]
            exact hR.laneMap r
        · intro r p' hp'
          rw [advanceLanes_getD s₂.lanes op q n r hR.len2.ge] at hp'
          by_cases hc : r < n ∧ (r = q ∨ op.actsOn r = true)
          · rw [if_pos hc] at hp'
            exact hR.laneBound r p' (List.mem_of_mem_tail hp')
          · rw [if_neg hc] at hp'
            exact hR.laneBound r p' hp'
        · intro p' hp'
          by_cases hpp : p' = p
          · subst hpp
            rw [getD_set_self s₂.slots p' none none
              (by rw [hR.sl2]; exact hp')]
            rw [getD_set_self s₁.slots (φ p') none none
              (by rw [hR.sl1]; exact hφL p' hp')]
          · rw [getD_set_ne s₂.slots p p' none none (fun he => hpp he.symm)]
            rw [getD_set_ne s₁.slots (φ p) (φ p') none none
              (fun he => hpp (hinj p' p hp' hp he.symm))]
            exact hR.slotsRel p' hp'
        · rw [hR.outRel]

theorem roundGo_ren (n m L : Nat) (φ : Nat → Nat)
    (hinj : ∀ p p', p < m → p' < m → φ p = φ p' → p = p')
    (hφL : ∀ p, p < m → φ p < L) (k : Nat) :
    ∀ (s₁ s₂ : ReorderSt) (pending : Bool), Ren n m L φ s₁ s₂ →
    ExcRel (fun a b => a.2 = b.2 ∧ Ren n m L φ a.1 b.1)
      (roundGo n k s₁ pending) (roundGo n k s₂ pending) := by
  induction k with
  | zero =>
    intro s₁ s₂ pending hR
    exact ⟨rfl, hR⟩
  | succ k ih =>
    intro s₁ s₂ pending hR
    have hpq := procQubit_ren n m L φ hinj hφL s₁ s₂ hR k
    simp only [roundGo]
    match h1 : procQubit n s₁ k, h2 : procQubit n s₂ k with
    | .error e, .error e' =>
      rw [h1, h2] at hpq
      exact hpq
    | .error e, .ok b =>
      rw [h1, h2] at hpq
      exact False.elim hpq
    | .ok a, .error e =>
      rw [h1, h2] at hpq
      exact False.elim hpq
    | .ok (s₁', p), .ok (s₂', p2) =>
      rw [h1, h2] at hpq
      have hpq' : p = p2 ∧ Ren n m L φ s₁' s₂' := hpq
      dsimp only
      rw [← hpq'.1]
      exact ih s₁' s₂' (pending || p) hpq'.2

theorem reorderLoop_ren (n m L : Nat) (φ : Nat → Nat)
    (hinj : ∀ p p', p < m → p' < m → φ p = φ p' → p = p')
    (hφL : ∀ p, p < m → φ p < L) (fuel : Nat) :
    ∀ (s₁ s₂ : ReorderSt), Ren n m L φ s₁ s₂ →
    ExcRel (Ren n m L φ) (reorderLoop n fuel s₁) (reorderLoop n fuel s₂) := by
  induction fuel with
  | zero =>
    intro s₁ s₂ _
    exact rfl
  | succ fuel ih =>
    intro s₁ s₂ hR
    have hrg := roundGo_ren n m L φ hinj hφL n s₁ s₂ false hR
    simp only [reorderLoop]
    match h1 : roundGo n n s₁ false, h2 : roundGo n n s₂ false with
    | .error e, .error e' =>
      rw [h1, h2] at hrg
      exact hrg
    | .error e, .ok b =>
      rw [h1, h2] at hrg
      exact False.elim hrg
    | .ok a, .error e =>
      rw [h1, h2] at hrg
      exact False.elim hrg
    | .ok (s₁', p), .ok (s₂', p2) =>
      rw [h1, h2] at hrg
      have hrg' : p = p2 ∧ Ren n m L φ s₁' s₂' := hrg
      dsimp only
      rw [← hrg'.1]
      cases p with
      | false => exact hrg'.2
      | true => exact ih s₁' s₂' hrg'.2

theorem map_laneListFrom (ops : List Op) (τfull : List Nat) (q : Nat) :
    ∀ (τ' : List Nat) (p0 : Nat),
    (∀ j, j < τ'.length → τfull.getD (p0 + j) 0 = τ'.getD j 0) →
    (∀ i ∈ τ', (laneQubits (rVal ops i)).count q ≤ 1) →
    (laneListFrom p0 (τ'.map (rVal ops)) q).map (fun p => τfull.getD p 0) =
      τ'.filter (fun i => decide (0 < (laneQubits (rVal ops i)).count q)) := by
  intro τ'
  induction τ' with
  | nil => intro p0 _ _; rfl
  | cons i rest ih =>
    intro p0 hcorr hcnt
    have hone := hcnt i (List.mem_cons_self i rest)
    have hrec := ih (p0 + 1)
      (fun j hj => by
        have hc := hcorr (j + 1) (by simp only [List.length_cons]; omega)
        rw [show p0 + (j + 1) = p0 + 1 + j by omega] at hc
        rw [hc]
        simp [List.getD])
      (fun i' hi' => hcnt i' (List.mem_cons_of_mem i hi'))
    simp only [List.map_cons, laneListFrom]
    by_cases hpos : 0 < (laneQubits (rVal ops i)).count q
    · have h1 : (laneQubits (rVal ops i)).count q = 1 := by omega
      rw [h1]
      have hφ0 : τfull.getD p0 0 = i := by
        have hc := hcorr 0 (by simp)
        rw [Nat.add_zero] at hc
        exact hc
      simp only [List.replicate, List.singleton_append, List.map_cons, hrec,
        hφ0]
      rw [List.filter_cons_of_pos (by simpa using hpos)]
    · have h0 : (laneQubits (rVal ops i)).count q = 0 := by omega
      rw [h0]
      simp only [List.replicate, List.nil_append, hrec]
      rw [List.filter_cons_of_neg (by simpa using hpos)]

theorem laneMap_init (n : Nat) (ops : List Op) (τ : List Nat)
    (hnd : τ.Nodup) (hinR : ∀ i ∈ τ, i < ops.length)
    (hfix : ∀ q, rLane n ops q =
      τ.filter (fun i => decide (i ∈ rLane n ops q))) (q : Nat) :
    (rLane n (τ.map (rVal ops)) q).map (fun p => τ.getD p 0) =
      rLane n ops q := by
  by_cases hq : q < n
  · have hrl : rLane n ops q = laneList ops q := by
      rw [rLane, buildLanes_getD, if_pos hq]
    have hfil : laneList ops q =
        τ.filter (fun i => decide (i ∈ rLane n ops q)) := by
      rw [← hrl]; exact hfix q
    have hnodupLane : (laneList ops q).Nodup := by
      rw [hfil]
      exact hnd.filter _
    have hcnt : ∀ i ∈ τ, (laneQubits (rVal ops i)).count q ≤ 1 := fun i hi =>
      lane_nodup_count_le ops q i hnodupLane (hinR i hi)
    rw [rLane, buildLanes_getD, if_pos hq, hrl]
    rw [laneList]
    rw [map_laneListFrom ops τ q τ 0 (fun j hj => by rw [Nat.zero_add]) hcnt]
    rw [hfil]
    apply List.filter_congr
    intro i hi
    have hilen := hinR i hi
    have hmem : i ∈ rLane n ops q ↔
        0 < (laneQubits (ops.getD i dummyOp)).count q := by
      rw [hrl, laneList, mem_laneListFrom]
      constructor
      · rintro ⟨j, hj, he, hc⟩
        rw [show j = i by omega] at hc
        exact hc
      · intro hc
        exact ⟨i, hilen, by omega, hc⟩
    simp [hmem, rVal]
  · simp only [rLane, buildLanes_getD, if_neg hq]
    rfl

/-- **C8.** `reorderOperations` is idempotent: whenever a first run succeeds
(same fuel for both runs), its output circuit is a fixed point — running the
pass again returns exactly that circuit. -/
theorem C8_theorem (fuel : Nat) (qc qc' : Circuit)
    (h : reorderOperations fuel qc = .ok qc') :
    reorderOperations fuel qc' = .ok qc' := by
  obtain ⟨hnq, τ, hnd, hinR, hops, hfix⟩ := reorder_structure fuel qc qc' h
  have hinj : ∀ p p', p < τ.length → p' < τ.length →
      τ.getD p 0 = τ.getD p' 0 → p = p' :=
    fun p p' hp hp' he => nodup_getD_inj hnd p p' hp hp' he
  have hφL : ∀ p, p < τ.length → τ.getD p 0 < qc.ops.length :=
    fun p hp => hinR _ (getD_mem τ p 0 hp)
  obtain ⟨n', ops'⟩ := qc'
  dsimp only at hnq hops
  subst hnq
  subst hops
  unfold reorderOperations at h ⊢
  match hR1 : reorderLoop qc.nqubits fuel
      ⟨qc.ops.map some, buildLanes qc.nqubits qc.ops, []⟩ with
  | .error e => rw [hR1] at h; exact absurd h (by simp)
  | .ok sf =>
    rw [hR1] at h
    dsimp only at h
    simp only [Except.ok.injEq, Circuit.mk.injEq] at h
    have hsfout : sf.output = τ.map (rVal qc.ops) := h.2
    have hRen0 : Ren qc.nqubits τ.length qc.ops.length
        (fun p => τ.getD p 0)
        ⟨qc.ops.map some, buildLanes qc.nqubits qc.ops, []⟩
        ⟨(τ.map (rVal qc.ops)).map some,
          buildLanes qc.nqubits (τ.map (rVal qc.ops)), []⟩ :=
      { len1 := buildLanes_length _ _
        len2 := buildLanes_length _ _
        sl1 := by simp
        sl2 := by simp
        laneMap := fun q => laneMap_init qc.nqubits qc.ops τ hnd hinR hfix q
        laneBound := fun q p hp => by
          dsimp only at hp
          rw [buildLanes_getD] at hp
          by_cases hq : q < qc.nqubits
          · rw [if_pos hq] at hp
            have := laneListFrom_lt (τ.map (rVal qc.ops)) q 0 p hp
            simp only [List.length_map] at this
            omega
          · rw [if_neg hq] at hp
            cases hp
        slotsRel := fun p hp => by
          dsimp only
          rw [getD_map_some (τ.map (rVal qc.ops)) p,
            if_pos (by simpa using hp)]
          rw [getD_map_some qc.ops (τ.getD p 0), if_pos (hφL p hp)]
          rw [getD_map_rVal qc.ops τ p hp]
          rfl
        outRel := rfl }
    have hsim := reorderLoop_ren qc.nqubits τ.length qc.ops.length
      (fun p => τ.getD p 0) hinj hφL fuel _ _ hRen0
    rw [hR1] at hsim
    match hR2 : reorderLoop qc.nqubits fuel
        ⟨(τ.map (rVal qc.ops)).map some,
          buildLanes qc.nqubits (τ.map (rVal qc.ops)), []⟩ with
    | .error e =>
      rw [hR2] at hsim
      exact False.elim hsim
    | .ok s₂f =>
      rw [hR2] at hsim
      have hRf : Ren qc.nqubits τ.length qc.ops.length
          (fun p => τ.getD p 0) sf s₂f := hsim
      dsimp only
      rw [hRf.outRel, hsfout]

/-- Concrete sample gate for the C8 witness: `X` on qubit 0. -/
def c8a : Op := .std [] [0] .X

/-- Concrete sample gate for the C8 witness: `X` on qubit 1. -/
def c8b : Op := .std [] [1] .X

/-- Witness for C8: a successful first run on a two-qubit circuit, and the
idempotence theorem applied to its output. -/
theorem C8_witness :
    reorderOperations 3 ⟨2, [c8a, c8b]⟩ = .ok ⟨2, [c8b, c8a]⟩ ∧
    reorderOperations 3 ⟨2, [c8b, c8a]⟩ = .ok ⟨2, [c8b, c8a]⟩ :=
  ⟨by rfl, C8_theorem 3 ⟨2, [c8a, c8b]⟩ ⟨2, [c8b, c8a]⟩ (by rfl)⟩

/-! ## Block collection (`CircuitOptimizer::collectBlocks` and `DSU`)

The DSU maps (`parent`, `bitBlocks`, `currentBlockInCircuit`,
`currentBlockOperations`) are modelled as one association list keyed by
qubit, kept in insertion order (the C++ `std::unordered_map` iterates in an
unspecified order; the final root-finalization loop of `collectBlocks` is
modelled over insertion order).  The C++ `findBlock` performs path
compression lazily; the model keeps every member's parent pointer aimed
directly at its root (compression performed eagerly at union time), which
returns the same root for every query and keeps the same root set, so the
two are observationally equal.  `currentBlockInCircuit` pointers into the
operation vector are slot indices into the emitted prefix `done`; a `none`
cell is a moved-from (null) `unique_ptr` slot awaiting its block's
write-back. -/

/-- One qubit's entry of the block-collection DSU: parent pointer
(`parent`), block member list (`bitBlocks`), anchor slot
(`currentBlockInCircuit`, `none` = null pointer) and accumulated block body
(`currentBlockOperations`). -/
structure DEnt where
  par : Nat
  members : List Nat
  anchor : Option Nat
  blockOps : List Op

/-- The DSU as an association list in insertion order. -/
abbrev DsuMap := List (Nat × DEnt)

/-- Map lookup. -/
def dsuGet (d : DsuMap) (q : Nat) : Option DEnt :=
  (d.find? (fun e => e.1 == q)).map (·.2)

/-- Map update: replace in place, or append a new key at the end. -/
def dsuSet (d : DsuMap) (q : Nat) (e : DEnt) : DsuMap :=
  match d with
  | [] => [(q, e)]
  | (q', e') :: rest =>
      if q' = q then (q, e) :: rest else (q', e') :: dsuSet rest q e

/-- The state of the block-collection scan: the emitted circuit cells, the
DSU and the write-back log (each finalized block's written operation, in
finalization order). -/
structure CState where
  done : List (Option Op)
  dsu : DsuMap
  blocksLog : List Op

/-- `DSU::findBlock`, with the lazy singleton initialization (fresh qubits
get `parent[q] = q`, `bitBlocks[q] = {q}`, a null anchor and an empty
body).  With the eagerly compressed parent map the stored parent is already
the root. -/
def findBlock (st : CState) (q : Nat) : CState × Nat :=
  match dsuGet st.dsu q with
  | some e => (st, e.par)
  | none => ({ st with dsu := dsuSet st.dsu q ⟨q, [q], none, []⟩ }, q)

/-- `DSU::blockEmpty`. -/
def blockEmpty (st : CState) (q : Nat) : CState × Bool :=
  let p := findBlock st q
  (p.1, ((dsuGet p.1.dsu p.2).bind DEnt.anchor).isNone)

/-- The identity placeholder `StandardOperation(0, I)` that `unionBlock`
writes over the losing block's anchor slot. -/
def identityPlaceholder : Op := .std [] [0] .I

/-- `DSU::unionBlock`: no-op on equal roots; otherwise the block with the
smaller body loses, the winner absorbs the loser's members and body, the
loser's anchor cell (if any) is overwritten with an identity placeholder,
and the loser's entry is cleared.  The loser's members are repointed
directly at the winner (the eager form of the C++ path compression). -/
def unionBlock (st : CState) (q1 q2 : Nat) : CState :=
  let p₁ := findBlock st q1
  let p₂ := findBlock p₁.1 q2
  let st := p₂.1
  let r1 := p₁.2
  let r2 := p₂.2
  if r1 = r2 then st
  else
    let e1 := (dsuGet st.dsu r1).getD ⟨r1, [r1], none, []⟩
    let e2 := (dsuGet st.dsu r2).getD ⟨r2, [r2], none, []⟩
    let w := if e1.blockOps.length < e2.blockOps.length then r2 else r1
    let l := if e1.blockOps.length < e2.blockOps.length then r1 else r2
    let ew := if e1.blockOps.length < e2.blockOps.length then e2 else e1
    let el := if e1.blockOps.length < e2.blockOps.length then e1 else e2
    let dsu := el.members.foldl
      (fun d i =>
        match dsuGet d i with
        | some ei => dsuSet d i { ei with par := w }
        | none => d) st.dsu
    let dsu := dsuSet dsu w
      { ew with members := ew.members ++ el.members,
                blockOps := ew.blockOps ++ el.blockOps }
    let dsu := dsuSet dsu l ⟨w, [], none, []⟩
    let done := match el.anchor with
      | some a => st.done.set a (some identityPlaceholder)
      | none => st.done
    { st with dsu := dsu, done := done }

/-- `CompoundOperation::isConvertibleToSingleOperation` /
`collapseToSingleOperation` (spec-modelled; that class is not among the
repository's files): a one-element body collapses to its single operation,
anything else is installed as a Compound. -/
def collapseBlock (ops : List Op) : Op :=
  match ops with
  | [o] => o
  | _ => .comp ops

/-- `DSU::finalizeBlock`: nothing for a block with a null anchor; otherwise
write the collapsed body through the anchor, log the write-back, and reset
every member of the block to a fresh singleton. -/
def finalizeBlock (st : CState) (q : Nat) : CState :=
  let p := findBlock st q
  let st := p.1
  let b := p.2
  let e := (dsuGet st.dsu b).getD ⟨b, [b], none, []⟩
  match e.anchor with
  | none => st
  | some a =>
    let wop := collapseBlock e.blockOps
    let dsu := e.members.foldl (fun d i => dsuSet d i ⟨i, [i], none, []⟩) st.dsu
    { done := st.done.set a (some wop),
      dsu := dsu,
      blocksLog := st.blocksLog ++ [wop] }

/-- Look up (inserting lazily) the block of each qubit in order, returning
the roots in query order. -/
def findBlocks (st : CState) : List Nat → CState × List Nat
  | [] => (st, [])
  | q :: rest =>
    let p := findBlock st q
    let pr := findBlocks p.1 rest
    (pr.1, p.2 :: pr.2)

/-- `dsu.bitBlocks[b].size()`. -/
def blockSize (st : CState) (b : Nat) : Nat :=
  ((dsuGet st.dsu b).getD ⟨b, [b], none, []⟩).members.length

/-- `finalizeBlock` over a list of qubits in order (the used-qubit set of a
non-processable operation iterates ascending). -/
def finalizeAll (st : CState) : List Nat → CState
  | [] => st
  | q :: rest => finalizeAll (finalizeBlock st q) rest

/-- The `blocksAndSizes` map of the over-cap branch: the non-empty distinct
blocks of the used qubits with their sizes, in first-encounter order (the
C++ map iterates in an unspecified order). -/
def blocksAndSizes (st : CState) : List Nat → List (Nat × Nat) →
    CState × List (Nat × Nat)
  | [], acc => (st, acc)
  | q :: rest, acc =>
    let p := findBlock st q
    let pe := blockEmpty p.1 p.2
    if pe.2 || acc.any (fun x => x.1 == p.2) then
      blocksAndSizes pe.1 rest acc
    else
      blocksAndSizes pe.1 rest (acc ++ [(p.2, blockSize pe.1 p.2)])

/-- Insert into a list kept descending by second component, after any entry
of equal rank (a stable stand-in for the C++ `std::sort`, whose order on
ties is unspecified). -/
def insertDesc (x : Nat × Nat) : List (Nat × Nat) → List (Nat × Nat)
  | [] => [x]
  | y :: ys => if y.2 < x.2 then x :: y :: ys else y :: insertDesc x ys

/-- Sort descending by second component (stable). -/
def sortDesc (l : List (Nat × Nat)) : List (Nat × Nat) :=
  l.foldl (fun acc x => insertDesc x acc) []

/-- The fill-up loop of the over-cap branch: starting from block `b` of
size `size`, absorb (union) each later block that still fits under the
cap, erasing absorbed entries from the worklist. -/
def absorbBlocks (k : Nat) (st : CState) (b : Nat) :
    Nat → List (Nat × Nat) → CState × List (Nat × Nat)
  | _, [] => (st, [])
  | size, (nb, ns) :: rest =>
    if size < k then
      if size + ns ≤ k then
        absorbBlocks k (unionBlock st b nb) b (size + ns) rest
      else
        let pr := absorbBlocks k st b size rest
        (pr.1, (nb, ns) :: pr.2)
    else (st, (nb, ns) :: rest)

theorem absorbBlocks_length (k : Nat) :
    ∀ (l : List (Nat × Nat)) (st : CState) (b size : Nat),
    (absorbBlocks k st b size l).2.length ≤ l.length := by
  intro l
  induction l with
  | nil => intro st b size; simp [absorbBlocks]
  | cons x rest ih =>
    intro st b size
    obtain ⟨nb, ns⟩ := x
    simp only [absorbBlocks]
    by_cases h1 : size < k
    · rw [if_pos h1]
      by_cases h2 : size + ns ≤ k
      · rw [if_pos h2]
        have := ih (unionBlock st b nb) b (size + ns)
        simp only [List.length_cons]
        omega
      · rw [if_neg h2]
        have := ih st b size
        simp only [List.length_cons]
        omega
    · rw [if_neg h1]

/-- The over-cap branch's outer loop: finalize maximal blocks as they are,
fill the others up with later blocks that fit, finalizing each packed
group.  The worklist shrinks at every step, so running it with the list's
length as structural fuel never exhausts the fuel. -/
def packGo (k : Nat) : Nat → CState → List (Nat × Nat) → CState
  | 0, st, _ => st
  | _ + 1, st, [] => st
  | fuel + 1, st, (b, size) :: rest =>
    if size = k then packGo k fuel (finalizeBlock st b) rest
    else
      let pr := absorbBlocks k st b size rest
      packGo k fuel (finalizeBlock pr.1 b) pr.2

/-- The over-cap branch's outer loop over the descending block list. -/
def packBlocks (k : Nat) (st : CState) (l : List (Nat × Nat)) : CState :=
  packGo k l.length st l

/-- `savings[block] -= 1`. -/
def decSaving : List (Nat × Nat) → Nat → List (Nat × Nat)
  | [], _ => []
  | (b', s) :: rest, b =>
      if b' = b then (b', s - 1) :: rest else (b', s) :: decSaving rest b

/-- The savings map of the under-cap branch: for each used qubit, its
block's entry starts at `size − 1` and is decremented once per further used
qubit of the same block; `total` accumulates each distinct block's size
once.  Entries are kept in first-encounter order. -/
def savingsAcc (st : CState) : List Nat → List (Nat × Nat) → Nat →
    CState × List (Nat × Nat) × Nat
  | [], acc, total => (st, acc, total)
  | q :: rest, acc, total =>
    let p := findBlock st q
    if acc.any (fun x => x.1 == p.2) then
      savingsAcc p.1 rest (decSaving acc p.2) total
    else
      savingsAcc p.1 rest (acc ++ [(p.2, blockSize p.1 p.2 - 1)])
        (total + blockSize p.1 p.2)

/-- The savings-spending loop: walk the sorted savings, and while the
remaining need is positive, subtract the entry's saving and finalize its
block. -/
def spendSavings : CState → Int → List (Nat × Nat) → CState
  | st, _, [] => st
  | st, need, (b, sv) :: rest =>
    if 0 < need then spendSavings (finalizeBlock st b) (need - (sv : Int)) rest
    else spendSavings st need rest

/-- The pairwise union chain of a processed operation's used qubits
(`prev` threading of the C++). -/
def chainGo : CState → Nat → List Nat → CState
  | st, _, [] => st
  | st, prev, q :: rest => chainGo (unionBlock st prev q) q rest

/-- `Qubit(-1)`: `Qubit` is a 32-bit unsigned integer, so the cast of the
`-1` sentinel (an operation without used qubits) wraps to `2^32 - 1`. -/
def qubitNegOne : Nat := 4294967295

/-- One iteration of the block-collection scan over operation `op`:
processability test, over-cap resolution, and either leaving the operation
in place or moving it into its (unioned) block. -/
def scanStep (k : Nat) (st : CState) (op : Op) : CState :=
  let canProcess := op.isUnitary
  let used := op.getUsedQubits
  let pres :=
    if canProcess then
      let pr := findBlocks st used
      let totalSize := (pr.2.dedup.map (blockSize pr.1)).sum
      (pr.1, decide (k < totalSize))
    else
      (finalizeAll st used, false)
  let st := pres.1
  let makesTooBig := pres.2
  let st :=
    if makesTooBig then
      if k < used.length then
        let pb := blocksAndSizes st used []
        packBlocks k pb.1 (sortDesc pb.2)
      else
        let ps := savingsAcc st used [] 0
        spendSavings ps.1 ((ps.2.2 : Int) - (k : Int)) (sortDesc ps.2.1)
    else st
  if canProcess then
    if k < used.length then { st with done := st.done ++ [some op] }
    else
      let st :=
        match used with
        | [] => st
        | q :: rest => chainGo st q rest
      let lastq :=
        match used.getLast? with
        | some q => q
        | none => qubitNegOne
      let p := findBlock st lastq
      let st := p.1
      let b := p.2
      let e := (dsuGet st.dsu b).getD ⟨b, [b], none, []⟩
      if e.anchor.isNone then
        { st with
          dsu := dsuSet st.dsu b
            { e with anchor := some st.done.length,
                     blockOps := e.blockOps ++ [op] },
          done := st.done ++ [none] }
      else
        { st with
          dsu := dsuSet st.dsu b { e with blockOps := e.blockOps ++ [op] } }
  else { st with done := st.done ++ [some op] }

/-- The block-collection scan over the operation list. -/
def collectScan (k : Nat) : List Op → CState → CState
  | [], st => st
  | op :: rest, st => collectScan k rest (scanStep k st op)

/-- The final loop of `collectBlocks`: finalize every remaining root, in
map order. -/
def cleanupRoots (st : CState) : List Nat → CState
  | [] => st
  | q :: rest =>
    match dsuGet st.dsu q with
    | some e =>
        if e.par = q then cleanupRoots (finalizeBlock st q) rest
        else cleanupRoots st rest
    | none => cleanupRoots st rest

/-- Errors of the composed `collectBlocks` pipeline. -/
inductive CollectErr where
  | reorder (e : RErr)
  | defer (e : DeferErr)
  | nullSlot

/-- Rematerialize the emitted cells; a residual `none` cell is a null
`unique_ptr` left in the vector (the C++ would dereference it in
`removeIdentities`). -/
def materialize : List (Option Op) → Except CollectErr (List Op)
  | [] => .ok []
  | none :: _ => .error .nullSlot
  | some o :: rest =>
    match materialize rest with
    | .error e => .error e
    | .ok ops => .ok (o :: ops)

/-- `CircuitOptimizer::collectBlocks` (fuel feeds the reorder and deferral
passes it begins with): no-op for at most one operation; otherwise
reorder, defer measurements, run the DSU scan, finalize remaining roots,
and remove identities.  Besides the circuit it returns the write-back log
(each finalized block, in finalization order). -/
def collectBlocks (fuel k : Nat) (qc : Circuit) :
    Except CollectErr (Circuit × List Op) :=
  if qc.ops.length ≤ 1 then .ok (qc, [])
  else
    match reorderOperations fuel qc with
    | .error e => .error (.reorder e)
    | .ok qc₁ =>
      match deferMeasurements fuel qc₁ with
      | .error e => .error (.defer e)
      | .ok qc₂ =>
        let st := collectScan k qc₂.ops ⟨[], [], []⟩
        let st := cleanupRoots st (st.dsu.map (·.1))
        match materialize st.done with
        | .error e => .error e
        | .ok ops => .ok (⟨qc₂.nqubits, removeIdentities ops⟩, st.blocksLog)

theorem insertAsc_perm (x : Nat) (l : List Nat) : (insertAsc x l).Perm (x :: l) := by
  induction l with
  | nil => exact List.Perm.refl _
  | cons y ys ih =>
    simp only [insertAsc]
    by_cases h : x ≤ y
    · rw [if_pos h]
    · rw [if_neg h]
      exact (ih.cons y).trans (List.Perm.swap x y ys)

theorem sortAsc_perm (l : List Nat) : (sortAsc l).Perm l := by
  induction l with
  | nil => exact List.Perm.refl _
  | cons x xs ih =>
    exact (insertAsc_perm x (sortAsc xs)).trans (ih.cons x)

theorem mem_getUsedQubits (o : Op) (x : Nat) :
    x ∈ o.getUsedQubits ↔ x ∈ o.rawUsedQubits := by
  rw [Op.getUsedQubits, (sortAsc_perm _).mem_iff, List.mem_dedup]

theorem nodup_getUsedQubits (o : Op) : o.getUsedQubits.Nodup := by
  rw [Op.getUsedQubits, (sortAsc_perm _).nodup_iff]
  exact List.nodup_dedup _

theorem mem_rawUsedQubitsList (x : Nat) :
    ∀ l : List Op, x ∈ Op.rawUsedQubits.rawUsedQubitsList l ↔
      ∃ o ∈ l, x ∈ o.rawUsedQubits := by
  intro l
  induction l with
  | nil => simp [Op.rawUsedQubits.rawUsedQubitsList]
  | cons o os ih =>
    simp [Op.rawUsedQubits.rawUsedQubitsList, ih, List.mem_append]

theorem mem_getUsedQubits_comp (l : List Op) (x : Nat) :
    x ∈ (Op.comp l).getUsedQubits ↔ ∃ o ∈ l, x ∈ o.getUsedQubits := by
  rw [mem_getUsedQubits]
  simp only [Op.rawUsedQubits, mem_rawUsedQubitsList]
  constructor
  · rintro ⟨o, ho, hx⟩
    exact ⟨o, ho, (mem_getUsedQubits o x).mpr hx⟩
  · rintro ⟨o, ho, hx⟩
    exact ⟨o, ho, (mem_getUsedQubits o x).mp hx⟩

theorem getUsedQubits_len_zero {o : Op} (h : o.getUsedQubits.length ≤ 0)
    (x : Nat) : x ∉ o.getUsedQubits := by
  have hnil : o.getUsedQubits = [] :=
    List.eq_nil_of_length_eq_zero (by omega)
  rw [hnil]
  exact List.not_mem_nil x

/-- The bound a block entry's invariants impose on its write-back: if each
stored op's qubits lie in the member list and number at most `k`, and the
member list has at most `max k 1` entries, the collapsed write-back uses at
most `k` distinct qubits. -/
theorem collapse_bound (k : Nat) (members : List Nat) (blockOps : List Op)
    (hops : ∀ op ∈ blockOps,
      (∀ x ∈ op.getUsedQubits, x ∈ members) ∧ op.getUsedQubits.length ≤ k)
    (hsz : members.length ≤ max k 1) :
    (collapseBlock blockOps).getUsedQubits.length ≤ k := by
  match blockOps with
  | [o] => exact (hops o (List.mem_singleton_self o)).2
  | [] =>
    show (Op.comp []).getUsedQubits.length ≤ k
    exact Nat.zero_le k
  | o₁ :: o₂ :: rest =>
    show (Op.comp (o₁ :: o₂ :: rest)).getUsedQubits.length ≤ k
    by_cases hk : k = 0
    · subst hk
      have hnil : (Op.comp (o₁ :: o₂ :: rest)).getUsedQubits = [] := by
        rw [List.eq_nil_iff_forall_not_mem]
        intro x hx
        obtain ⟨o, ho, hxo⟩ := (mem_getUsedQubits_comp _ x).mp hx
        exact getUsedQubits_len_zero (hops o ho).2 x hxo
      rw [hnil]
      exact Nat.le_refl 0
    · have hsub : (Op.comp (o₁ :: o₂ :: rest)).getUsedQubits ⊆ members := by
        intro x hx
        obtain ⟨o, ho, hxo⟩ := (mem_getUsedQubits_comp _ x).mp hx
        exact (hops o ho).1 x hxo
      have hnd := nodup_getUsedQubits (Op.comp (o₁ :: o₂ :: rest))
      have := (List.subperm_of_subset hnd hsub).length_le
      omega

/-- The key list of the DSU, in insertion order. -/
def dsuKeys (d : DsuMap) : List Nat := d.map (·.1)

theorem dsuGet_set_self (d : DsuMap) (q : Nat) (e : DEnt) :
    dsuGet (dsuSet d q e) q = some e := by
  induction d with
  | nil => simp [dsuGet, dsuSet, List.find?]
  | cons x rest ih =>
    obtain ⟨q', e'⟩ := x
    simp only [dsuSet]
    by_cases h : q' = q
    · rw [if_pos h]
      simp [dsuGet, List.find?]
    · rw [if_neg h]
      simp only [dsuGet, List.find?]
      rw [show ((q' == q) = false) by simp [h]]
      exact ih

theorem dsuGet_set_ne (d : DsuMap) (q : Nat) (e : DEnt) (q' : Nat)
    (h : q' ≠ q) : dsuGet (dsuSet d q e) q' = dsuGet d q' := by
  have hqq : q ≠ q' := Ne.symm h
  induction d with
  | nil =>
    simp only [dsuGet, dsuSet, List.find?]
    rw [show ((q == q') = false) by simp [hqq]]
  | cons x rest ih =>
    obtain ⟨q'', e''⟩ := x
    simp only [dsuSet]
    by_cases hq : q'' = q
    · rw [if_pos hq]
      subst hq
      simp only [dsuGet, List.find?]
      rw [show ((q'' == q') = false) by simp [hqq]]
    · rw [if_neg hq]
      simp only [dsuGet, List.find?]
      by_cases hq2 : q'' = q'
      · rw [show ((q'' == q') = true) by simp [hq2]]
      · rw [show ((q'' == q') = false) by simp [hq2]]
        exact ih

theorem dsuGet_none_iff (d : DsuMap) (q : Nat) :
    dsuGet d q = none ↔ q ∉ dsuKeys d := by
  induction d with
  | nil => simp [dsuGet, dsuKeys]
  | cons x rest ih =>
    obtain ⟨q', e'⟩ := x
    simp only [dsuGet, List.find?, dsuKeys, List.map_cons, List.mem_cons]
    by_cases h : q' = q
    · subst h
      rw [show ((q' == q') = true) by simp]
      simp
    · rw [show ((q' == q) = false) by simp [h]]
      rw [show (Option.map (fun x => x.2)
          (List.find? (fun e => e.1 == q) rest) = dsuGet rest q) from rfl, ih]
      constructor
      · intro hn hc
        rcases hc with hc | hc
        · exact h hc.symm
        · exact hn hc
      · intro hn hc
        exact hn (Or.inr hc)

theorem dsuGet_mem_keys {d : DsuMap} {q : Nat} {e : DEnt}
    (h : dsuGet d q = some e) : q ∈ dsuKeys d := by
  by_contra hc
  rw [← dsuGet_none_iff] at hc
  rw [h] at hc
  cases hc

theorem dsuKeys_set_mem (d : DsuMap) (q : Nat) (e : DEnt)
    (h : q ∈ dsuKeys d) : dsuKeys (dsuSet d q e) = dsuKeys d := by
  induction d with
  | nil => cases h
  | cons x rest ih =>
    obtain ⟨q', e'⟩ := x
    simp only [dsuSet]
    by_cases hq : q' = q
    · rw [if_pos hq]
      simp [dsuKeys, hq]
    · rw [if_neg hq]
      have hmem : q ∈ dsuKeys rest := by
        simp only [dsuKeys, List.map_cons, List.mem_cons] at h
        rcases h with h | h
        · exact absurd h.symm hq
        · exact h
      simp only [dsuKeys, List.map_cons]
      rw [show (dsuSet rest q e).map (·.1) = dsuKeys (dsuSet rest q e) from rfl,
        ih hmem]
      rfl

theorem dsuKeys_set_new (d : DsuMap) (q : Nat) (e : DEnt)
    (h : q ∉ dsuKeys d) : dsuKeys (dsuSet d q e) = dsuKeys d ++ [q] := by
  induction d with
  | nil => rfl
  | cons x rest ih =>
    obtain ⟨q', e'⟩ := x
    simp only [dsuSet]
    have hne : q' ≠ q := by
      intro he
      exact h (by simp [dsuKeys, he])
    rw [if_neg hne]
    have hmem : q ∉ dsuKeys rest := by
      intro hc
      exact h (by simp [dsuKeys] at hc ⊢; exact Or.inr hc)
    simp only [dsuKeys, List.map_cons]
    rw [show (dsuSet rest q e).map (·.1) = dsuKeys (dsuSet rest q e) from rfl,
      ih hmem]
    rfl

/-- The root of `q`'s block (the stored parent; `q` itself when absent). -/
def rootD (d : DsuMap) (q : Nat) : Nat := ((dsuGet d q).map DEnt.par).getD q

/-- The size of block `b` (`bitBlocks[b].size()`). -/
def sizeD (d : DsuMap) (b : Nat) : Nat :=
  ((dsuGet d b).map (fun e => e.members.length)).getD 1

/-- Well-formedness and bound invariant of the block-collection DSU:
distinct keys; every stored parent is a root (the eager compression);
members carry the back-pointer structure of a forest of flat trees
(each member's parent is its block's root, each key is a member of its
root's block, roots are members of their own block); non-roots are cleared
entries; member lists are duplicate-free and no larger than `max k 1`; and
every stored operation touches only member qubits, at most `k` of them. -/
structure DInv (k : Nat) (d : DsuMap) : Prop where
  nodupKeys : (dsuKeys d).Nodup
  flat : ∀ q e, dsuGet d q = some e →
    ∃ er, dsuGet d e.par = some er ∧ er.par = e.par
  memPar : ∀ q e, dsuGet d q = some e → ∀ m ∈ e.members,
    ∃ em, dsuGet d m = some em ∧ em.par = q
  nonRoot : ∀ q e, dsuGet d q = some e → e.par ≠ q →
    e.members = [] ∧ e.blockOps = [] ∧ e.anchor = none
  selfMem : ∀ q e, dsuGet d q = some e →
    ∃ er, dsuGet d e.par = some er ∧ q ∈ er.members
  membersNodup : ∀ q e, dsuGet d q = some e → e.members.Nodup
  opsBound : ∀ q e, dsuGet d q = some e → ∀ op ∈ e.blockOps,
    (∀ x ∈ op.getUsedQubits, x ∈ e.members) ∧ op.getUsedQubits.length ≤ k
  sizeBound : ∀ q e, dsuGet d q = some e → e.members.length ≤ max k 1

/-- Empty blocks are singletons: a root whose anchor is null has exactly
itself as member (true between scan iterations; the union chain of a
processed operation restores it by anchoring the merged block). -/
def EIS (d : DsuMap) : Prop :=
  ∀ q e, dsuGet d q = some e → e.par = q → e.anchor = none → e.members = [q]

theorem DInv.rootEntry {k : Nat} {d : DsuMap} (hInv : DInv k d) {q : Nat}
    {e : DEnt} (h : dsuGet d q = some e) :
    ∃ er, dsuGet d e.par = some er ∧ er.par = e.par ∧ q ∈ er.members := by
  obtain ⟨er, her, hpar⟩ := hInv.flat q e h
  obtain ⟨er', her', hmem⟩ := hInv.selfMem q e h
  rw [her] at her'
  injection her' with he
  exact ⟨er, her, hpar, he ▸ hmem⟩

theorem DInv.root_self_mem {k : Nat} {d : DsuMap} (hInv : DInv k d)
    {r : Nat} {er : DEnt} (h : dsuGet d r = some er) (hr : er.par = r) :
    r ∈ er.members := by
  obtain ⟨er', her', -, hmem⟩ := hInv.rootEntry h
  rw [hr, h] at her'
  injection her' with he
  exact he ▸ hmem

theorem DInv.mem_members_iff {k : Nat} {d : DsuMap} (hInv : DInv k d)
    {r : Nat} {er : DEnt} (h : dsuGet d r = some er) (hr : er.par = r)
    (m : Nat) : m ∈ er.members ↔
      ∃ em, dsuGet d m = some em ∧ em.par = r := by
  constructor
  · exact fun hm => hInv.memPar r er h m hm
  · rintro ⟨em, hem, hpar⟩
    obtain ⟨er', her', hmem⟩ := hInv.selfMem m em hem
    rw [hpar, h] at her'
    injection her' with he
    exact he ▸ hmem

theorem DInv.members_disjoint {k : Nat} {d : DsuMap} (hInv : DInv k d)
    {r1 r2 : Nat} {e1 e2 : DEnt} (h1 : dsuGet d r1 = some e1)
    (hr1 : e1.par = r1) (h2 : dsuGet d r2 = some e2) (hr2 : e2.par = r2)
    (hne : r1 ≠ r2) {m : Nat} (hm : m ∈ e1.members) : m ∉ e2.members := by
  intro hm2
  obtain ⟨em, hem, hp1⟩ := hInv.memPar r1 e1 h1 m hm
  obtain ⟨em', hem', hp2⟩ := hInv.memPar r2 e2 h2 m hm2
  rw [hem] at hem'
  injection hem' with he
  exact hne (hp1.symm.trans (he ▸ hp2))

theorem findBlock_key {st : CState} {q : Nat} {e : DEnt}
    (h : dsuGet st.dsu q = some e) : findBlock st q = (st, e.par) := by
  simp [findBlock, h]

theorem findBlock_fresh {st : CState} {q : Nat}
    (h : dsuGet st.dsu q = none) :
    findBlock st q =
      ({ st with dsu := dsuSet st.dsu q ⟨q, [q], none, []⟩ }, q) := by
  simp [findBlock, h]

theorem DInv.insert_singleton {k : Nat} {d : DsuMap} (hInv : DInv k d)
    {q : Nat} (h : dsuGet d q = none) :
    DInv k (dsuSet d q ⟨q, [q], none, []⟩) := by
  have hget : ∀ x, dsuGet (dsuSet d q ⟨q, [q], none, []⟩) x =
      if x = q then some ⟨q, [q], none, []⟩ else dsuGet d x := by
    intro x
    by_cases hx : x = q
    · rw [if_pos hx, hx, dsuGet_set_self]
    · rw [if_neg hx, dsuGet_set_ne d q _ x hx]
  have hnotkey : q ∉ dsuKeys d := (dsuGet_none_iff d q).mp h
  have hparNe : ∀ x e', dsuGet d x = some e' → e'.par ≠ q := by
    intro x e' hx hc
    obtain ⟨er, her, -⟩ := hInv.flat x e' hx
    rw [hc, h] at her
    cases her
  have hmemNe : ∀ x e', dsuGet d x = some e' → ∀ m ∈ e'.members, m ≠ q := by
    intro x e' hx m hm hc
    obtain ⟨em, hem, -⟩ := hInv.memPar x e' hx m hm
    rw [hc, h] at hem
    cases hem
  refine ⟨?_, ?_, ?_, ?_, ?_, ?_, ?_, ?_⟩
  · rw [dsuKeys_set_new d q _ hnotkey]
    simp only [List.nodup_append, List.nodup_singleton]
    exact ⟨hInv.nodupKeys, by trivial, by
      intro a ha hb
      rw [List.mem_singleton] at hb
      exact hnotkey (hb ▸ ha)⟩
  · intro x e hx
    rw [hget] at hx
    by_cases hxq : x = q
    · rw [if_pos hxq] at hx
      injection hx with hx
      subst hx
      refine ⟨⟨q, [q], none, []⟩, ?_, rfl⟩
      rw [hget]
      simp
    · rw [if_neg hxq] at hx
      obtain ⟨er, her, hpar⟩ := hInv.flat x e hx
      refine ⟨er, ?_, hpar⟩
      rw [hget, if_neg (hparNe x e hx)]
      exact her
  · intro x e hx m hm
    rw [hget] at hx
    by_cases hxq : x = q
    · rw [if_pos hxq] at hx
      injection hx with hx
      subst hx
      simp only [List.mem_singleton] at hm
      refine ⟨⟨q, [q], none, []⟩, ?_, by rw [hxq]⟩
      rw [hget, if_pos hm]
    · rw [if_neg hxq] at hx
      obtain ⟨em, hem, hpar⟩ := hInv.memPar x e hx m hm
      refine ⟨em, ?_, hpar⟩
      rw [hget, if_neg (hmemNe x e hx m hm)]
      exact hem
  · intro x e hx hne
    rw [hget] at hx
    by_cases hxq : x = q
    · rw [if_pos hxq] at hx
      injection hx with hx
      subst hx
      rw [hxq] at hne
      exact absurd rfl hne
    · rw [if_neg hxq] at hx
      exact hInv.nonRoot x e hx hne
  · intro x e hx
    rw [hget] at hx
    by_cases hxq : x = q
    · rw [if_pos hxq] at hx
      injection hx with hx
      subst hx
      refine ⟨⟨q, [q], none, []⟩, ?_, ?_⟩
      · rw [hget]
        simp
      · simp [hxq]
    · rw [if_neg hxq] at hx
      obtain ⟨er, her, hmem⟩ := hInv.selfMem x e hx
      refine ⟨er, ?_, hmem⟩
      rw [hget, if_neg (hparNe x e hx)]
      exact her
  · intro x e hx
    rw [hget] at hx
    by_cases hxq : x = q
    · rw [if_pos hxq] at hx
      injection hx with hx
      subst hx
      exact List.nodup_singleton q
    · rw [if_neg hxq] at hx
      exact hInv.membersNodup x e hx
  · intro x e hx op hop
    rw [hget] at hx
    by_cases hxq : x = q
    · rw [if_pos hxq] at hx
      injection hx with hx
      subst hx
      cases hop
    · rw [if_neg hxq] at hx
      exact hInv.opsBound x e hx op hop
  · intro x e hx
    rw [hget] at hx
    by_cases hxq : x = q
    · rw [if_pos hxq] at hx
      injection hx with hx
      subst hx
      simp
    · rw [if_neg hxq] at hx
      exact hInv.sizeBound x e hx

theorem EIS.insert_single {d : DsuMap} (hE : EIS d) {q : Nat} :
    EIS (dsuSet d q ⟨q, [q], none, []⟩) := by
  intro x e hx hr ha
  by_cases hxq : x = q
  · rw [hxq, dsuGet_set_self] at hx
    injection hx with hx
    rw [← hx, hxq]
  · rw [dsuGet_set_ne d q _ x hxq] at hx
    exact hE x e hx hr ha

/-- Consolidated `findBlock` facts: the invariants are preserved, `done`
and the log are untouched, the map only grows, the result is the queried
qubit's root and has a root entry. -/
theorem findBlock_spec (k : Nat) (st : CState) (q : Nat)
    (hInv : DInv k st.dsu) (hE : EIS st.dsu) :
    DInv k (findBlock st q).1.dsu ∧ EIS (findBlock st q).1.dsu ∧
    (findBlock st q).1.done = st.done ∧
    (findBlock st q).1.blocksLog = st.blocksLog ∧
    (∃ er, dsuGet (findBlock st q).1.dsu (findBlock st q).2 = some er ∧
      er.par = (findBlock st q).2 ∧ q ∈ er.members) ∧
    (∀ x e, dsuGet st.dsu x = some e →
      dsuGet (findBlock st q).1.dsu x = some e) := by
  match hq : dsuGet st.dsu q with
  | some e =>
    rw [findBlock_key hq]
    obtain ⟨er, her, hpar, hmem⟩ := hInv.rootEntry hq
    exact ⟨hInv, hE, rfl, rfl, ⟨er, her, hpar, hmem⟩, fun x e hx => hx⟩
  | none =>
    rw [findBlock_fresh hq]
    refine ⟨hInv.insert_singleton hq, hE.insert_single, rfl, rfl,
      ⟨⟨q, [q], none, []⟩, by simp [dsuGet_set_self], rfl, by simp⟩, ?_⟩
    intro x e hx
    have hxq : x ≠ q := by
      intro hc
      rw [hc, hq] at hx
      cases hx
    rw [dsuGet_set_ne st.dsu q _ x hxq]
    exact hx

theorem resetAll_get : ∀ (ms : List Nat) (d : DsuMap) (x : Nat),
    dsuGet (ms.foldl (fun d i => dsuSet d i ⟨i, [i], none, []⟩) d) x =
      if x ∈ ms then some ⟨x, [x], none, []⟩ else dsuGet d x := by
  intro ms
  induction ms with
  | nil => intro d x; simp
  | cons m ms ih =>
    intro d x
    simp only [List.foldl_cons]
    rw [ih]
    by_cases hx : x ∈ ms
    · rw [if_pos hx, if_pos (List.mem_cons_of_mem m hx)]
    · rw [if_neg hx]
      by_cases hxm : x = m
      · rw [if_pos (by rw [hxm]; exact List.mem_cons_self m ms)]
        rw [hxm, dsuGet_set_self]
      · rw [dsuGet_set_ne d m _ x hxm, if_neg (by simp [hxm, hx])]

theorem resetAll_keys : ∀ (ms : List Nat) (d : DsuMap),
    (∀ m ∈ ms, m ∈ dsuKeys d) →
    dsuKeys (ms.foldl (fun d i => dsuSet d i ⟨i, [i], none, []⟩) d) =
      dsuKeys d := by
  intro ms
  induction ms with
  | nil => intro d _; rfl
  | cons m ms ih =>
    intro d hkeys
    simp only [List.foldl_cons]
    rw [ih _ (fun m' hm' => by
        rw [show dsuKeys (dsuSet d m ⟨m, [m], none, []⟩) = dsuKeys d from
          dsuKeys_set_mem d m _ (hkeys m (List.mem_cons_self m ms))]
        exact hkeys m' (List.mem_cons_of_mem m hm'))]
    exact dsuKeys_set_mem d m _ (hkeys m (List.mem_cons_self m ms))

theorem repointAll_get : ∀ (ms : List Nat) (d : DsuMap) (w x : Nat),
    dsuGet (ms.foldl (fun d i =>
        match dsuGet d i with
        | some ei => dsuSet d i { ei with par := w }
        | none => d) d) x =
      if x ∈ ms then (dsuGet d x).map (fun e => { e with par := w })
      else dsuGet d x := by
  intro ms
  induction ms with
  | nil => intro d w x; simp
  | cons m ms ih =>
    intro d w x
    simp only [List.foldl_cons]
    have hstep : ∀ y, dsuGet
        (match dsuGet d m with
         | some ei => dsuSet d m { ei with par := w }
         | none => d) y =
        if y = m then (dsuGet d m).map (fun e => { e with par := w })
        else dsuGet d y := by
      intro y
      match hm : dsuGet d m with
      | some em =>
        by_cases hy : y = m
        · rw [if_pos hy, hy, dsuGet_set_self]
          rfl
        · rw [if_neg hy, dsuGet_set_ne d m _ y hy]
      | none =>
        by_cases hy : y = m
        · rw [if_pos hy, hy, hm]
          rfl
        · rw [if_neg hy]
    rw [ih]
    by_cases hx : x ∈ ms
    · rw [if_pos hx, if_pos (List.mem_cons_of_mem m hx), hstep]
      by_cases hxm : x = m
      · rw [if_pos hxm, hxm, Option.map_map]
        cases dsuGet d m <;> rfl
      · rw [if_neg hxm]
    · rw [if_neg hx, hstep]
      by_cases hxm : x = m
      · rw [if_pos hxm, if_pos (by rw [hxm]; exact List.mem_cons_self m ms),
          hxm]
      · rw [if_neg hxm, if_neg (by simp [hxm, hx])]

/-- `EIS` away from one distinguished root: the union chain of a processed
operation may leave its accumulating merged block empty-but-large until the
operation is anchored into it. -/
def EISx (d : DsuMap) (w : Nat) : Prop :=
  ∀ q e, dsuGet d q = some e → e.par = q → e.anchor = none → q ≠ w →
    e.members = [q]

theorem EIS.toX {d : DsuMap} (h : EIS d) (w : Nat) : EISx d w :=
  fun q e hq hp ha _ => h q e hq hp ha

theorem EISx.toEIS {d : DsuMap} {w : Nat} (h : EISx d w)
    (hw : ∀ e, dsuGet d w = some e → e.anchor ≠ none) : EIS d := by
  intro q e hq hp ha
  by_cases hqw : q = w
  · exact absurd ha (hw e (hqw ▸ hq))
  · exact h q e hq hp ha hqw

/-- Resetting every member of a root block to fresh singletons keeps the
invariants (`EIS` full again, even from `EIS`-away-from-`r`) and the key
list. -/
theorem DInv.reset_block {k : Nat} {d : DsuMap} (hInv : DInv k d)
    {r : Nat} {er : DEnt} (hE : EISx d r)
    (hr : dsuGet d r = some er) (hpar : er.par = r) :
    DInv k (er.members.foldl (fun d i => dsuSet d i ⟨i, [i], none, []⟩) d) ∧
    EIS (er.members.foldl (fun d i => dsuSet d i ⟨i, [i], none, []⟩) d) ∧
    dsuKeys (er.members.foldl (fun d i => dsuSet d i ⟨i, [i], none, []⟩) d) =
      dsuKeys d := by
  set d' := er.members.foldl (fun d i => dsuSet d i ⟨i, [i], none, []⟩) d
    with hd'
  have hget : ∀ x, dsuGet d' x =
      if x ∈ er.members then some ⟨x, [x], none, []⟩ else dsuGet d x :=
    fun x => resetAll_get er.members d x
  have hmemkey : ∀ m ∈ er.members, m ∈ dsuKeys d := by
    intro m hm
    obtain ⟨em, hem, -⟩ := hInv.memPar r er hr m hm
    exact dsuGet_mem_keys hem
  have hmemIff : ∀ m, m ∈ er.members ↔
      ∃ em, dsuGet d m = some em ∧ em.par = r :=
    hInv.mem_members_iff hr hpar
  have hkeys : dsuKeys d' = dsuKeys d := resetAll_keys er.members d hmemkey
  have hrootNotMem : ∀ x e, dsuGet d x = some e → x ∉ er.members →
      e.par ∉ er.members := by
    intro x e hx hxm hc
    obtain ⟨em, hem, hparm⟩ := (hmemIff e.par).mp hc
    obtain ⟨er2, her2, hpar2⟩ := hInv.flat x e hx
    rw [hem] at her2
    injection her2 with he
    rw [← he] at hpar2
    rw [hparm] at hpar2
    -- e.par = r, so x ∈ members of r
    have : x ∈ er.members := (hmemIff x).mpr ⟨e, hx, hpar2.symm⟩
    exact hxm this
  refine ⟨⟨?_, ?_, ?_, ?_, ?_, ?_, ?_, ?_⟩, ?_, hkeys⟩
  · rw [hkeys]; exact hInv.nodupKeys
  · intro x e hx
    rw [hget] at hx
    by_cases hxm : x ∈ er.members
    · rw [if_pos hxm] at hx
      injection hx with hx
      subst hx
      exact ⟨⟨x, [x], none, []⟩, by rw [hget, if_pos hxm], rfl⟩
    · rw [if_neg hxm] at hx
      obtain ⟨er2, her2, hpar2⟩ := hInv.flat x e hx
      exact ⟨er2, by rw [hget, if_neg (hrootNotMem x e hx hxm)]; exact her2,
        hpar2⟩
  · intro x e hx m hm
    rw [hget] at hx
    by_cases hxm : x ∈ er.members
    · rw [if_pos hxm] at hx
      injection hx with hx
      subst hx
      simp only [List.mem_singleton] at hm
      subst hm
      exact ⟨⟨m, [m], none, []⟩, by rw [hget, if_pos hxm], rfl⟩
    · rw [if_neg hxm] at hx
      obtain ⟨em, hem, hparm⟩ := hInv.memPar x e hx m hm
      have hmNot : m ∉ er.members := by
        intro hc
        obtain ⟨em', hem', hparm'⟩ := (hmemIff m).mp hc
        rw [hem] at hem'
        injection hem' with he
        rw [← he] at hparm'
        rw [hparm] at hparm'
        -- x = r, so x ∈ members of r, contradiction
        exact hxm (hparm' ▸ hInv.root_self_mem hr hpar : x ∈ er.members)
      exact ⟨em, by rw [hget, if_neg hmNot]; exact hem, hparm⟩
  · intro x e hx hne
    rw [hget] at hx
    by_cases hxm : x ∈ er.members
    · rw [if_pos hxm] at hx
      injection hx with hx
      subst hx
      exact absurd rfl hne
    · rw [if_neg hxm] at hx
      exact hInv.nonRoot x e hx hne
  · intro x e hx
    rw [hget] at hx
    by_cases hxm : x ∈ er.members
    · rw [if_pos hxm] at hx
      injection hx with hx
      subst hx
      exact ⟨⟨x, [x], none, []⟩, by rw [hget, if_pos hxm], by simp⟩
    · rw [if_neg hxm] at hx
      obtain ⟨er2, her2, hmem2⟩ := hInv.selfMem x e hx
      refine ⟨er2, by rw [hget, if_neg (hrootNotMem x e hx hxm)]; exact her2,
        hmem2⟩
  · intro x e hx
    rw [hget] at hx
    by_cases hxm : x ∈ er.members
    · rw [if_pos hxm] at hx
      injection hx with hx
      subst hx
      exact List.nodup_singleton x
    · rw [if_neg hxm] at hx
      exact hInv.membersNodup x e hx
  · intro x e hx op hop
    rw [hget] at hx
    by_cases hxm : x ∈ er.members
    · rw [if_pos hxm] at hx
      injection hx with hx
      subst hx
      cases hop
    · rw [if_neg hxm] at hx
      exact hInv.opsBound x e hx op hop
  · intro x e hx
    rw [hget] at hx
    by_cases hxm : x ∈ er.members
    · rw [if_pos hxm] at hx
      injection hx with hx
      subst hx
      simp
    · rw [if_neg hxm] at hx
      exact hInv.sizeBound x e hx
  · intro x e hx hrx hax
    rw [hget] at hx
    by_cases hxm : x ∈ er.members
    · rw [if_pos hxm] at hx
      injection hx with hx
      subst hx
      rfl
    · rw [if_neg hxm] at hx
      exact hE x e hx hrx hax
        (fun hc => hxm (hc ▸ hInv.root_self_mem hr hpar))

/-- Full case analysis of `finalizeBlock`: the lazy lookup yields a root
entry; a null anchor leaves the state as the lookup left it, otherwise the
write-back happens and the members are reset. -/
theorem finalizeBlock_cases (k : Nat) (st : CState) (q : Nat)
    (hInv : DInv k st.dsu) (hE : EIS st.dsu) :
    ∃ st₁ r er, findBlock st q = (st₁, r) ∧ dsuGet st₁.dsu r = some er ∧
      er.par = r ∧ DInv k st₁.dsu ∧ EIS st₁.dsu ∧
      st₁.blocksLog = st.blocksLog ∧ st₁.done = st.done ∧
      (∀ x e, dsuGet st.dsu x = some e → dsuGet st₁.dsu x = some e) ∧
      ((er.anchor = none ∧ finalizeBlock st q = st₁) ∨
       (∃ a, er.anchor = some a ∧
         finalizeBlock st q =
           ⟨st₁.done.set a (some (collapseBlock er.blockOps)),
            er.members.foldl
              (fun d i => dsuSet d i ⟨i, [i], none, []⟩) st₁.dsu,
            st₁.blocksLog ++ [collapseBlock er.blockOps]⟩)) := by
  obtain ⟨hInv₁, hE₁, hdone, hlog, ⟨er, her, hpar, -⟩, hext⟩ :=
    findBlock_spec k st q hInv hE
  refine ⟨(findBlock st q).1, (findBlock st q).2, er, rfl, her, hpar,
    hInv₁, hE₁, hlog, hdone, hext, ?_⟩
  match ha : er.anchor with
  | none =>
    left
    refine ⟨rfl, ?_⟩
    simp only [finalizeBlock, her]
    rw [show ((some er).getD ⟨(findBlock st q).2, [(findBlock st q).2],
      none, []⟩ = er) from rfl, ha]
  | some a =>
    right
    refine ⟨a, rfl, ?_⟩
    simp only [finalizeBlock, her]
    rw [show ((some er).getD ⟨(findBlock st q).2, [(findBlock st q).2],
      none, []⟩ = er) from rfl, ha]

/-- `finalizeBlock` preserves the invariants, appends at most one
operation — of at most `k` used qubits — to the log, and loses no key. -/
theorem finalizeBlock_inv (k : Nat) (st : CState) (q : Nat)
    (hInv : DInv k st.dsu) (hE : EIS st.dsu) :
    DInv k (finalizeBlock st q).dsu ∧ EIS (finalizeBlock st q).dsu ∧
    ((finalizeBlock st q).blocksLog = st.blocksLog ∨
      ∃ wop, (finalizeBlock st q).blocksLog = st.blocksLog ++ [wop] ∧
        wop.getUsedQubits.length ≤ k) ∧
    (∀ x e, dsuGet st.dsu x = some e →
      ∃ e', dsuGet (finalizeBlock st q).dsu x = some e') := by
  obtain ⟨st₁, r, er, hp, her, hpar, hInv₁, hE₁, hlog, -, hext, hcase⟩ :=
    finalizeBlock_cases k st q hInv hE
  rcases hcase with ⟨-, heq⟩ | ⟨a, ha, heq⟩
  · rw [heq]
    exact ⟨hInv₁, hE₁, Or.inl hlog,
      fun x e hx => ⟨e, hext x e hx⟩⟩
  · obtain ⟨hInv', hE', hkeys⟩ := hInv₁.reset_block (hE₁.toX r) her hpar
    rw [heq]
    refine ⟨hInv', hE', ?_, ?_⟩
    · right
      refine ⟨collapseBlock er.blockOps, by rw [hlog], ?_⟩
      exact collapse_bound k er.members er.blockOps
        (hInv₁.opsBound r er her) (hInv₁.sizeBound r er her)
    · intro x e hx
      have hx₁ := hext x e hx
      have hxkey : x ∈ dsuKeys st₁.dsu := dsuGet_mem_keys hx₁
      match hlookup : dsuGet (er.members.foldl
          (fun d i => dsuSet d i ⟨i, [i], none, []⟩) st₁.dsu) x with
      | some e' => exact ⟨e', rfl⟩
      | none =>
        rw [dsuGet_none_iff, hkeys] at hlookup
        exact absurd hxkey hlookup

theorem repointAll_keys : ∀ (ms : List Nat) (d : DsuMap) (w : Nat),
    dsuKeys (ms.foldl (fun d i =>
        match dsuGet d i with
        | some ei => dsuSet d i { ei with par := w }
        | none => d) d) = dsuKeys d := by
  intro ms
  induction ms with
  | nil => intro d w; rfl
  | cons m ms ih =>
    intro d w
    simp only [List.foldl_cons]
    rw [ih]
    match hm : dsuGet d m with
    | some em => exact dsuKeys_set_mem d m _ (dsuGet_mem_keys hm)
    | none => rfl

/-- Pointwise specification of `unionBlock` on two present qubits: a no-op
on equal roots, otherwise the loser's entries are repointed and cleared and
the winner's entry absorbs the loser's members and body. -/
theorem unionBlock_spec (k : Nat) (st : CState) (q1 q2 : Nat)
    (hInv : DInv k st.dsu)
    {e1 e2 : DEnt}
    (he1 : dsuGet st.dsu q1 = some e1) (he2 : dsuGet st.dsu q2 = some e2) :
    (e1.par = e2.par ∧ unionBlock st q1 q2 = st) ∨
    (e1.par ≠ e2.par ∧ ∃ w l ew el,
      (w = e1.par ∧ l = e2.par ∨ w = e2.par ∧ l = e1.par) ∧
      dsuGet st.dsu w = some ew ∧ ew.par = w ∧
      dsuGet st.dsu l = some el ∧ el.par = l ∧
      (unionBlock st q1 q2).blocksLog = st.blocksLog ∧
      dsuKeys (unionBlock st q1 q2).dsu = dsuKeys st.dsu ∧
      (∀ x, dsuGet (unionBlock st q1 q2).dsu x =
        if x = w then
          some ⟨w, ew.members ++ el.members, ew.anchor,
            ew.blockOps ++ el.blockOps⟩
        else if x = l then some ⟨w, [], none, []⟩
        else if x ∈ el.members then
          (dsuGet st.dsu x).map (fun e => { e with par := w })
        else dsuGet st.dsu x)) := by
  obtain ⟨er1, her1, hper1⟩ := hInv.flat q1 e1 he1
  obtain ⟨er2, her2, hper2⟩ := hInv.flat q2 e2 he2
  by_cases hr : e1.par = e2.par
  · left
    refine ⟨hr, ?_⟩
    simp only [unionBlock, findBlock_key he1, findBlock_key he2]
    rw [if_pos hr]
  · right
    refine ⟨hr, ?_⟩
    have hrne : e2.par ≠ e1.par := Ne.symm hr
    have hvalue : unionBlock st q1 q2 =
        let ew := if er1.blockOps.length < er2.blockOps.length then er2
          else er1
        let el := if er1.blockOps.length < er2.blockOps.length then er1
          else er2
        let w := if er1.blockOps.length < er2.blockOps.length then e2.par
          else e1.par
        let l := if er1.blockOps.length < er2.blockOps.length then e1.par
          else e2.par
        let dsu := el.members.foldl
          (fun d i =>
            match dsuGet d i with
            | some ei => dsuSet d i { ei with par := w }
            | none => d) st.dsu
        let dsu := dsuSet dsu w
          { ew with members := ew.members ++ el.members,
                    blockOps := ew.blockOps ++ el.blockOps }
        let dsu := dsuSet dsu l ⟨w, [], none, []⟩
        let done := match el.anchor with
          | some a => st.done.set a (some identityPlaceholder)
          | none => st.done
        { st with dsu := dsu, done := done } := by
      simp only [unionBlock, findBlock_key he1, findBlock_key he2]
      rw [if_neg hr]
      simp only [her1, her2, Option.getD_some]
    by_cases hlen : er1.blockOps.length < er2.blockOps.length
    · simp only [if_pos hlen] at hvalue
      refine ⟨e2.par, e1.par, er2, er1, Or.inr ⟨rfl, rfl⟩, her2, hper2,
        her1, hper1, by rw [hvalue], ?_, ?_⟩
      · rw [hvalue]
        show dsuKeys (dsuSet (dsuSet _ e2.par _) e1.par _) = dsuKeys st.dsu
        rw [dsuKeys_set_mem _ e1.par _ (by
            rw [show dsuKeys (dsuSet (er1.members.foldl _ st.dsu) e2.par _) =
              dsuKeys (er1.members.foldl
                (fun d i =>
                  match dsuGet d i with
                  | some ei => dsuSet d i { ei with par := e2.par }
                  | none => d) st.dsu) from
              dsuKeys_set_mem _ e2.par _ (by
                rw [repointAll_keys]
                exact dsuGet_mem_keys her2), repointAll_keys]
            exact dsuGet_mem_keys her1),
          dsuKeys_set_mem _ e2.par _ (by
            rw [repointAll_keys]
            exact dsuGet_mem_keys her2), repointAll_keys]
      · intro x
        rw [hvalue]
        show dsuGet (dsuSet (dsuSet _ e2.par _) e1.par _) x = _
        by_cases hxl : x = e1.par
        · rw [hxl, dsuGet_set_self, if_neg hrne.symm]
          rw [if_pos rfl]
        · rw [dsuGet_set_ne _ e1.par _ x hxl]
          by_cases hxw : x = e2.par
          · rw [hxw, dsuGet_set_self, if_pos rfl, hper2]
          · rw [dsuGet_set_ne _ e2.par _ x hxw, repointAll_get,
              if_neg hxw, if_neg hxl]
    · simp only [if_neg hlen] at hvalue
      refine ⟨e1.par, e2.par, er1, er2, Or.inl ⟨rfl, rfl⟩, her1, hper1,
        her2, hper2, by rw [hvalue], ?_, ?_⟩
      · rw [hvalue]
        show dsuKeys (dsuSet (dsuSet _ e1.par _) e2.par _) = dsuKeys st.dsu
        rw [dsuKeys_set_mem _ e2.par _ (by
            rw [show dsuKeys (dsuSet (er2.members.foldl _ st.dsu) e1.par _) =
              dsuKeys (er2.members.foldl
                (fun d i =>
                  match dsuGet d i with
                  | some ei => dsuSet d i { ei with par := e1.par }
                  | none => d) st.dsu) from
              dsuKeys_set_mem _ e1.par _ (by
                rw [repointAll_keys]
                exact dsuGet_mem_keys her1), repointAll_keys]
            exact dsuGet_mem_keys her2),
          dsuKeys_set_mem _ e1.par _ (by
            rw [repointAll_keys]
            exact dsuGet_mem_keys her1), repointAll_keys]
      · intro x
        rw [hvalue]
        show dsuGet (dsuSet (dsuSet _ e1.par _) e2.par _) x = _
        by_cases hxl : x = e2.par
        · rw [hxl, dsuGet_set_self, if_neg hrne]
          rw [if_pos rfl]
        · rw [dsuGet_set_ne _ e2.par _ x hxl]
          by_cases hxw : x = e1.par
          · rw [hxw, dsuGet_set_self, if_pos rfl, hper1]
          · rw [dsuGet_set_ne _ e1.par _ x hxw, repointAll_get,
              if_neg hxw, if_neg hxl]

/-- `unionBlock` on two present qubits preserves the invariant (provided
the two blocks fit together under the cap), keeps the log and the keys,
merges the two roots and leaves every other block alone. -/
theorem unionBlock_inv (k : Nat) (st : CState) (q1 q2 : Nat)
    (hInv : DInv k st.dsu) {e1 e2 : DEnt}
    (he1 : dsuGet st.dsu q1 = some e1) (he2 : dsuGet st.dsu q2 = some e2)
    (hsz : e1.par ≠ e2.par →
      sizeD st.dsu e1.par + sizeD st.dsu e2.par ≤ max k 1) :
    DInv k (unionBlock st q1 q2).dsu ∧
    (unionBlock st q1 q2).blocksLog = st.blocksLog ∧
    dsuKeys (unionBlock st q1 q2).dsu = dsuKeys st.dsu ∧
    (EISx st.dsu e1.par → EISx (unionBlock st q1 q2).dsu
      (rootD (unionBlock st q1 q2).dsu q1)) ∧
    (rootD (unionBlock st q1 q2).dsu q1 = e1.par ∨
      rootD (unionBlock st q1 q2).dsu q1 = e2.par) ∧
    (∀ x, rootD (unionBlock st q1 q2).dsu x =
      if rootD st.dsu x = e1.par ∨ rootD st.dsu x = e2.par then
        rootD (unionBlock st q1 q2).dsu q1
      else rootD st.dsu x) ∧
    sizeD (unionBlock st q1 q2).dsu (rootD (unionBlock st q1 q2).dsu q1) ≤
      sizeD st.dsu e1.par + sizeD st.dsu e2.par ∧
    (∀ b, rootD st.dsu b = b → b ≠ e1.par → b ≠ e2.par →
      sizeD (unionBlock st q1 q2).dsu b = sizeD st.dsu b ∧
      dsuGet (unionBlock st q1 q2).dsu b = dsuGet st.dsu b) := by
  rcases unionBlock_spec k st q1 q2 hInv he1 he2 with
    ⟨hr, heq⟩ | ⟨hr, w, l, ew, el, hwl0, hw, hpw, hl, hpl, hlog, hkeys, hget⟩
  · rw [heq]
    have hroot1 : rootD st.dsu q1 = e1.par := by
      simp [rootD, he1]
    refine ⟨hInv, rfl, rfl, ?_, Or.inl hroot1, ?_, ?_, ?_⟩
    · rw [hroot1]
      intro hE q e hq hp ha hqw
      exact hE q e hq hp ha hqw
    · intro x
      rw [hroot1]
      by_cases hc : rootD st.dsu x = e1.par ∨ rootD st.dsu x = e2.par
      · rw [if_pos hc]
        rcases hc with hc | hc
        · exact hc
        · rw [hc, hr]
      · rw [if_neg hc]
    · rw [hroot1]
      have : sizeD st.dsu e1.par ≤ sizeD st.dsu e1.par + sizeD st.dsu e2.par :=
        Nat.le_add_right _ _
      exact this
    · exact fun b _ _ _ => ⟨rfl, rfl⟩
  · -- distinct roots merged
    have hwl : w ≠ l := by
      rcases hwl0 with ⟨hw', hl'⟩ | ⟨hw', hl'⟩
      · rw [hw', hl']; exact hr
      · rw [hw', hl']; exact Ne.symm hr
    have hWdisj : ∀ m ∈ ew.members, m ∉ el.members := fun m hm =>
      hInv.members_disjoint hw hpw hl hpl hwl hm
    have hwmem : w ∈ ew.members := hInv.root_self_mem hw hpw
    have hlmem : l ∈ el.members := hInv.root_self_mem hl hpl
    have hwNotl : w ∉ el.members := hWdisj w hwmem
    have hlNotw : l ∉ ew.members := fun hc => hWdisj l hc hlmem
    have hmeml : ∀ m ∈ el.members, ∃ em, dsuGet st.dsu m = some em ∧
        em.par = l := hInv.memPar l el hl
    have hmemw : ∀ m ∈ ew.members, ∃ em, dsuGet st.dsu m = some em ∧
        em.par = w := hInv.memPar w ew hw
    have hmemIffl : ∀ m, m ∈ el.members ↔
        ∃ em, dsuGet st.dsu m = some em ∧ em.par = l :=
      hInv.mem_members_iff hl hpl
    have hmemIffw : ∀ m, m ∈ ew.members ↔
        ∃ em, dsuGet st.dsu m = some em ∧ em.par = w :=
      hInv.mem_members_iff hw hpw
    -- the root of q1 and q2 after the union is w
    have hrw : rootD (unionBlock st q1 q2).dsu q1 = w := by
      rw [rootD, hget q1]
      by_cases h1 : q1 = w
      · rw [if_pos h1]; rfl
      · rw [if_neg h1]
        by_cases h2 : q1 = l
        · rw [if_pos h2]; rfl
        · rw [if_neg h2]
          by_cases h3 : q1 ∈ el.members
          · rw [if_pos h3, he1]; rfl
          · rw [if_neg h3, he1]
            -- q1's root is e1.par ∈ {w, l}; not l since q1 ∉ el.members
            rcases hwl0 with ⟨hw', -⟩ | ⟨-, hl'⟩
            · show e1.par = w
              exact hw'.symm
            · exact absurd ((hmemIffl q1).mpr ⟨e1, he1, hl'.symm⟩) h3
    -- helper: a root that is neither w nor l keeps its entry
    have hother : ∀ x ex, dsuGet st.dsu x = some ex → x ≠ w → x ≠ l →
        x ∉ el.members →
        dsuGet (unionBlock st q1 q2).dsu x = some ex := by
      intro x ex hx hxw hxl hxm
      rw [hget x, if_neg hxw, if_neg hxl, if_neg hxm, hx]
    have hparNotMem : ∀ x ex, dsuGet st.dsu x = some ex → x ∉ el.members →
        x ≠ l → ex.par ≠ l ∧ ex.par ∉ el.members := by
      intro x ex hx hxm hxl
      constructor
      · intro hc
        exact hxm ((hmemIffl x).mpr ⟨ex, hx, hc⟩)
      · intro hc
        obtain ⟨em, hem, hparm⟩ := hmeml _ hc
        obtain ⟨er', her', hper'⟩ := hInv.flat x ex hx
        rw [hem] at her'
        injection her' with he
        rw [← he] at hper'
        rw [hparm] at hper'
        exact hxm ((hmemIffl x).mpr ⟨ex, hx, hper'.symm⟩)
    have hclear : ∀ x, x ∈ el.members → x ≠ l →
        ∃ ex, dsuGet st.dsu x = some ex ∧ ex.par = l ∧ ex.members = [] ∧
          ex.blockOps = [] ∧ ex.anchor = none := by
      intro x hx hxl
      obtain ⟨ex, hex, hpx⟩ := hmeml x hx
      have := hInv.nonRoot x ex hex (by rw [hpx]; exact Ne.symm hxl)
      exact ⟨ex, hex, hpx, this.1, this.2.1, this.2.2⟩
    rw [hrw]
    have hsw : sizeD st.dsu w = ew.members.length := by simp [sizeD, hw]
    have hsl : sizeD st.dsu l = el.members.length := by simp [sizeD, hl]
    have hsz' : ew.members.length + el.members.length ≤ max k 1 := by
      have h := hsz hr
      rcases hwl0 with ⟨hw', hl'⟩ | ⟨hw', hl'⟩
      · rw [← hw', ← hl'] at h
        omega
      · rw [← hw', ← hl'] at h
        omega
    refine ⟨⟨?_, ?_, ?_, ?_, ?_, ?_, ?_, ?_⟩, hlog, hkeys, ?_, ?_, ?_, ?_, ?_⟩
    · rw [hkeys]; exact hInv.nodupKeys
    · -- flat
      intro x e hx
      rw [hget x] at hx
      by_cases hxw : x = w
      · rw [if_pos hxw] at hx
        injection hx with hx
        subst hx
        exact ⟨_, by rw [hget w, if_pos rfl], rfl⟩
      · rw [if_neg hxw] at hx
        by_cases hxl : x = l
        · rw [if_pos hxl] at hx
          injection hx with hx
          subst hx
          exact ⟨⟨w, ew.members ++ el.members, ew.anchor,
            ew.blockOps ++ el.blockOps⟩, by rw [hget w, if_pos rfl], rfl⟩
        · rw [if_neg hxl] at hx
          by_cases hxm : x ∈ el.members
          · rw [if_pos hxm] at hx
            match hx0 : dsuGet st.dsu x with
            | some ex =>
              rw [hx0] at hx
              injection hx with hx
              subst hx
              exact ⟨⟨w, ew.members ++ el.members, ew.anchor,
                ew.blockOps ++ el.blockOps⟩, by rw [hget w, if_pos rfl], rfl⟩
            | none => rw [hx0] at hx; cases hx
          · rw [if_neg hxm] at hx
            obtain ⟨hpne, hpnm⟩ := hparNotMem x e hx hxm hxl
            by_cases hpw' : e.par = w
            · exact ⟨⟨w, ew.members ++ el.members, ew.anchor,
                ew.blockOps ++ el.blockOps⟩,
                by rw [hget e.par, if_pos hpw'], hpw'.symm⟩
            · obtain ⟨er', her', hper'⟩ := hInv.flat x e hx
              exact ⟨er', by rw [hget e.par, if_neg hpw', if_neg hpne,
                if_neg hpnm, her'], hper'⟩
    · -- memPar
      intro x e hx m hm
      rw [hget x] at hx
      by_cases hxw : x = w
      · rw [if_pos hxw] at hx
        injection hx with hx
        subst hx
        simp only [List.mem_append] at hm
        by_cases hmw : m = w
        · exact ⟨⟨w, ew.members ++ el.members, ew.anchor,
            ew.blockOps ++ el.blockOps⟩, by rw [hget m, if_pos hmw],
            hxw.symm⟩
        · by_cases hml : m = l
          · exact ⟨⟨w, [], none, []⟩, by rw [hget m, if_neg hmw, if_pos hml],
              hxw.symm⟩
          · by_cases hmm : m ∈ el.members
            · obtain ⟨em, hem, -⟩ := hmeml m hmm
              exact ⟨{ em with par := w },
                by rw [hget m, if_neg hmw, if_neg hml, if_pos hmm, hem]; rfl,
                hxw.symm⟩
            · rcases hm with hm | hm
              · obtain ⟨em, hem, hparm⟩ := hmemw m hm
                exact ⟨em, by rw [hget m, if_neg hmw, if_neg hml,
                  if_neg hmm, hem], hparm.trans hxw.symm⟩
              · exact absurd hm hmm
      · rw [if_neg hxw] at hx
        by_cases hxl : x = l
        · rw [if_pos hxl] at hx
          injection hx with hx
          subst hx
          cases hm
        · rw [if_neg hxl] at hx
          by_cases hxm : x ∈ el.members
          · rw [if_pos hxm] at hx
            obtain ⟨ex, hex, -, hexm, -, -⟩ := hclear x hxm hxl
            rw [hex] at hx
            injection hx with hx
            subst hx
            rw [show ({ ex with par := w } : DEnt).members = ex.members from
              rfl, hexm] at hm
            cases hm
          · rw [if_neg hxm] at hx
            obtain ⟨em, hem, hparm⟩ := hInv.memPar x e hx m hm
            by_cases hmw : m = w
            · rw [hmw] at hem
              rw [hw] at hem
              injection hem with hem
              rw [← hem, hpw] at hparm
              exact absurd hparm.symm hxw
            · by_cases hml : m = l
              · rw [hml, hl] at hem
                injection hem with hem
                rw [← hem, hpl] at hparm
                exact absurd (hparm ▸ hxl) (fun hc => hc rfl)
              · by_cases hmm : m ∈ el.members
                · obtain ⟨em', hem', hparm'⟩ := hmeml m hmm
                  rw [hem] at hem'
                  injection hem' with he
                  rw [← he] at hparm'
                  rw [hparm] at hparm'
                  exact absurd hparm' hxl
                · exact ⟨em, by rw [hget m, if_neg hmw, if_neg hml,
                    if_neg hmm, hem], hparm⟩
    · -- nonRoot
      intro x e hx hne
      rw [hget x] at hx
      by_cases hxw : x = w
      · rw [if_pos hxw] at hx
        injection hx with hx
        subst hx
        exact absurd (by rw [hxw]) hne
      · rw [if_neg hxw] at hx
        by_cases hxl : x = l
        · rw [if_pos hxl] at hx
          injection hx with hx
          subst hx
          exact ⟨rfl, rfl, rfl⟩
        · rw [if_neg hxl] at hx
          by_cases hxm : x ∈ el.members
          · rw [if_pos hxm] at hx
            obtain ⟨ex, hex, -, hm, hb, ha⟩ := hclear x hxm hxl
            rw [hex] at hx
            injection hx with hx
            subst hx
            exact ⟨hm, hb, ha⟩
          · rw [if_neg hxm] at hx
            exact hInv.nonRoot x e hx hne
    · -- selfMem
      intro x e hx
      rw [hget x] at hx
      by_cases hxw : x = w
      · rw [if_pos hxw] at hx
        injection hx with hx
        subst hx
        exact ⟨_, by rw [hget w, if_pos rfl],
          by subst hxw; exact List.mem_append_left _ hwmem⟩
      · rw [if_neg hxw] at hx
        by_cases hxl : x = l
        · rw [if_pos hxl] at hx
          injection hx with hx
          subst hx
          exact ⟨_, by rw [hget w, if_pos rfl],
            by subst hxl; exact List.mem_append_right _ hlmem⟩
        · rw [if_neg hxl] at hx
          by_cases hxm : x ∈ el.members
          · rw [if_pos hxm] at hx
            match hx0 : dsuGet st.dsu x with
            | some ex =>
              rw [hx0] at hx
              injection hx with hx
              subst hx
              exact ⟨_, by rw [hget w, if_pos rfl],
                List.mem_append_right _ hxm⟩
            | none => rw [hx0] at hx; cases hx
          · rw [if_neg hxm] at hx
            obtain ⟨er', her', hmem'⟩ := hInv.selfMem x e hx
            obtain ⟨hpne, hpnm⟩ := hparNotMem x e hx hxm hxl
            by_cases hpw' : e.par = w
            · rw [hpw', hw] at her'
              injection her' with he
              refine ⟨_, by rw [hget e.par, if_pos hpw'], ?_⟩
              exact List.mem_append_left _ (he ▸ hmem')
            · exact ⟨er', by rw [hget e.par, if_neg hpw', if_neg hpne,
                if_neg hpnm, her'], hmem'⟩
    · -- membersNodup
      intro x e hx
      rw [hget x] at hx
      by_cases hxw : x = w
      · rw [if_pos hxw] at hx
        injection hx with hx
        subst hx
        exact List.Nodup.append (hInv.membersNodup w ew hw)
          (hInv.membersNodup l el hl) (fun a ha hb => hWdisj a ha hb)
      · rw [if_neg hxw] at hx
        by_cases hxl : x = l
        · rw [if_pos hxl] at hx
          injection hx with hx
          subst hx
          exact List.nodup_nil
        · rw [if_neg hxl] at hx
          by_cases hxm : x ∈ el.members
          · rw [if_pos hxm] at hx
            match hx0 : dsuGet st.dsu x with
            | some ex =>
              rw [hx0] at hx
              injection hx with hx
              subst hx
              exact hInv.membersNodup x ex hx0
            | none => rw [hx0] at hx; cases hx
          · rw [if_neg hxm] at hx
            exact hInv.membersNodup x e hx
    · -- opsBound
      intro x e hx op hop
      rw [hget x] at hx
      by_cases hxw : x = w
      · rw [if_pos hxw] at hx
        injection hx with hx
        subst hx
        simp only [List.mem_append] at hop
        rcases hop with hop | hop
        · obtain ⟨hsub, hlen'⟩ := hInv.opsBound w ew hw op hop
          exact ⟨fun y hy => List.mem_append_left _ (hsub y hy), hlen'⟩
        · obtain ⟨hsub, hlen'⟩ := hInv.opsBound l el hl op hop
          exact ⟨fun y hy => List.mem_append_right _ (hsub y hy), hlen'⟩
      · rw [if_neg hxw] at hx
        by_cases hxl : x = l
        · rw [if_pos hxl] at hx
          injection hx with hx
          subst hx
          cases hop
        · rw [if_neg hxl] at hx
          by_cases hxm : x ∈ el.members
          · rw [if_pos hxm] at hx
            match hx0 : dsuGet st.dsu x with
            | some ex =>
              rw [hx0] at hx
              injection hx with hx
              subst hx
              exact hInv.opsBound x ex hx0 op hop
            | none => rw [hx0] at hx; cases hx
          · rw [if_neg hxm] at hx
            exact hInv.opsBound x e hx op hop
    · -- sizeBound
      intro x e hx
      rw [hget x] at hx
      by_cases hxw : x = w
      · rw [if_pos hxw] at hx
        injection hx with hx
        subst hx
        simp only [List.length_append]
        exact hsz'
      · rw [if_neg hxw] at hx
        by_cases hxl : x = l
        · rw [if_pos hxl] at hx
          injection hx with hx
          subst hx
          simp
        · rw [if_neg hxl] at hx
          by_cases hxm : x ∈ el.members
          · rw [if_pos hxm] at hx
            match hx0 : dsuGet st.dsu x with
            | some ex =>
              rw [hx0] at hx
              injection hx with hx
              subst hx
              exact hInv.sizeBound x ex hx0
            | none => rw [hx0] at hx; cases hx
          · rw [if_neg hxm] at hx
            exact hInv.sizeBound x e hx
    · -- EISx
      intro hE x e hx hpar hanch hxw
      rw [hget x] at hx
      by_cases hxw' : x = w
      · exact absurd hxw' hxw
      · rw [if_neg hxw'] at hx
        by_cases hxl : x = l
        · rw [if_pos hxl] at hx
          injection hx with hx
          subst hx
          exact absurd hpar (by rw [hxl]; exact hwl)
        · rw [if_neg hxl] at hx
          by_cases hxm : x ∈ el.members
          · rw [if_pos hxm] at hx
            match hx0 : dsuGet st.dsu x with
            | some ex =>
              rw [hx0] at hx
              injection hx with hx
              subst hx
              exact absurd hpar (by
                show ¬ ({ ex with par := w } : DEnt).par = x
                intro hc
                exact hxw (hc ▸ rfl))
            | none => rw [hx0] at hx; cases hx
          · rw [if_neg hxm] at hx
            -- x is an untouched root; x ≠ e1.par since e1.par ∈ {w, l}
            refine hE x e hx hpar hanch ?_
            intro hc
            rcases hwl0 with ⟨hw', -⟩ | ⟨-, hl'⟩
            · exact hxw' (hc.trans hw'.symm)
            · exact hxl (hc.trans hl'.symm)
    · -- the merged root is one of the two old roots
      rcases hwl0 with ⟨hw', -⟩ | ⟨hw', -⟩
      · exact Or.inl hw'
      · exact Or.inr hw'
    · -- rootD formula
      intro x
      have hRl : rootD st.dsu x = l ↔ (x ∈ el.members) := by
        constructor
        · intro hc
          match hx0 : dsuGet st.dsu x with
          | some ex =>
            rw [rootD, hx0] at hc
            exact (hmemIffl x).mpr ⟨ex, hx0, hc⟩
          | none =>
            rw [rootD, hx0] at hc
            have hxl' : x = l := hc
            rw [hxl', hl] at hx0
            cases hx0
        · intro hc
          obtain ⟨ex, hex, hpx⟩ := hmeml x hc
          rw [rootD, hex]
          exact hpx
      have hRw : x ∉ el.members → x ≠ w → x ≠ l →
          rootD (unionBlock st q1 q2).dsu x = rootD st.dsu x := by
        intro hxm hxw hxl
        rw [rootD, hget x, if_neg hxw, if_neg hxl, if_neg hxm, rootD]
      have hcond : (rootD st.dsu x = e1.par ∨ rootD st.dsu x = e2.par) ↔
          (rootD st.dsu x = w ∨ rootD st.dsu x = l) := by
        rcases hwl0 with ⟨hw', hl'⟩ | ⟨hw', hl'⟩
        · rw [hw', hl']
        · rw [hw', hl']
          exact Or.comm
      rw [if_congr hcond rfl rfl]
      by_cases hxw : x = w
      · rw [show rootD (unionBlock st q1 q2).dsu x = w from by
          rw [rootD, hget x, if_pos hxw]; rfl]
        rw [if_pos (Or.inl (by rw [hxw, rootD, hw]; exact hpw))]
      · by_cases hxl : x = l
        · rw [show rootD (unionBlock st q1 q2).dsu x = w from by
            rw [rootD, hget x, if_neg hxw, if_pos hxl]; rfl]
          rw [if_pos (Or.inr (by rw [hxl, rootD, hl]; exact hpl))]
        · by_cases hxm : x ∈ el.members
          · rw [show rootD (unionBlock st q1 q2).dsu x = w from by
              rw [rootD, hget x, if_neg hxw, if_neg hxl, if_pos hxm]
              obtain ⟨ex, hex, -⟩ := hmeml x hxm
              rw [hex]
              rfl]
            rw [if_pos (Or.inr (hRl.mpr hxm))]
          · rw [hRw hxm hxw hxl]
            by_cases hc : rootD st.dsu x = w ∨ rootD st.dsu x = l
            · rcases hc with hc | hc
              · rw [if_pos (Or.inl hc), hc]
              · exact absurd (hRl.mp hc) hxm
            · rw [if_neg hc]
    · -- merged size
      rw [show sizeD (unionBlock st q1 q2).dsu w =
          ew.members.length + el.members.length from by
        rw [sizeD, hget w, if_pos rfl]
        simp]
      rcases hwl0 with ⟨hw', hl'⟩ | ⟨hw', hl'⟩
      · rw [← hw', ← hl']
        omega
      · rw [← hw', ← hl']
        omega
    · -- other roots untouched
      intro b hb hb1 hb2
      have hbw : b ≠ w := by
        rcases hwl0 with ⟨hw', -⟩ | ⟨hw', -⟩
        · rw [hw']; exact hb1
        · rw [hw']; exact hb2
      have hbl : b ≠ l := by
        rcases hwl0 with ⟨-, hl'⟩ | ⟨-, hl'⟩
        · rw [hl']; exact hb2
        · rw [hl']; exact hb1
      have hbm : b ∉ el.members := by
        intro hc
        obtain ⟨eb, heb, hpb⟩ := hmeml b hc
        rw [rootD, heb] at hb
        exact hbl (hb ▸ hpb : b = l)
      have : dsuGet (unionBlock st q1 q2).dsu b = dsuGet st.dsu b := by
        rw [hget b, if_neg hbw, if_neg hbl, if_neg hbm]
      exact ⟨by rw [sizeD, this, sizeD], this⟩

/-- The combined size of the blocks touched by the qubits of `l` (each
distinct root counted once). -/
def touchedF (d : DsuMap) (l : List Nat) : Nat :=
  ∑ b ∈ (l.map (rootD d)).toFinset, sizeD d b

theorem dedup_map_sum (l : List Nat) (g : Nat → Nat) :
    (l.dedup.map g).sum = ∑ b ∈ l.toFinset, g b := by
  have h : (l.toFinset : Finset Nat) = l.dedup.toFinset := by
    ext x
    simp [List.mem_dedup]
  rw [h]
  exact (List.sum_toFinset g (List.nodup_dedup l)).symm

theorem rootD_idem {k : Nat} {d : DsuMap} (hInv : DInv k d) (x : Nat) :
    rootD d (rootD d x) = rootD d x := by
  match hx : dsuGet d x with
  | some e =>
    have h1 : rootD d x = e.par := by simp [rootD, hx]
    obtain ⟨er, her, hper⟩ := hInv.flat x e hx
    rw [h1]
    simp [rootD, her, hper]
  | none =>
    have h1 : rootD d x = x := by simp [rootD, hx]
    rw [h1]
    simp [rootD, hx]

theorem present_of_keys_eq {d d' : DsuMap} (h : dsuKeys d' = dsuKeys d)
    {x : Nat} {e : DEnt} (hx : dsuGet d x = some e) :
    ∃ e', dsuGet d' x = some e' := by
  match hx' : dsuGet d' x with
  | some e' => exact ⟨e', rfl⟩
  | none =>
    rw [dsuGet_none_iff, h] at hx'
    exact absurd (dsuGet_mem_keys hx) hx'

theorem touchedF_subset (d : DsuMap) (l1 l2 : List Nat)
    (h : ∀ x ∈ l1, x ∈ l2) : touchedF d l1 ≤ touchedF d l2 := by
  apply Finset.sum_le_sum_of_subset
  intro b hb
  rw [List.mem_toFinset, List.mem_map] at hb ⊢
  obtain ⟨x, hx, rfl⟩ := hb
  exact ⟨x, h x hx, rfl⟩

/-- The single accounting step of the union chain: merging two touched
roots does not grow the combined touched size. -/
theorem touched_step (d d' : DsuMap) (w r1 r2 : Nat) (l l' : List Nat)
    (hsub : ∀ x ∈ l', x ∈ l)
    (hr1 : r1 ∈ l.map (rootD d)) (hr2 : r2 ∈ l.map (rootD d))
    (hne : r1 ≠ r2) (hw : w = r1 ∨ w = r2)
    (hform : ∀ x, rootD d' x =
      if rootD d x = r1 ∨ rootD d x = r2 then w else rootD d x)
    (hsize : sizeD d' w ≤ sizeD d r1 + sizeD d r2)
    (hothers : ∀ b, rootD d b = b → b ≠ r1 → b ≠ r2 →
      sizeD d' b = sizeD d b)
    (hidem : ∀ x, rootD d (rootD d x) = rootD d x) :
    touchedF d' l' ≤ touchedF d l := by
  classical
  set S := (l.map (rootD d)).toFinset with hS
  set T := (S.erase r1).erase r2 with hT
  have himg : ((l'.map (rootD d')).toFinset : Finset Nat) ⊆ insert w T := by
    intro b hb
    rw [List.mem_toFinset, List.mem_map] at hb
    obtain ⟨x, hx, rfl⟩ := hb
    rw [hform x]
    by_cases hc : rootD d x = r1 ∨ rootD d x = r2
    · rw [if_pos hc]
      exact Finset.mem_insert_self w T
    · rw [if_neg hc]
      push_neg at hc
      refine Finset.mem_insert_of_mem ?_
      refine Finset.mem_erase.mpr ⟨hc.2, Finset.mem_erase.mpr ⟨hc.1, ?_⟩⟩
      rw [List.mem_toFinset, List.mem_map]
      exact ⟨x, hsub x hx, rfl⟩
  have hwT : w ∉ T := by
    intro hc
    have h2 := Finset.mem_erase.mp hc
    have h1 := Finset.mem_erase.mp h2.2
    rcases hw with hw | hw
    · exact h1.1 hw
    · exact h2.1 hw
  have hTsum : ∑ b ∈ T, sizeD d' b = ∑ b ∈ T, sizeD d b := by
    apply Finset.sum_congr rfl
    intro b hb
    have h2 := Finset.mem_erase.mp hb
    have h1 := Finset.mem_erase.mp h2.2
    have hbS := h1.2
    rw [hS, List.mem_toFinset, List.mem_map] at hbS
    obtain ⟨x, -, rfl⟩ := hbS
    exact hothers _ (hidem x) h1.1 h2.1
  have hr2T : r2 ∈ S.erase r1 :=
    Finset.mem_erase.mpr ⟨Ne.symm hne, by rw [List.mem_toFinset]; exact hr2⟩
  have hr1S : r1 ∈ S := by rw [List.mem_toFinset]; exact hr1
  have hsum2 : sizeD d r2 + ∑ b ∈ T, sizeD d b =
      ∑ b ∈ S.erase r1, sizeD d b := Finset.add_sum_erase _ _ hr2T
  have hsum1 : sizeD d r1 + ∑ b ∈ S.erase r1, sizeD d b =
      ∑ b ∈ S, sizeD d b := Finset.add_sum_erase _ _ hr1S
  calc touchedF d' l'
      ≤ ∑ b ∈ insert w T, sizeD d' b :=
        Finset.sum_le_sum_of_subset himg
    _ = sizeD d' w + ∑ b ∈ T, sizeD d' b := Finset.sum_insert hwT
    _ = sizeD d' w + ∑ b ∈ T, sizeD d b := by rw [hTsum]
    _ ≤ (sizeD d r1 + sizeD d r2) + ∑ b ∈ T, sizeD d b := by omega
    _ = touchedF d l := by
        show _ = ∑ b ∈ S, sizeD d b
        omega

/-- The union chain over a processed operation's used qubits: invariants
are preserved (the touched blocks fit under the cap together), the log and
keys are untouched, all chained qubits end up in one block, and previously
equal roots stay equal. -/
theorem chainGo_spec (k : Nat) : ∀ (rest : List Nat) (st : CState)
    (prev : Nat), DInv k st.dsu → EISx st.dsu (rootD st.dsu prev) →
    (∃ e, dsuGet st.dsu prev = some e) →
    (∀ q ∈ rest, ∃ e, dsuGet st.dsu q = some e) →
    touchedF st.dsu (prev :: rest) ≤ max k 1 →
    DInv k (chainGo st prev rest).dsu ∧
    EISx (chainGo st prev rest).dsu (rootD (chainGo st prev rest).dsu prev) ∧
    (chainGo st prev rest).blocksLog = st.blocksLog ∧
    dsuKeys (chainGo st prev rest).dsu = dsuKeys st.dsu ∧
    (∀ x y, rootD st.dsu x = rootD st.dsu y →
      rootD (chainGo st prev rest).dsu x =
        rootD (chainGo st prev rest).dsu y) ∧
    (∀ q ∈ prev :: rest, rootD (chainGo st prev rest).dsu q =
      rootD (chainGo st prev rest).dsu prev) := by
  intro rest
  induction rest with
  | nil =>
    intro st prev hInv hE hprev hrest htc
    refine ⟨hInv, hE, rfl, rfl, fun x y h => ?_, fun q hq => ?_⟩
    · exact h
    · rcases List.mem_cons.mp hq with hq | hq
      · rw [hq]
      · cases hq
  | cons q rest ih =>
    intro st prev hInv hE hprev hrest htc
    obtain ⟨e1, he1⟩ := hprev
    obtain ⟨e2, he2⟩ := hrest q (List.mem_cons_self q rest)
    have hre1 : rootD st.dsu prev = e1.par := by simp [rootD, he1]
    have hre2 : rootD st.dsu q = e2.par := by simp [rootD, he2]
    simp only [chainGo]
    by_cases hr : e1.par = e2.par
    · -- equal roots: the union is a no-op
      rcases unionBlock_spec k st prev q hInv he1 he2 with ⟨-, heq⟩ |
        ⟨hr', -⟩
      · rw [heq]
        have hroots : rootD st.dsu q = rootD st.dsu prev := by
          rw [hre1, hre2, hr]
        obtain ⟨hI, hEx, hlog, hkeys, hmono, heqs⟩ :=
          ih st q hInv (by rw [← hroots] at hE; exact hE) ⟨e2, he2⟩
            (fun q' hq' => hrest q' (List.mem_cons_of_mem q hq'))
            (le_trans (touchedF_subset st.dsu (q :: rest)
              (prev :: q :: rest)
              (fun x hx => List.mem_cons_of_mem prev hx)) htc)
        have hpq : rootD (chainGo st q rest).dsu prev =
            rootD (chainGo st q rest).dsu q := hmono prev q hroots.symm
        refine ⟨hI, by rw [hpq]; exact hEx, hlog, hkeys, hmono, ?_⟩
        intro q' hq'
        rcases List.mem_cons.mp hq' with hq' | hq'
        · rw [hq']
        · rw [hpq]
          exact heqs q' hq'
      · exact absurd hr hr'
    · -- distinct roots: a real merge
      have hsz : e1.par ≠ e2.par →
          sizeD st.dsu e1.par + sizeD st.dsu e2.par ≤ max k 1 := by
        intro hne
        have hr1 : e1.par ∈ (prev :: q :: rest).map (rootD st.dsu) := by
          rw [List.mem_map]
          exact ⟨prev, List.mem_cons_self _ _, hre1⟩
        have hr2 : e2.par ∈ (prev :: q :: rest).map (rootD st.dsu) := by
          rw [List.mem_map]
          exact ⟨q, List.mem_cons_of_mem _ (List.mem_cons_self _ _), hre2⟩
        have hpair : sizeD st.dsu e1.par + sizeD st.dsu e2.par =
            ∑ b ∈ ({e1.par, e2.par} : Finset Nat), sizeD st.dsu b := by
          rw [Finset.sum_pair hne]
        rw [hpair]
        refine le_trans (Finset.sum_le_sum_of_subset ?_) htc
        intro b hb
        rw [Finset.mem_insert, Finset.mem_singleton] at hb
        rw [List.mem_toFinset]
        rcases hb with hb | hb
        · rw [hb]; exact hr1
        · rw [hb]; exact hr2
      obtain ⟨hInv', hlog', hkeys', hEx', hwid, hform, hsize, hothers⟩ :=
        unionBlock_inv k st prev q hInv he1 he2 hsz
      have hrootq : rootD (unionBlock st prev q).dsu q =
          rootD (unionBlock st prev q).dsu prev := by
        rw [hform q, if_pos (Or.inr hre2)]
      have htc' : touchedF (unionBlock st prev q).dsu (q :: rest) ≤
          max k 1 := by
        refine le_trans (touched_step st.dsu (unionBlock st prev q).dsu
          (rootD (unionBlock st prev q).dsu prev) e1.par e2.par
          (prev :: q :: rest) (q :: rest)
          (fun x hx => List.mem_cons_of_mem prev hx)
          (by rw [List.mem_map]; exact ⟨prev, List.mem_cons_self _ _, hre1⟩)
          (by rw [List.mem_map]
              exact ⟨q, List.mem_cons_of_mem _ (List.mem_cons_self _ _),
                hre2⟩)
          hr hwid hform hsize (fun b hb h1 h2 => (hothers b hb h1 h2).1)
          (rootD_idem hInv)) htc
      obtain ⟨hI, hEx2, hlog2, hkeys2, hmono2, heqs2⟩ :=
        ih (unionBlock st prev q) q hInv'
          (by rw [hrootq]; exact hEx' (by rw [← hre1]; exact hE))
          (present_of_keys_eq hkeys' he2)
          (fun q' hq' => present_of_keys_eq hkeys'
            (hrest q' (List.mem_cons_of_mem q hq')).choose_spec)
          htc'
      have hpq : rootD (chainGo (unionBlock st prev q) q rest).dsu prev =
          rootD (chainGo (unionBlock st prev q) q rest).dsu q :=
        hmono2 prev q hrootq.symm
      refine ⟨hI, by rw [hpq]; exact hEx2, by rw [hlog2, hlog'],
        by rw [hkeys2, hkeys'], ?_, ?_⟩
      · intro x y h
        refine hmono2 x y ?_
        rw [hform x, hform y, h]
      · intro q' hq'
        rcases List.mem_cons.mp hq' with hq' | hq'
        · rw [hq']
        · rw [hpq]
          exact heqs2 q' hq'

theorem findBlock_root (st : CState) (q : Nat) :
    (findBlock st q).2 = rootD (findBlock st q).1.dsu q := by
  match h : dsuGet st.dsu q with
  | some e =>
    rw [findBlock_key h]
    simp [rootD, h]
  | none =>
    rw [findBlock_fresh h]
    simp [rootD, dsuGet_set_self]

theorem findBlock_pure {st : CState} {q : Nat} {e : DEnt}
    (h : dsuGet st.dsu q = some e) :
    findBlock st q = (st, rootD st.dsu q) := by
  rw [findBlock_key h]
  simp [rootD, h]

theorem blockSize_eq (st : CState) (b : Nat) :
    blockSize st b = sizeD st.dsu b := by
  match h : dsuGet st.dsu b with
  | some e => simp [blockSize, sizeD, h]
  | none => simp [blockSize, sizeD, h]

/-- `findBlocks` (phase 1 of a processed operation): invariants preserved,
state only extended, every listed qubit becomes present, and the returned
roots are the final map's roots. -/
theorem findBlocks_spec (k : Nat) : ∀ (l : List Nat) (st : CState),
    DInv k st.dsu → EIS st.dsu →
    DInv k (findBlocks st l).1.dsu ∧ EIS (findBlocks st l).1.dsu ∧
    (findBlocks st l).1.done = st.done ∧
    (findBlocks st l).1.blocksLog = st.blocksLog ∧
    (∀ x e, dsuGet st.dsu x = some e →
      dsuGet (findBlocks st l).1.dsu x = some e) ∧
    (∀ q ∈ l, ∃ e, dsuGet (findBlocks st l).1.dsu q = some e) ∧
    (findBlocks st l).2 = l.map (rootD (findBlocks st l).1.dsu) := by
  intro l
  induction l with
  | nil =>
    intro st hInv hE
    exact ⟨hInv, hE, rfl, rfl, fun x e hx => hx, fun q hq => absurd hq
      (List.not_mem_nil q), rfl⟩
  | cons q l ih =>
    intro st hInv hE
    obtain ⟨hInv₁, hE₁, hdone₁, hlog₁, ⟨er, her, hper, hmem⟩, hext₁⟩ :=
      findBlock_spec k st q hInv hE
    have hqpres : ∃ e, dsuGet (findBlock st q).1.dsu q = some e := by
      obtain ⟨em, hem, -⟩ := hInv₁.memPar _ er her q hmem
      exact ⟨em, hem⟩
    obtain ⟨hInv₂, hE₂, hdone₂, hlog₂, hext₂, hpres₂, hroots₂⟩ :=
      ih (findBlock st q).1 hInv₁ hE₁
    have hstep : findBlocks st (q :: l) =
        ((findBlocks (findBlock st q).1 l).1,
          (findBlock st q).2 :: (findBlocks (findBlock st q).1 l).2) := by
      simp only [findBlocks]
    rw [hstep]
    obtain ⟨eq', heq'⟩ := hqpres
    refine ⟨hInv₂, hE₂, by rw [hdone₂, hdone₁], by rw [hlog₂, hlog₁],
      fun x e hx => hext₂ x e (hext₁ x e hx), ?_, ?_⟩
    · intro q' hq'
      rcases List.mem_cons.mp hq' with hq' | hq'
      · exact ⟨eq', by rw [hq']; exact hext₂ q eq' heq'⟩
      · exact hpres₂ q' hq'
    · simp only [List.map_cons]
      rw [← hroots₂]
      have hq2 : dsuGet (findBlocks (findBlock st q).1 l).1.dsu q =
          some eq' := hext₂ q eq' heq'
      have hr1 : (findBlock st q).2 = rootD (findBlock st q).1.dsu q :=
        findBlock_root st q
      rw [hr1]
      have : rootD (findBlock st q).1.dsu q =
          rootD (findBlocks (findBlock st q).1 l).1.dsu q := by
        rw [rootD, rootD, heq', hq2]
      rw [this]

theorem count_map_congr (f g : Nat → Nat) (b : Nat) :
    ∀ l : List Nat, (∀ q ∈ l, (f q = b) ↔ (g q = b)) →
    (l.map f).count b = (l.map g).count b := by
  intro l
  induction l with
  | nil => intro _; rfl
  | cons q l ih =>
    intro h
    simp only [List.map_cons, List.count_cons]
    rw [ih (fun q' hq' => h q' (List.mem_cons_of_mem q hq'))]
    have hq := h q (List.mem_cons_self q l)
    by_cases hf : f q = b
    · rw [show ((f q == b) = true) by simp [hf],
        show ((g q == b) = true) by simp [hq.mp hf]]
    · have hg : ¬ g q = b := fun hc => hf (hq.mpr hc)
      rw [show ((f q == b) = false) by simp [hf],
        show ((g q == b) = false) by simp [hg]]

theorem count_map_eq_card_filter (f : Nat → Nat) (b : Nat) :
    ∀ (l : List Nat), l.Nodup →
    (l.map f).count b =
      (l.toFinset.filter (fun q => f q = b)).card := by
  intro l
  induction l with
  | nil => intro _; rfl
  | cons q l ih =>
    intro hnd
    rw [List.nodup_cons] at hnd
    simp only [List.map_cons, List.count_cons, List.toFinset_cons]
    rw [Finset.filter_insert, ih hnd.2]
    by_cases hf : f q = b
    · rw [if_pos hf, show ((f q == b) = true) by simp [hf]]
      rw [Finset.card_insert_of_not_mem (by
        intro hc
        exact hnd.1 (List.mem_toFinset.mp (Finset.mem_of_mem_filter q hc)))]
      simp
    · rw [if_neg hf, show ((f q == b) = false) by simp [hf]]
      simp

/-- Pointwise effect of `finalizeBlock` on a root `b` that is a key:
members of `b`'s block become their own singleton roots, every other block
is untouched.  (For an unanchored block the state does not change, and the
formulas still hold because such a block is a singleton.) -/
theorem finalizeBlock_points (k : Nat) (st : CState) (b : Nat)
    (hInv : DInv k st.dsu) (hE : EIS st.dsu) {eb : DEnt}
    (hb : dsuGet st.dsu b = some eb) (hroot : eb.par = b) :
    (∀ x, rootD (finalizeBlock st b).dsu x =
      if rootD st.dsu x = b then x else rootD st.dsu x) ∧
    (∀ x, rootD st.dsu x = b → sizeD (finalizeBlock st b).dsu x = 1) ∧
    (∀ c, rootD st.dsu c = c → c ≠ b →
      dsuGet (finalizeBlock st b).dsu c = dsuGet st.dsu c) ∧
    ((finalizeBlock st b).blocksLog = st.blocksLog ∨
      ∃ wop, (finalizeBlock st b).blocksLog = st.blocksLog ++ [wop]) := by
  obtain ⟨st₁, r, er, hp, her, hper, hInv₁, hE₁, hlog₁, -, hext, hcase⟩ :=
    finalizeBlock_cases k st b hInv hE
  rw [findBlock_pure hb] at hp
  have hst₁ : st₁ = st := (congrArg Prod.fst hp).symm
  have hrb0 : rootD st.dsu b = r := congrArg Prod.snd hp
  have hrb : r = b := by
    rw [← hrb0, rootD, hb]
    exact hroot
  rw [hst₁] at her hcase
  rw [hrb] at her
  have hereb : er = eb := by
    rw [hb] at her
    injection her with h
    exact h.symm
  rw [hereb] at hcase
  have hmemIff : ∀ m, m ∈ eb.members ↔
      ∃ em, dsuGet st.dsu m = some em ∧ em.par = b :=
    hInv.mem_members_iff hb hroot
  have hrootIff : ∀ x, rootD st.dsu x = b ↔ x ∈ eb.members := by
    intro x
    constructor
    · intro hx
      match hx0 : dsuGet st.dsu x with
      | some ex =>
        rw [rootD, hx0] at hx
        exact (hmemIff x).mpr ⟨ex, hx0, hx⟩
      | none =>
        rw [rootD, hx0] at hx
        have : x = b := hx
        rw [this, hb] at hx0
        cases hx0
    · intro hx
      obtain ⟨ex, hex, hpx⟩ := (hmemIff x).mp hx
      rw [rootD, hex]
      exact hpx
  rcases hcase with ⟨hanch, heq⟩ | ⟨a, hanch, heq⟩
  · -- unanchored: no state change; the block is a singleton by EIS
    have hsing : eb.members = [b] := hE b eb hb hroot hanch
    rw [heq]
    refine ⟨?_, ?_, fun c _ _ => rfl, Or.inl rfl⟩
    · intro x
      by_cases hx : rootD st.dsu x = b
      · rw [if_pos hx]
        have := (hrootIff x).mp hx
        rw [hsing, List.mem_singleton] at this
        rw [this]
        exact this ▸ hx
      · rw [if_neg hx]
    · intro x hx
      have := (hrootIff x).mp hx
      rw [hsing, List.mem_singleton] at this
      rw [this]
      simp [sizeD, hb, hsing]
  · -- anchored: members reset
    rw [heq]
    have hget : ∀ x, dsuGet (eb.members.foldl
        (fun d i => dsuSet d i ⟨i, [i], none, []⟩) st.dsu) x =
        if x ∈ eb.members then some ⟨x, [x], none, []⟩
        else dsuGet st.dsu x := fun x => resetAll_get eb.members st.dsu x
    refine ⟨?_, ?_, ?_, Or.inr ⟨collapseBlock eb.blockOps, rfl⟩⟩
    · intro x
      by_cases hx : rootD st.dsu x = b
      · rw [if_pos hx]
        have hxm := (hrootIff x).mp hx
        show rootD _ x = x
        rw [rootD, hget x, if_pos hxm]
        rfl
      · rw [if_neg hx]
        have hxm : x ∉ eb.members := fun hc => hx ((hrootIff x).mpr hc)
        show rootD _ x = rootD st.dsu x
        rw [rootD, hget x, if_neg hxm, rootD]
    · intro x hx
      have hxm := (hrootIff x).mp hx
      show sizeD _ x = 1
      rw [sizeD, hget x, if_pos hxm]
      rfl
    · intro c hc hcb
      have hcm : c ∉ eb.members := by
        intro hmem
        obtain ⟨ec, hec, hpc⟩ := (hmemIff c).mp hmem
        rw [rootD, hec] at hc
        exact hcb (hc ▸ hpc)
      show dsuGet _ c = dsuGet st.dsu c
      rw [hget c, if_neg hcm]

theorem sizeD_pos {k : Nat} {d : DsuMap} (hInv : DInv k d) {b : Nat}
    {e : DEnt} (hb : dsuGet d b = some e) (hpar : e.par = b) :
    1 ≤ sizeD d b := by
  have hmem := hInv.root_self_mem hb hpar
  have hsz : sizeD d b = e.members.length := by simp [sizeD, hb]
  rw [hsz]
  exact List.length_pos.mpr (List.ne_nil_of_mem hmem)

theorem rootD_root {k : Nat} {d : DsuMap} (hInv : DInv k d) {x : Nat}
    {e : DEnt} (hx : dsuGet d x = some e) :
    ∃ er, dsuGet d (rootD d x) = some er ∧ er.par = rootD d x := by
  obtain ⟨er, her, hper⟩ := hInv.flat x e hx
  have h1 : rootD d x = e.par := by simp [rootD, hx]
  rw [h1]
  exact ⟨er, her, hper⟩

/-- Distinct qubits of one block are distinct members, so a block root's
multiplicity among a duplicate-free list's roots is bounded by its size. -/
theorem cnt_le_size {k : Nat} {d : DsuMap} (hInv : DInv k d)
    (l : List Nat) (hnd : l.Nodup) (b : Nat) :
    (l.map (rootD d)).count b ≤ sizeD d b := by
  rw [count_map_eq_card_filter _ _ l hnd]
  match hb : dsuGet d b with
  | some eb =>
    by_cases hpar : eb.par = b
    · have hsub : l.toFinset.filter (fun q => rootD d q = b) ⊆
          eb.members.toFinset := by
        intro q hq
        rw [Finset.mem_filter] at hq
        rw [List.mem_toFinset]
        match hq2 : dsuGet d q with
        | some e =>
          have hre : rootD d q = e.par := by simp [rootD, hq2]
          have hpe : e.par = b := by rw [← hre]; exact hq.2
          exact (hInv.mem_members_iff hb hpar q).mpr ⟨e, hq2, hpe⟩
        | none =>
          have hre : rootD d q = q := by simp [rootD, hq2]
          have hqb : q = b := by rw [← hre]; exact hq.2
          rw [hqb, hb] at hq2
          cases hq2
      calc (l.toFinset.filter (fun q => rootD d q = b)).card
          ≤ eb.members.toFinset.card := Finset.card_le_card hsub
        _ = eb.members.length :=
            List.toFinset_card_of_nodup (hInv.membersNodup b eb hb)
        _ = sizeD d b := by simp [sizeD, hb]
    · have hempty : l.toFinset.filter (fun q => rootD d q = b) = ∅ := by
        rw [Finset.filter_eq_empty_iff]
        intro q hq hc
        match hq2 : dsuGet d q with
        | some e =>
          have hre : rootD d q = e.par := by simp [rootD, hq2]
          have hpe : e.par = b := by rw [← hre]; exact hc
          obtain ⟨er, her, hper⟩ := hInv.flat q e hq2
          rw [hpe, hb] at her
          injection her with her
          exact hpar (by rw [her, hper]; exact hpe)
        | none =>
          have hre : rootD d q = q := by simp [rootD, hq2]
          have hqb : q = b := by rw [← hre]; exact hc
          rw [hqb, hb] at hq2
          cases hq2
      rw [hempty]
      simp
  | none =>
    have hsub : l.toFinset.filter (fun q => rootD d q = b) ⊆ {b} := by
      intro q hq
      rw [Finset.mem_filter] at hq
      rw [Finset.mem_singleton]
      match hq2 : dsuGet d q with
      | some e =>
        have hre : rootD d q = e.par := by simp [rootD, hq2]
        have hpe : e.par = b := by rw [← hre]; exact hq.2
        obtain ⟨er, her, -⟩ := hInv.flat q e hq2
        rw [hpe, hb] at her
        cases her
      | none =>
        have hre : rootD d q = q := by simp [rootD, hq2]
        rw [← hre]
        exact hq.2
    calc (l.toFinset.filter (fun q => rootD d q = b)).card
        ≤ ({b} : Finset Nat).card := Finset.card_le_card hsub
      _ = 1 := Finset.card_singleton b
      _ ≤ sizeD d b := by simp [sizeD, hb]

theorem touchedF_snoc (d : DsuMap) (l : List Nat) (q : Nat) :
    touchedF d (l ++ [q]) =
      if rootD d q ∈ l.map (rootD d) then touchedF d l
      else touchedF d l + sizeD d (rootD d q) := by
  have himg : ((l ++ [q]).map (rootD d)).toFinset =
      insert (rootD d q) (l.map (rootD d)).toFinset := by
    ext x
    simp only [List.map_append, List.map_cons, List.map_nil,
      List.toFinset_append, Finset.mem_union, List.mem_toFinset,
      Finset.mem_insert, List.mem_cons, List.not_mem_nil, or_false]
    exact or_comm
  rw [touchedF, himg]
  by_cases hmem : rootD d q ∈ l.map (rootD d)
  · rw [if_pos hmem, Finset.insert_eq_self.mpr (List.mem_toFinset.mpr hmem)]
    rfl
  · rw [if_neg hmem,
      Finset.sum_insert (fun hc => hmem (List.mem_toFinset.mp hc))]
    rw [touchedF]
    omega

/-- Extending the map without touching existing entries changes no root and
no touched size. -/
theorem touchedF_ext {k : Nat} {d d' : DsuMap} (hInv : DInv k d)
    (hext : ∀ x e, dsuGet d x = some e → dsuGet d' x = some e)
    (l : List Nat) (hpres : ∀ q ∈ l, ∃ e, dsuGet d q = some e) :
    touchedF d' l = touchedF d l ∧ ∀ q ∈ l, rootD d' q = rootD d q := by
  have hroot : ∀ q ∈ l, rootD d' q = rootD d q := by
    intro q hq
    obtain ⟨e, he⟩ := hpres q hq
    rw [rootD, rootD, he, hext q e he]
  refine ⟨?_, hroot⟩
  rw [touchedF, touchedF, List.map_congr_left hroot]
  apply Finset.sum_congr rfl
  intro b hb
  rw [List.mem_toFinset, List.mem_map] at hb
  obtain ⟨q, hq, rfl⟩ := hb
  obtain ⟨e, he⟩ := hpres q hq
  obtain ⟨er, her, -⟩ := rootD_root hInv he
  rw [sizeD, sizeD, her, hext _ er her]

/-- `finalizeBlock` on a present qubit with an anchored root: the block is
written back (the logged operation is bounded), full `EIS` is restored,
keys are kept, and every other root entry is untouched. -/
theorem finalizeBlock_x (k : Nat) (st : CState) (b : Nat)
    (hInv : DInv k st.dsu) {eb : DEnt} (hb : dsuGet st.dsu b = some eb)
    (hEx : EISx st.dsu (rootD st.dsu b))
    {er : DEnt} (her : dsuGet st.dsu (rootD st.dsu b) = some er)
    (hper : er.par = rootD st.dsu b) (hanch : er.anchor ≠ none) :
    DInv k (finalizeBlock st b).dsu ∧ EIS (finalizeBlock st b).dsu ∧
    (∀ op ∈ (finalizeBlock st b).blocksLog, op ∈ st.blocksLog ∨
      op.getUsedQubits.length ≤ k) ∧
    dsuKeys (finalizeBlock st b).dsu = dsuKeys st.dsu ∧
    (∀ c e, dsuGet st.dsu c = some e → e.par = c → c ≠ rootD st.dsu b →
      dsuGet (finalizeBlock st b).dsu c = some e) := by
  match ha : er.anchor with
  | none => exact absurd ha hanch
  | some a =>
    have heq : finalizeBlock st b =
        ⟨st.done.set a (some (collapseBlock er.blockOps)),
         er.members.foldl (fun d i => dsuSet d i ⟨i, [i], none, []⟩) st.dsu,
         st.blocksLog ++ [collapseBlock er.blockOps]⟩ := by
      simp only [finalizeBlock, findBlock_pure hb, her, Option.getD_some]
      rw [ha]
    obtain ⟨hInv', hE', hkeys⟩ := hInv.reset_block hEx her hper
    rw [heq]
    refine ⟨hInv', hE', ?_, hkeys, ?_⟩
    · intro op hop
      rcases List.mem_append.mp hop with hop | hop
      · exact Or.inl hop
      · rw [List.mem_singleton] at hop
        subst hop
        exact Or.inr (collapse_bound k er.members er.blockOps
          (hInv.opsBound _ er her) (hInv.sizeBound _ er her))
    · intro c e hc hpc hcw
      show dsuGet _ c = some e
      rw [resetAll_get, if_neg ?_]
      · exact hc
      · intro hcm
        obtain ⟨em, hem, hpem⟩ := hInv.memPar _ er her c hcm
        rw [hc] at hem
        injection hem with hem
        rw [← hem] at hpem
        have : c = rootD st.dsu b := by rw [← hpc]; exact hpem
        exact hcw this

/-- Writing a processed operation into its (anchored) block root keeps the
invariants: the members are unchanged, the anchor stays non-null, and the
appended operation touches only members, at most `k` of them. -/
theorem DInv.emplace {k : Nat} {d : DsuMap} (hInv : DInv k d) {w : Nat}
    {ew : DEnt} (hw : dsuGet d w = some ew) (hpar : ew.par = w)
    (hEx : EISx d w) (op : Op) (A : Option Nat) (hA : A ≠ none)
    (hused : ∀ x ∈ op.getUsedQubits, ∃ ex, dsuGet d x = some ex ∧
      ex.par = w)
    (hlen : op.getUsedQubits.length ≤ k) :
    DInv k (dsuSet d w ⟨ew.par, ew.members, A, ew.blockOps ++ [op]⟩) ∧
    EIS (dsuSet d w ⟨ew.par, ew.members, A, ew.blockOps ++ [op]⟩) := by
  have hget : ∀ x, dsuGet (dsuSet d w
      ⟨ew.par, ew.members, A, ew.blockOps ++ [op]⟩) x =
      if x = w then some ⟨ew.par, ew.members, A, ew.blockOps ++ [op]⟩
      else dsuGet d x := by
    intro x
    by_cases hx : x = w
    · rw [if_pos hx, hx, dsuGet_set_self]
    · rw [if_neg hx, dsuGet_set_ne d w _ x hx]
  constructor
  · refine ⟨?_, ?_, ?_, ?_, ?_, ?_, ?_, ?_⟩
    · rw [dsuKeys_set_mem d w _ (dsuGet_mem_keys hw)]
      exact hInv.nodupKeys
    · intro x e hx
      rw [hget] at hx
      by_cases hxw : x = w
      · rw [if_pos hxw] at hx
        injection hx with hx
        subst hx
        exact ⟨⟨ew.par, ew.members, A, ew.blockOps ++ [op]⟩,
          by rw [hget]; show _ = _; rw [if_pos hpar], rfl⟩
      · rw [if_neg hxw] at hx
        obtain ⟨er, her, hper⟩ := hInv.flat x e hx
        by_cases hpw : e.par = w
        · refine ⟨⟨ew.par, ew.members, A, ew.blockOps ++ [op]⟩,
            by rw [hget, if_pos hpw], ?_⟩
          show ew.par = e.par
          rw [hpar, hpw]
        · exact ⟨er, by rw [hget, if_neg hpw]; exact her, hper⟩
    · intro x e hx m hm
      rw [hget] at hx
      by_cases hxw : x = w
      · rw [if_pos hxw] at hx
        injection hx with hx
        subst hx
        obtain ⟨em, hem, hpem⟩ := hInv.memPar w ew hw m hm
        by_cases hmw : m = w
        · refine ⟨⟨ew.par, ew.members, A, ew.blockOps ++ [op]⟩,
            by rw [hget, if_pos hmw], ?_⟩
          show ew.par = x
          rw [hpar, hxw]
        · refine ⟨em, by rw [hget, if_neg hmw]; exact hem, ?_⟩
          rw [hxw]
          exact hpem
      · rw [if_neg hxw] at hx
        obtain ⟨em, hem, hpem⟩ := hInv.memPar x e hx m hm
        have hmw : m ≠ w := by
          intro hc
          rw [hc, hw] at hem
          injection hem with hem
          rw [← hem] at hpem
          exact hxw (hpem ▸ hpar)
        exact ⟨em, by rw [hget, if_neg hmw]; exact hem, hpem⟩
    · intro x e hx hne
      rw [hget] at hx
      by_cases hxw : x = w
      · rw [if_pos hxw] at hx
        injection hx with hx
        subst hx
        exact absurd (show ew.par = x by rw [hpar, hxw]) hne
      · rw [if_neg hxw] at hx
        exact hInv.nonRoot x e hx hne
    · intro x e hx
      rw [hget] at hx
      by_cases hxw : x = w
      · rw [if_pos hxw] at hx
        injection hx with hx
        subst hx
        refine ⟨⟨ew.par, ew.members, A, ew.blockOps ++ [op]⟩, ?_, ?_⟩
        · show dsuGet _ ew.par = _
          rw [hget, if_pos hpar]
        · show x ∈ ew.members
          rw [hxw]
          exact hInv.root_self_mem hw hpar
      · rw [if_neg hxw] at hx
        obtain ⟨er, her, hmem⟩ := hInv.selfMem x e hx
        by_cases hpw : e.par = w
        · refine ⟨⟨ew.par, ew.members, A, ew.blockOps ++ [op]⟩,
            by rw [hget, if_pos hpw], ?_⟩
          show x ∈ ew.members
          rw [hpw, hw] at her
          injection her with her
          rw [← her] at hmem
          exact hmem
        · exact ⟨er, by rw [hget, if_neg hpw]; exact her, hmem⟩
    · intro x e hx
      rw [hget] at hx
      by_cases hxw : x = w
      · rw [if_pos hxw] at hx
        injection hx with hx
        subst hx
        exact hInv.membersNodup w ew hw
      · rw [if_neg hxw] at hx
        exact hInv.membersNodup x e hx
    · intro x e hx opx hopx
      rw [hget] at hx
      by_cases hxw : x = w
      · rw [if_pos hxw] at hx
        injection hx with hx
        subst hx
        rcases List.mem_append.mp hopx with hopx | hopx
        · exact hInv.opsBound w ew hw opx hopx
        · rw [List.mem_singleton] at hopx
          subst hopx
          refine ⟨?_, hlen⟩
          intro y hy
          obtain ⟨ey, hey, hpey⟩ := hused y hy
          exact (hInv.mem_members_iff hw hpar y).mpr ⟨ey, hey, hpey⟩
      · rw [if_neg hxw] at hx
        exact hInv.opsBound x e hx opx hopx
    · intro x e hx
      rw [hget] at hx
      by_cases hxw : x = w
      · rw [if_pos hxw] at hx
        injection hx with hx
        subst hx
        exact hInv.sizeBound w ew hw
      · rw [if_neg hxw] at hx
        exact hInv.sizeBound x e hx
  · intro x e hx hpx hax
    rw [hget] at hx
    by_cases hxw : x = w
    · rw [if_pos hxw] at hx
      injection hx with hx
      subst hx
      exact absurd hax hA
    · rw [if_neg hxw] at hx
      exact hEx x e hx hpx hax hxw

/-- The touched-size accounting of finalizing a used root: the root's block
leaves the image, the list's qubits of that block re-enter as singletons. -/
theorem finalize_touched_le (d d' : DsuMap) (b : Nat) (used : List Nat)
    (hnd : used.Nodup) (hbm : b ∈ used.map (rootD d))
    (hform : ∀ x, rootD d' x = if rootD d x = b then x else rootD d x)
    (hs1 : ∀ x, rootD d x = b → sizeD d' x = 1)
    (hs2 : ∀ c, rootD d c = c → c ≠ b → sizeD d' c = sizeD d c)
    (hidem : ∀ x, rootD d (rootD d x) = rootD d x) :
    touchedF d' used + sizeD d b ≤
      touchedF d used + (used.map (rootD d)).count b := by
  classical
  set S := (used.map (rootD d)).toFinset with hS
  set A := used.toFinset.filter (fun q => rootD d q = b) with hA
  have hdisj : Disjoint A (S.erase b) := by
    rw [Finset.disjoint_left]
    intro q hqA hqS
    rw [hA, Finset.mem_filter] at hqA
    have hq1 := hqA.2
    rw [Finset.mem_erase] at hqS
    obtain ⟨hqb, hqS⟩ := hqS
    rw [hS, List.mem_toFinset, List.mem_map] at hqS
    obtain ⟨y, -, hy⟩ := hqS
    have hqroot : rootD d q = q := by rw [← hy]; exact hidem y
    exact hqb (by rw [← hqroot]; exact hq1)
  have himg : ((used.map (rootD d')).toFinset : Finset Nat) ⊆
      A ∪ S.erase b := by
    intro c hc
    rw [List.mem_toFinset, List.mem_map] at hc
    obtain ⟨x, hx, rfl⟩ := hc
    rw [hform x]
    by_cases hxb : rootD d x = b
    · rw [if_pos hxb]
      refine Finset.mem_union_left _ ?_
      rw [hA, Finset.mem_filter]
      exact ⟨List.mem_toFinset.mpr hx, hxb⟩
    · rw [if_neg hxb]
      refine Finset.mem_union_right _ ?_
      rw [Finset.mem_erase]
      refine ⟨hxb, ?_⟩
      rw [hS, List.mem_toFinset, List.mem_map]
      exact ⟨x, hx, rfl⟩
  have hcard : A.card = (used.map (rootD d)).count b := by
    rw [count_map_eq_card_filter _ _ used hnd, hA]
  have hbS : b ∈ S := List.mem_toFinset.mpr hbm
  have hsplit : sizeD d b + ∑ c ∈ S.erase b, sizeD d c =
      ∑ c ∈ S, sizeD d c := Finset.add_sum_erase _ _ hbS
  have hsumA : ∑ c ∈ A, sizeD d' c = A.card := by
    rw [Finset.card_eq_sum_ones]
    apply Finset.sum_congr rfl
    intro q hq
    rw [hA, Finset.mem_filter] at hq
    exact hs1 q hq.2
  have hsumE : ∑ c ∈ S.erase b, sizeD d' c =
      ∑ c ∈ S.erase b, sizeD d c := by
    apply Finset.sum_congr rfl
    intro c hc
    rw [Finset.mem_erase] at hc
    obtain ⟨hcb, hcS⟩ := hc
    rw [hS, List.mem_toFinset, List.mem_map] at hcS
    obtain ⟨y, -, hy⟩ := hcS
    exact hs2 c (by rw [← hy]; exact hidem y) hcb
  have hmain : touchedF d' used ≤
      A.card + ∑ c ∈ S.erase b, sizeD d c := by
    calc touchedF d' used ≤ ∑ c ∈ A ∪ S.erase b, sizeD d' c :=
          Finset.sum_le_sum_of_subset himg
      _ = ∑ c ∈ A, sizeD d' c + ∑ c ∈ S.erase b, sizeD d' c :=
          Finset.sum_union hdisj
      _ = A.card + ∑ c ∈ S.erase b, sizeD d c := by rw [hsumA, hsumE]
  have htF : touchedF d used = ∑ c ∈ S, sizeD d c := rfl
  omega

/-- A surviving root's multiplicity among the used roots is unchanged by a
finalization elsewhere. -/
theorem count_after_finalize_other (d d' : DsuMap) (used : List Nat)
    (b r : Nat) (hrb : r ≠ b)
    (hform : ∀ x, rootD d' x = if rootD d x = b then x else rootD d x)
    (hmemb : ∀ x ∈ used, rootD d x = b → x ≠ r) :
    (used.map (rootD d')).count r = (used.map (rootD d)).count r := by
  apply count_map_congr
  intro q hq
  rw [hform q]
  by_cases hqb : rootD d q = b
  · rw [if_pos hqb]
    constructor
    · intro h
      exact absurd h (hmemb q hq hqb)
    · intro h
      exact absurd (hqb ▸ h).symm hrb
  · rw [if_neg hqb]

/-- A freshly reset member of the finalized block appears exactly once
among the new roots of a duplicate-free used list. -/
theorem count_after_finalize_self (d d' : DsuMap) (used : List Nat)
    (hnd : used.Nodup) (b q : Nat) (hq : q ∈ used) (hqb : rootD d q = b)
    (hform : ∀ x, rootD d' x = if rootD d x = b then x else rootD d x)
    (hidem : ∀ x, rootD d (rootD d x) = rootD d x) :
    (used.map (rootD d')).count q = 1 := by
  rw [count_map_eq_card_filter _ _ used hnd]
  have hfe : used.toFinset.filter (fun x => rootD d' x = q) = {q} := by
    ext x
    rw [Finset.mem_filter, Finset.mem_singleton]
    constructor
    · rintro ⟨hxU, hx⟩
      rw [hform x] at hx
      by_cases hxb : rootD d x = b
      · rw [if_pos hxb] at hx
        exact hx
      · rw [if_neg hxb] at hx
        have hqroot : rootD d q = q := by
          rw [← hx]
          exact hidem x
        rw [hqroot] at hqb
        rw [hqb] at hx
        exact absurd hx hxb
    · intro hx
      subst hx
      refine ⟨List.mem_toFinset.mpr hq, ?_⟩
      rw [hform x, if_pos hqb]
  rw [hfe, Finset.card_singleton]

theorem sum_toFinset_count (l : List Nat) :
    ∑ a ∈ l.toFinset, l.count a = l.length := by
  simp

theorem spend_noop (need : Int) (hneed : ¬ 0 < need) :
    ∀ (sv : List (Nat × Nat)) (st : CState),
    spendSavings st need sv = st := by
  intro sv
  induction sv with
  | nil => intro st; rfl
  | cons p rest ih =>
    intro st
    obtain ⟨b, s⟩ := p
    simp only [spendSavings]
    rw [if_neg hneed]
    exact ih st

/-- The savings-spending loop: invariants are kept, only bounded blocks are
logged, presence is kept, and on exit the used list's blocks together hold
at most `max k used.length` qubits (either the need was covered or every
used block was reduced to singletons). -/
theorem spend_bound (k : Nat) (used : List Nat) (hnd : used.Nodup) :
    ∀ (sv : List (Nat × Nat)) (st : CState) (need : Int),
    DInv k st.dsu → EIS st.dsu →
    (∀ q ∈ used, ∃ e, dsuGet st.dsu q = some e) →
    ((sv.map Prod.fst).Nodup) →
    (∀ p ∈ sv, (∃ e, dsuGet st.dsu p.1 = some e ∧ e.par = p.1) ∧
      p.1 ∈ used.map (rootD st.dsu) ∧
      p.2 = sizeD st.dsu p.1 - (used.map (rootD st.dsu)).count p.1 ∧
      (used.map (rootD st.dsu)).count p.1 ≤ sizeD st.dsu p.1) →
    (∀ q ∈ used, rootD st.dsu q ∈ sv.map Prod.fst ∨
      sizeD st.dsu (rootD st.dsu q) =
        (used.map (rootD st.dsu)).count (rootD st.dsu q)) →
    ((touchedF st.dsu used : Int) ≤ (k : Int) + need) →
    DInv k (spendSavings st need sv).dsu ∧
    EIS (spendSavings st need sv).dsu ∧
    (∀ op ∈ (spendSavings st need sv).blocksLog, op ∈ st.blocksLog ∨
      op.getUsedQubits.length ≤ k) ∧
    (∀ q ∈ used, ∃ e, dsuGet (spendSavings st need sv).dsu q = some e) ∧
    touchedF (spendSavings st need sv).dsu used ≤ max k used.length := by
  intro sv
  induction sv with
  | nil =>
    intro st need hInv hE hpres hndf hsv hcov htc
    refine ⟨hInv, hE, fun op hop => Or.inl hop, hpres, ?_⟩
    have hall : ∀ c ∈ (used.map (rootD st.dsu)).toFinset,
        sizeD st.dsu c = (used.map (rootD st.dsu)).count c := by
      intro c hc
      rw [List.mem_toFinset, List.mem_map] at hc
      obtain ⟨q, hq, rfl⟩ := hc
      rcases hcov q hq with h | h
      · simp at h
      · exact h
    have hlen : touchedF st.dsu used = used.length := by
      rw [touchedF, Finset.sum_congr rfl hall, sum_toFinset_count,
        List.length_map]
    show touchedF st.dsu used ≤ max k used.length
    rw [hlen]
    exact le_max_right _ _
  | cons p rest ih =>
    intro st need hInv hE hpres hndf hsv hcov htc
    obtain ⟨b, s⟩ := p
    simp only [spendSavings]
    by_cases hneed : 0 < need
    · rw [if_pos hneed]
      obtain ⟨⟨eb, heb, hpeb⟩, hbm, hsval, hcle⟩ :=
        hsv (b, s) (List.mem_cons_self _ _)
      dsimp only at hbm hsval hcle
      have hroot : rootD st.dsu b = b := by
        have h0 : rootD st.dsu b = eb.par := by simp [rootD, heb]
        rw [h0]
        exact hpeb
      obtain ⟨hform, hs1, hs2get, -⟩ :=
        finalizeBlock_points k st b hInv hE heb hpeb
      obtain ⟨hInv', hE', hlog', hpres'⟩ := finalizeBlock_inv k st b hInv hE
      have hidem := rootD_idem hInv
      have hs2 : ∀ c, rootD st.dsu c = c → c ≠ b →
          sizeD (finalizeBlock st b).dsu c = sizeD st.dsu c := by
        intro c hc hcb
        rw [sizeD, sizeD, hs2get c hc hcb]
      have hpresF : ∀ q ∈ used,
          ∃ e, dsuGet (finalizeBlock st b).dsu q = some e := by
        intro q hq
        obtain ⟨e, he⟩ := hpres q hq
        exact hpres' q e he
      have htch := finalize_touched_le st.dsu (finalizeBlock st b).dsu b
        used hnd hbm hform hs1 hs2 hidem
      have htc' : (touchedF (finalizeBlock st b).dsu used : Int) ≤
          (k : Int) + (need - (s : Int)) := by omega
      rw [List.map_cons, List.nodup_cons] at hndf
      obtain ⟨hbnot, hndf'⟩ := hndf
      -- facts about the surviving entries
      have hrestfacts : ∀ p' ∈ rest,
          (∃ e, dsuGet (finalizeBlock st b).dsu p'.1 = some e ∧
            e.par = p'.1) ∧
          p'.1 ∈ used.map (rootD (finalizeBlock st b).dsu) ∧
          p'.2 = sizeD (finalizeBlock st b).dsu p'.1 -
            (used.map (rootD (finalizeBlock st b).dsu)).count p'.1 ∧
          (used.map (rootD (finalizeBlock st b).dsu)).count p'.1 ≤
            sizeD (finalizeBlock st b).dsu p'.1 := by
        intro p' hp'
        obtain ⟨⟨ep, hep, hpep⟩, hpm, hpv, hpc⟩ :=
          hsv p' (List.mem_cons_of_mem _ hp')
        have hne : p'.1 ≠ b := by
          intro hc
          apply hbnot
          rw [← hc]
          exact List.mem_map.mpr ⟨p', hp', rfl⟩
        have hproot : rootD st.dsu p'.1 = p'.1 := by
          have h0 : rootD st.dsu p'.1 = ep.par := by simp [rootD, hep]
          rw [h0]
          exact hpep
        have hgeteq : dsuGet (finalizeBlock st b).dsu p'.1 =
            dsuGet st.dsu p'.1 := hs2get p'.1 hproot hne
        have hmemb : ∀ x ∈ used, rootD st.dsu x = b → x ≠ p'.1 := by
          intro x hx hxb hxc
          rw [hxc, hproot] at hxb
          exact hne hxb
        have hcnteq := count_after_finalize_other st.dsu
          (finalizeBlock st b).dsu used b p'.1 hne hform hmemb
        have hszeq : sizeD (finalizeBlock st b).dsu p'.1 =
            sizeD st.dsu p'.1 := hs2 p'.1 hproot hne
        refine ⟨⟨ep, by rw [hgeteq]; exact hep, hpep⟩, ?_, ?_, ?_⟩
        · rw [List.mem_map] at hpm ⊢
          obtain ⟨q, hq, hqr⟩ := hpm
          refine ⟨q, hq, ?_⟩
          rw [hform q, if_neg (fun hc => hne (by rw [← hqr, hc]))]
          exact hqr
        · rw [hcnteq, hszeq]
          exact hpv
        · rw [hcnteq, hszeq]
          exact hpc
      have hcov' : ∀ q ∈ used,
          rootD (finalizeBlock st b).dsu q ∈ rest.map Prod.fst ∨
          sizeD (finalizeBlock st b).dsu
              (rootD (finalizeBlock st b).dsu q) =
            (used.map (rootD (finalizeBlock st b).dsu)).count
              (rootD (finalizeBlock st b).dsu q) := by
        intro q hq
        by_cases hqb : rootD st.dsu q = b
        · right
          have hrq : rootD (finalizeBlock st b).dsu q = q := by
            rw [hform q, if_pos hqb]
          rw [hrq, hs1 q hqb,
            count_after_finalize_self st.dsu (finalizeBlock st b).dsu
              used hnd b q hq hqb hform hidem]
        · have hrq : rootD (finalizeBlock st b).dsu q = rootD st.dsu q := by
            rw [hform q, if_neg hqb]
          rcases hcov q hq with h | h
          · rw [List.map_cons, List.mem_cons] at h
            rcases h with h | h
            · exact absurd h hqb
            · left
              rw [hrq]
              exact h
          · right
            have hrroot : rootD st.dsu (rootD st.dsu q) = rootD st.dsu q :=
              hidem q
            have hmemb : ∀ x ∈ used, rootD st.dsu x = b →
                x ≠ rootD st.dsu q := by
              intro x hx hxb hxc
              rw [hxc, hrroot] at hxb
              exact hqb hxb
            rw [hrq, hs2 _ hrroot hqb,
              count_after_finalize_other st.dsu (finalizeBlock st b).dsu
                used b _ hqb hform hmemb]
            exact h
      obtain ⟨hI2, hE2, hlog2, hpres2, htc2⟩ :=
        ih (finalizeBlock st b) (need - (s : Int)) hInv' hE' hpresF
          hndf' hrestfacts hcov' htc'
      refine ⟨hI2, hE2, ?_, hpres2, htc2⟩
      intro op hop
      rcases hlog2 op hop with hop2 | hop2
      · rcases hlog' with hl | ⟨wop, hl, hwb⟩
        · rw [hl] at hop2
          exact Or.inl hop2
        · rw [hl] at hop2
          rcases List.mem_append.mp hop2 with h3 | h3
          · exact Or.inl h3
          · rw [List.mem_singleton] at h3
            subst h3
            exact Or.inr hwb
      · exact Or.inr hop2
    · rw [if_neg hneed]
      rw [spend_noop need hneed rest st]
      refine ⟨hInv, hE, fun op hop => Or.inl hop, hpres, ?_⟩
      have h1 : (touchedF st.dsu used : Int) ≤ (k : Int) := by omega
      have h2 : touchedF st.dsu used ≤ k := by exact_mod_cast h1
      exact le_trans h2 (le_max_left _ _)

theorem decSaving_fst : ∀ (acc : List (Nat × Nat)) (b : Nat),
    (decSaving acc b).map Prod.fst = acc.map Prod.fst := by
  intro acc
  induction acc with
  | nil => intro b; rfl
  | cons p rest ih =>
    intro b
    obtain ⟨c, s⟩ := p
    simp only [decSaving]
    by_cases hb : c = b
    · rw [if_pos hb]
      rfl
    · rw [if_neg hb]
      simp only [List.map_cons]
      rw [ih b]

/-- `decSaving` on a map with duplicate-free keys: the matched entry loses
one, every other entry survives unchanged. -/
theorem decSaving_mem : ∀ (acc : List (Nat × Nat)) (b : Nat),
    ((acc.map Prod.fst).Nodup) →
    ∀ p' ∈ decSaving acc b, ∃ s, (p'.1, s) ∈ acc ∧
      ((p'.1 = b ∧ p'.2 = s - 1) ∨ (p'.1 ≠ b ∧ p'.2 = s)) := by
  intro acc
  induction acc with
  | nil =>
    intro b _ p' hp'
    cases hp'
  | cons p rest ih =>
    intro b hndf p' hp'
    obtain ⟨c, s⟩ := p
    rw [List.map_cons, List.nodup_cons] at hndf
    obtain ⟨hcnot, hndf'⟩ := hndf
    simp only [decSaving] at hp'
    by_cases hb : c = b
    · rw [if_pos hb] at hp'
      rcases List.mem_cons.mp hp' with h | h
      · subst h
        exact ⟨s, List.mem_cons_self _ _, Or.inl ⟨hb, rfl⟩⟩
      · refine ⟨p'.2, List.mem_cons_of_mem _ h, Or.inr ⟨?_, rfl⟩⟩
        intro hc
        apply hcnot
        rw [hb, ← hc]
        exact List.mem_map.mpr ⟨p', h, rfl⟩
    · rw [if_neg hb] at hp'
      rcases List.mem_cons.mp hp' with h | h
      · subst h
        exact ⟨s, List.mem_cons_self _ _, Or.inr ⟨hb, rfl⟩⟩
      · obtain ⟨s', hm, hd⟩ := ih b hndf' p' h
        exact ⟨s', List.mem_cons_of_mem _ hm, hd⟩

theorem rootD_eq_par {d : DsuMap} {x : Nat} {e : DEnt}
    (hx : dsuGet d x = some e) : rootD d x = e.par := by
  simp [rootD, hx]

theorem sizeD_eq {d : DsuMap} {x : Nat} {e : DEnt}
    (hx : dsuGet d x = some e) : sizeD d x = e.members.length := by
  simp [sizeD, hx]

theorem count_map_snoc (d : DsuMap) (l : List Nat) (q c : Nat) :
    ((l ++ [q]).map (rootD d)).count c =
      (l.map (rootD d)).count c + (if rootD d q = c then 1 else 0) := by
  rw [List.map_append, List.count_append]
  congr 1
  simp only [List.map_cons, List.map_nil]
  by_cases h : rootD d q = c
  · rw [if_pos h, h]
    simp
  · rw [if_neg h]
    rw [List.count_eq_zero]
    simp only [List.mem_singleton]
    exact fun hc => h hc.symm

theorem not_root_of_absent {k : Nat} {d : DsuMap} (hInv : DInv k d)
    {q : Nat} (hq : dsuGet d q = none) (l : List Nat)
    (hpres : ∀ x ∈ l, ∃ e, dsuGet d x = some e) :
    q ∉ l.map (rootD d) := by
  intro hc
  rw [List.mem_map] at hc
  obtain ⟨x, hx, hxe⟩ := hc
  obtain ⟨e, he⟩ := hpres x hx
  rw [rootD_eq_par he] at hxe
  obtain ⟨er, her, -⟩ := hInv.flat x e he
  rw [hxe, hq] at her
  cases her

/-- The savings map of the under-cap branch: after the scan of the used
list, the map holds exactly one entry per distinct used root, valued
`size − multiplicity`, and `total` is the touched size of the used list. -/
theorem savingsAcc_spec (k : Nat) (used : List Nat) (hnd : used.Nodup) :
    ∀ (l processed : List Nat) (st : CState) (acc : List (Nat × Nat))
      (total : Nat),
    used = processed ++ l →
    DInv k st.dsu → EIS st.dsu →
    (∀ q ∈ processed, ∃ e, dsuGet st.dsu q = some e) →
    ((acc.map Prod.fst).Nodup) →
    (∀ c, c ∈ acc.map Prod.fst ↔ c ∈ processed.map (rootD st.dsu)) →
    (∀ p ∈ acc, (∃ e, dsuGet st.dsu p.1 = some e ∧ e.par = p.1) ∧
      p.2 = sizeD st.dsu p.1 - (processed.map (rootD st.dsu)).count p.1 ∧
      (processed.map (rootD st.dsu)).count p.1 ≤ sizeD st.dsu p.1) →
    total = touchedF st.dsu processed →
    DInv k (savingsAcc st l acc total).1.dsu ∧
    EIS (savingsAcc st l acc total).1.dsu ∧
    (savingsAcc st l acc total).1.done = st.done ∧
    (savingsAcc st l acc total).1.blocksLog = st.blocksLog ∧
    (∀ q ∈ used, ∃ e, dsuGet (savingsAcc st l acc total).1.dsu q = some e) ∧
    (((savingsAcc st l acc total).2.1.map Prod.fst).Nodup) ∧
    (∀ c, c ∈ (savingsAcc st l acc total).2.1.map Prod.fst ↔
      c ∈ used.map (rootD (savingsAcc st l acc total).1.dsu)) ∧
    (∀ p ∈ (savingsAcc st l acc total).2.1,
      (∃ e, dsuGet (savingsAcc st l acc total).1.dsu p.1 = some e ∧
        e.par = p.1) ∧
      p.2 = sizeD (savingsAcc st l acc total).1.dsu p.1 -
        (used.map (rootD (savingsAcc st l acc total).1.dsu)).count p.1 ∧
      (used.map (rootD (savingsAcc st l acc total).1.dsu)).count p.1 ≤
        sizeD (savingsAcc st l acc total).1.dsu p.1) ∧
    (savingsAcc st l acc total).2.2 =
      touchedF (savingsAcc st l acc total).1.dsu used := by
  intro l
  induction l with
  | nil =>
    intro processed st acc total hul hInv hE hpres hndf hiff hacc htot
    rw [List.append_nil] at hul
    subst hul
    exact ⟨hInv, hE, rfl, rfl, hpres, hndf, hiff, hacc, htot⟩
  | cons q l' ih =>
    intro processed st acc total hul hInv hE hpres hndf hiff hacc htot
    have hul' : used = (processed ++ [q]) ++ l' := by
      rw [hul, List.append_assoc]
      rfl
    have hnd' : (processed ++ [q]).Nodup :=
      List.Nodup.sublist (by rw [hul']; exact List.sublist_append_left _ _)
        hnd
    match hq : dsuGet st.dsu q with
    | some e =>
      have hfb : findBlock st q = (st, rootD st.dsu q) := findBlock_pure hq
      simp only [savingsAcc, hfb]
      obtain ⟨er, her, hper⟩ := rootD_root hInv hq
      have hpres' : ∀ x ∈ processed ++ [q], ∃ e', dsuGet st.dsu x = some e' := by
        intro x hx
        rcases List.mem_append.mp hx with hx | hx
        · exact hpres x hx
        · rw [List.mem_singleton] at hx
          exact ⟨e, hx ▸ hq⟩
      by_cases hmem : rootD st.dsu q ∈ acc.map Prod.fst
      · have hcond : (acc.any fun x => x.1 == rootD st.dsu q) = true := by
          rw [List.any_eq_true]
          rw [List.mem_map] at hmem
          obtain ⟨x, hx, hxe⟩ := hmem
          exact ⟨x, hx, by simp [hxe]⟩
        rw [if_pos hcond]
        have hmemp : rootD st.dsu q ∈ processed.map (rootD st.dsu) :=
          (hiff _).mp hmem
        apply ih (processed ++ [q]) st (decSaving acc (rootD st.dsu q))
          total hul' hInv hE hpres'
        · rw [decSaving_fst]
          exact hndf
        · intro c
          rw [decSaving_fst, hiff c, List.map_append, List.mem_append]
          simp only [List.map_cons, List.map_nil, List.mem_singleton]
          constructor
          · exact fun h => Or.inl h
          · rintro (h | h)
            · exact h
            · rw [h]
              exact hmemp
        · intro p' hp'
          obtain ⟨s', hm, hd⟩ :=
            decSaving_mem acc (rootD st.dsu q) hndf p' hp'
          obtain ⟨⟨ep, hep, hpep⟩, hv, hc⟩ := hacc (p'.1, s') hm
          dsimp only at hv hc
          have hcnt := count_map_snoc st.dsu processed q p'.1
          rcases hd with ⟨hpb, hps⟩ | ⟨hpb, hps⟩
          · rw [if_pos hpb.symm] at hcnt
            have hclen : ((processed ++ [q]).map (rootD st.dsu)).count
                p'.1 ≤ sizeD st.dsu p'.1 :=
              cnt_le_size hInv (processed ++ [q]) hnd' p'.1
            refine ⟨⟨ep, hep, hpep⟩, ?_, hclen⟩
            rw [hcnt, hps, hv]
            omega
          · have hpb' : ¬ rootD st.dsu q = p'.1 := fun hc' => hpb hc'.symm
            rw [if_neg hpb'] at hcnt
            refine ⟨⟨ep, hep, hpep⟩, ?_, ?_⟩
            · rw [hcnt]
              omega
            · rw [hcnt]
              omega
        · rw [htot, touchedF_snoc, if_pos hmemp]
      · have hcond : (acc.any fun x => x.1 == rootD st.dsu q) = false := by
          have hne : ¬ (acc.any fun x => x.1 == rootD st.dsu q) = true := by
            intro hc
            apply hmem
            rw [List.any_eq_true] at hc
            obtain ⟨x, hx, hbeq⟩ := hc
            rw [beq_iff_eq] at hbeq
            exact List.mem_map.mpr ⟨x, hx, hbeq⟩
          exact Bool.eq_false_iff.mpr hne
        rw [hcond, if_neg Bool.false_ne_true]
        have hmemp : rootD st.dsu q ∉ processed.map (rootD st.dsu) :=
          fun hc => hmem ((hiff _).mpr hc)
        have hbs : blockSize st (rootD st.dsu q) = sizeD st.dsu
            (rootD st.dsu q) := blockSize_eq st _
        apply ih (processed ++ [q]) st
          (acc ++ [(rootD st.dsu q, blockSize st (rootD st.dsu q) - 1)])
          (total + blockSize st (rootD st.dsu q)) hul' hInv hE hpres'
        · rw [List.map_append]
          simp only [List.map_cons, List.map_nil]
          refine List.Nodup.append hndf (List.nodup_singleton _) ?_
          intro a ha hb
          rw [List.mem_singleton] at hb
          subst hb
          exact hmem ha
        · intro c
          rw [List.map_append, List.mem_append, List.map_append,
            List.mem_append]
          simp only [List.map_cons, List.map_nil]
          rw [hiff c]
        · intro p' hp'
          rcases List.mem_append.mp hp' with hp' | hp'
          · obtain ⟨⟨ep, hep, hpep⟩, hv, hc⟩ := hacc p' hp'
            have hpne : ¬ rootD st.dsu q = p'.1 := by
              intro hc'
              apply hmem
              rw [hc']
              exact List.mem_map.mpr ⟨p', hp', rfl⟩
            have hcnt := count_map_snoc st.dsu processed q p'.1
            rw [if_neg hpne] at hcnt
            refine ⟨⟨ep, hep, hpep⟩, ?_, ?_⟩
            · rw [hcnt]
              omega
            · rw [hcnt]
              omega
          · rw [List.mem_singleton] at hp'
            subst hp'
            have hcnt := count_map_snoc st.dsu processed q (rootD st.dsu q)
            rw [if_pos rfl, List.count_eq_zero.mpr hmemp] at hcnt
            have hsp := sizeD_pos hInv her hper
            refine ⟨⟨er, her, hper⟩, ?_, ?_⟩
            · dsimp only
              rw [hbs, hcnt]
            · dsimp only
              rw [hcnt]
              omega
        · rw [htot, touchedF_snoc, if_neg hmemp, hbs]
    | none =>
      have hfb : findBlock st q =
          ({ st with dsu := dsuSet st.dsu q ⟨q, [q], none, []⟩ }, q) :=
        findBlock_fresh hq
      simp only [savingsAcc, hfb]
      have hcond : (acc.any fun x => x.1 == q) = false := by
        have hne : ¬ (acc.any fun x => x.1 == q) = true := by
          intro hc
          rw [List.any_eq_true] at hc
          obtain ⟨x, hx, hbeq⟩ := hc
          rw [beq_iff_eq] at hbeq
          obtain ⟨⟨ex, hex, -⟩, -, -⟩ := hacc x hx
          rw [hbeq, hq] at hex
          cases hex
        exact Bool.eq_false_iff.mpr hne
      rw [hcond, if_neg Bool.false_ne_true]
      have hext : ∀ x e, dsuGet st.dsu x = some e →
          dsuGet (dsuSet st.dsu q ⟨q, [q], none, []⟩) x = some e := by
        intro x e hx
        have hxq : x ≠ q := by
          intro hc
          rw [hc, hq] at hx
          cases hx
        rw [dsuGet_set_ne st.dsu q _ x hxq]
        exact hx
      obtain ⟨htF, hroots⟩ := touchedF_ext hInv hext processed hpres
      have hInv' : DInv k (dsuSet st.dsu q ⟨q, [q], none, []⟩) :=
        hInv.insert_singleton hq
      have hE' : EIS (dsuSet st.dsu q ⟨q, [q], none, []⟩) :=
        hE.insert_single
      have hgq : dsuGet (dsuSet st.dsu q ⟨q, [q], none, []⟩) q =
          some ⟨q, [q], none, []⟩ := dsuGet_set_self _ _ _
      have hrq : rootD (dsuSet st.dsu q ⟨q, [q], none, []⟩) q = q :=
        rootD_eq_par hgq
      have hbs : blockSize { st with dsu := (dsuSet st.dsu q
          ⟨q, [q], none, []⟩) } q = 1 := by
        simp [blockSize, hgq]
      have hpres' : ∀ x ∈ processed ++ [q], ∃ e',
          dsuGet (dsuSet st.dsu q ⟨q, [q], none, []⟩) x = some e' := by
        intro x hx
        rcases List.mem_append.mp hx with hx | hx
        · obtain ⟨e', he'⟩ := hpres x hx
          exact ⟨e', hext x e' he'⟩
        · rw [List.mem_singleton] at hx
          subst hx
          exact ⟨_, hgq⟩
      have hqnr : q ∉ processed.map (rootD st.dsu) :=
        not_root_of_absent hInv hq processed hpres
      have hqnr' : q ∉ processed.map
          (rootD (dsuSet st.dsu q ⟨q, [q], none, []⟩)) := by
        rw [List.map_congr_left hroots]
        exact hqnr
      apply ih (processed ++ [q])
        { st with dsu := dsuSet st.dsu q ⟨q, [q], none, []⟩ }
        (acc ++ [(q, blockSize { st with dsu := (dsuSet st.dsu q
          ⟨q, [q], none, []⟩) } q - 1)])
        (total + blockSize { st with dsu := (dsuSet st.dsu q
          ⟨q, [q], none, []⟩) } q) hul' hInv' hE' hpres'
      · rw [List.map_append]
        simp only [List.map_cons, List.map_nil]
        refine List.Nodup.append hndf (List.nodup_singleton _) ?_
        intro a ha hb
        rw [List.mem_singleton] at hb
        subst hb
        rw [List.mem_map] at ha
        obtain ⟨x, hx, hxe⟩ := ha
        obtain ⟨⟨ex, hex, -⟩, -, -⟩ := hacc x hx
        rw [hxe, hq] at hex
        cases hex
      · intro c
        rw [List.map_append, List.mem_append, List.map_append,
          List.mem_append]
        simp only [List.map_cons, List.map_nil, List.mem_singleton]
        constructor
        · rintro (h | h)
          · refine Or.inl ?_
            rw [List.map_congr_left hroots]
            exact (hiff c).mp h
          · refine Or.inr ?_
            rw [h, hrq]
        · rintro (h | h)
          · refine Or.inl ?_
            rw [List.map_congr_left hroots] at h
            exact (hiff c).mpr h
          · refine Or.inr ?_
            rw [h, hrq]
      · intro p' hp'
        rcases List.mem_append.mp hp' with hp' | hp'
        · obtain ⟨⟨ep, hep, hpep⟩, hv, hcb⟩ := hacc p' hp'
          have hszp : sizeD (dsuSet st.dsu q ⟨q, [q], none, []⟩) p'.1 =
              sizeD st.dsu p'.1 := by
            rw [sizeD_eq (hext _ ep hep), sizeD_eq hep]
          have hpne : ¬ rootD (dsuSet st.dsu q ⟨q, [q], none, []⟩) q =
              p'.1 := by
            rw [hrq]
            intro hc
            rw [← hc] at hep
            rw [hq] at hep
            cases hep
          have hcnt := count_map_snoc (dsuSet st.dsu q ⟨q, [q], none, []⟩)
            processed q p'.1
          rw [if_neg hpne] at hcnt
          have hcp : (processed.map (rootD (dsuSet st.dsu q
              ⟨q, [q], none, []⟩))).count p'.1 =
              (processed.map (rootD st.dsu)).count p'.1 := by
            rw [List.map_congr_left hroots]
          refine ⟨⟨ep, hext _ ep hep, hpep⟩, ?_, ?_⟩
          · rw [hcnt, hcp, hszp]
            omega
          · rw [hcnt, hcp, hszp]
            omega
        · rw [List.mem_singleton] at hp'
          subst hp'
          dsimp only
          have hcnt := count_map_snoc (dsuSet st.dsu q ⟨q, [q], none, []⟩)
            processed q q
          rw [if_pos hrq, List.count_eq_zero.mpr hqnr'] at hcnt
          have hsq : sizeD (dsuSet st.dsu q ⟨q, [q], none, []⟩) q = 1 := by
            rw [sizeD_eq hgq]
            rfl
          refine ⟨⟨⟨q, [q], none, []⟩, hgq, rfl⟩, ?_, ?_⟩
          · rw [hbs, hcnt, hsq]
          · rw [hcnt, hsq]
      · have hsq : sizeD (dsuSet st.dsu q ⟨q, [q], none, []⟩) q = 1 := by
          rw [sizeD_eq hgq]
          rfl
        rw [touchedF_snoc, hrq, if_neg hqnr', htF, hsq, hbs, ← htot]

theorem insertDesc_perm (x : Nat × Nat) :
    ∀ l : List (Nat × Nat), (insertDesc x l).Perm (x :: l) := by
  intro l
  induction l with
  | nil => exact List.Perm.refl _
  | cons y ys ih =>
    simp only [insertDesc]
    by_cases h : y.2 < x.2
    · rw [if_pos h]
    · rw [if_neg h]
      exact (ih.cons y).trans (List.Perm.swap x y ys)

theorem sortDesc_perm (l : List (Nat × Nat)) : (sortDesc l).Perm l := by
  suffices h : ∀ (l acc : List (Nat × Nat)),
      (l.foldl (fun acc x => insertDesc x acc) acc).Perm (acc ++ l) by
    rw [sortDesc]
    have h2 := h l []
    rw [List.nil_append] at h2
    exact h2
  intro l
  induction l with
  | nil =>
    intro acc
    simp
  | cons x xs ih =>
    intro acc
    simp only [List.foldl_cons]
    refine (ih (insertDesc x acc)).trans ?_
    refine ((insertDesc_perm x acc).append_right xs).trans ?_
    exact List.perm_middle.symm

theorem blockEmpty_key {st : CState} {r : Nat} {er : DEnt}
    (her : dsuGet st.dsu r = some er) (hper : er.par = r) :
    blockEmpty st r = (st, er.anchor.isNone) := by
  simp only [blockEmpty, findBlock_key her]
  rw [hper, her]
  rfl

/-- The `blocksAndSizes` accumulation of the over-cap branch: the collected
entries are distinct anchored roots with exact sizes. -/
theorem blocksAndSizes_spec (k : Nat) : ∀ (l : List Nat) (st : CState)
    (acc : List (Nat × Nat)),
    DInv k st.dsu → EIS st.dsu →
    ((acc.map Prod.fst).Nodup) →
    (∀ p ∈ acc, ∃ e, dsuGet st.dsu p.1 = some e ∧ e.par = p.1 ∧
      e.anchor ≠ none ∧ sizeD st.dsu p.1 = p.2) →
    DInv k (blocksAndSizes st l acc).1.dsu ∧
    EIS (blocksAndSizes st l acc).1.dsu ∧
    (blocksAndSizes st l acc).1.blocksLog = st.blocksLog ∧
    (∀ x e, dsuGet st.dsu x = some e →
      dsuGet (blocksAndSizes st l acc).1.dsu x = some e) ∧
    (((blocksAndSizes st l acc).2.map Prod.fst).Nodup) ∧
    (∀ p ∈ (blocksAndSizes st l acc).2, ∃ e,
      dsuGet (blocksAndSizes st l acc).1.dsu p.1 = some e ∧ e.par = p.1 ∧
      e.anchor ≠ none ∧
      sizeD (blocksAndSizes st l acc).1.dsu p.1 = p.2) := by
  intro l
  induction l with
  | nil =>
    intro st acc hInv hE hndf hacc
    exact ⟨hInv, hE, rfl, fun x e hx => hx, hndf, hacc⟩
  | cons q rest ih =>
    intro st acc hInv hE hndf hacc
    obtain ⟨hInv₁, hE₁, hdone₁, hlog₁, ⟨er, her, hper, hmem⟩, hext₁⟩ :=
      findBlock_spec k st q hInv hE
    have hBE : blockEmpty (findBlock st q).1 (findBlock st q).2 =
        ((findBlock st q).1, er.anchor.isNone) := blockEmpty_key her hper
    have hacc' : ∀ p ∈ acc, ∃ e, dsuGet (findBlock st q).1.dsu p.1 =
        some e ∧ e.par = p.1 ∧ e.anchor ≠ none ∧
        sizeD (findBlock st q).1.dsu p.1 = p.2 := by
      intro p hp
      obtain ⟨e, he, hpe, hae, hse⟩ := hacc p hp
      refine ⟨e, hext₁ _ e he, hpe, hae, ?_⟩
      rw [sizeD_eq (hext₁ _ e he), ← sizeD_eq he]
      exact hse
    simp only [blocksAndSizes, hBE]
    by_cases hcond : (er.anchor.isNone || acc.any
        (fun x => x.1 == (findBlock st q).2)) = true
    · rw [if_pos hcond]
      obtain ⟨hI2, hE2, hlog2, hext2, hnd2, hout2⟩ :=
        ih (findBlock st q).1 acc hInv₁ hE₁ hndf hacc'
      exact ⟨hI2, hE2, by rw [hlog2, hlog₁],
        fun x e hx => hext2 x e (hext₁ x e hx), hnd2, hout2⟩
    · rw [if_neg hcond]
      rw [Bool.or_eq_true] at hcond
      push_neg at hcond
      obtain ⟨hanch, hany⟩ := hcond
      have hanch' : er.anchor ≠ none := by
        intro hc
        apply hanch
        rw [hc]
        rfl
      have hrnot : (findBlock st q).2 ∉ acc.map Prod.fst := by
        intro hc
        apply hany
        rw [List.any_eq_true]
        rw [List.mem_map] at hc
        obtain ⟨x, hx, hxe⟩ := hc
        exact ⟨x, hx, by simp [hxe]⟩
      have hndf' : ((acc ++ [((findBlock st q).2,
          blockSize (findBlock st q).1 (findBlock st q).2)]).map
            Prod.fst).Nodup := by
        rw [List.map_append]
        simp only [List.map_cons, List.map_nil]
        refine List.Nodup.append hndf (List.nodup_singleton _) ?_
        intro a ha hb
        rw [List.mem_singleton] at hb
        subst hb
        exact hrnot ha
      have hacc'' : ∀ p ∈ acc ++ [((findBlock st q).2,
          blockSize (findBlock st q).1 (findBlock st q).2)],
          ∃ e, dsuGet (findBlock st q).1.dsu p.1 = some e ∧ e.par = p.1 ∧
            e.anchor ≠ none ∧
            sizeD (findBlock st q).1.dsu p.1 = p.2 := by
        intro p hp
        rcases List.mem_append.mp hp with hp | hp
        · exact hacc' p hp
        · rw [List.mem_singleton] at hp
          subst hp
          exact ⟨er, her, hper, hanch', (blockSize_eq _ _).symm⟩
      obtain ⟨hI2, hE2, hlog2, hext2, hnd2, hout2⟩ :=
        ih (findBlock st q).1 _ hInv₁ hE₁ hndf' hacc''
      exact ⟨hI2, hE2, by rw [hlog2, hlog₁],
        fun x e hx => hext2 x e (hext₁ x e hx), hnd2, hout2⟩

/-- The fill-up loop of the over-cap branch: the starting block and the
worklist entries are anchored roots with size upper bounds; every union
stays under the cap, so the invariants survive, and the returned worklist
is the untouched suffix. -/
theorem absorbBlocks_spec (k : Nat) : ∀ (rest : List (Nat × Nat))
    (st : CState) (b size : Nat) (eb : DEnt),
    DInv k st.dsu → EISx st.dsu (rootD st.dsu b) →
    dsuGet st.dsu b = some eb →
    (∃ ew, dsuGet st.dsu (rootD st.dsu b) = some ew ∧
      ew.par = rootD st.dsu b ∧ ew.anchor ≠ none) →
    sizeD st.dsu (rootD st.dsu b) ≤ size →
    ((rest.map Prod.fst).Nodup) →
    (∀ p ∈ rest, ∃ e, dsuGet st.dsu p.1 = some e ∧ e.par = p.1 ∧
      e.anchor ≠ none ∧ sizeD st.dsu p.1 ≤ p.2 ∧ p.1 ≠ rootD st.dsu b) →
    DInv k (absorbBlocks k st b size rest).1.dsu ∧
    EISx (absorbBlocks k st b size rest).1.dsu
      (rootD (absorbBlocks k st b size rest).1.dsu b) ∧
    (absorbBlocks k st b size rest).1.blocksLog = st.blocksLog ∧
    (∃ eb2, dsuGet (absorbBlocks k st b size rest).1.dsu b = some eb2) ∧
    (∃ ew, dsuGet (absorbBlocks k st b size rest).1.dsu
        (rootD (absorbBlocks k st b size rest).1.dsu b) = some ew ∧
      ew.par = rootD (absorbBlocks k st b size rest).1.dsu b ∧
      ew.anchor ≠ none) ∧
    (((absorbBlocks k st b size rest).2.map Prod.fst).Nodup) ∧
    (∀ p ∈ (absorbBlocks k st b size rest).2, ∃ e,
      dsuGet (absorbBlocks k st b size rest).1.dsu p.1 = some e ∧
      e.par = p.1 ∧ e.anchor ≠ none ∧
      sizeD (absorbBlocks k st b size rest).1.dsu p.1 ≤ p.2 ∧
      p.1 ≠ rootD (absorbBlocks k st b size rest).1.dsu b) ∧
    (∀ c ∈ (absorbBlocks k st b size rest).2.map Prod.fst,
      c ∈ rest.map Prod.fst) ∧
    (∀ c e, dsuGet st.dsu c = some e → e.par = c → c ≠ rootD st.dsu b →
      c ∉ rest.map Prod.fst →
      dsuGet (absorbBlocks k st b size rest).1.dsu c = some e) ∧
    (rootD (absorbBlocks k st b size rest).1.dsu b = rootD st.dsu b ∨
      rootD (absorbBlocks k st b size rest).1.dsu b ∈
        rest.map Prod.fst) := by
  intro rest
  induction rest with
  | nil =>
    intro st b size eb hInv hEx hb hwroot hsb hndf hrest
    refine ⟨hInv, hEx, rfl, ⟨eb, hb⟩, hwroot, List.nodup_nil, ?_, ?_, ?_,
      Or.inl rfl⟩
    · intro p hp
      exact absurd hp (List.not_mem_nil p)
    · intro c hc
      exact hc
    · intro c e hc hpc hcb hcn
      exact hc
  | cons hd rest' ih =>
    intro st b size eb hInv hEx hb hwroot hsb hndf hrest
    obtain ⟨nb, ns⟩ := hd
    obtain ⟨en, hen, hpen, hanchn, hsn, hnen⟩ :=
      hrest (nb, ns) (List.mem_cons_self _ _)
    dsimp only at hen hpen hanchn hsn hnen
    rw [List.map_cons, List.nodup_cons] at hndf
    obtain ⟨hnb_not, hndf'⟩ := hndf
    simp only [absorbBlocks]
    by_cases h1 : size < k
    · rw [if_pos h1]
      by_cases h2 : size + ns ≤ k
      · rw [if_pos h2]
        have hrbpar : rootD st.dsu b = eb.par := rootD_eq_par hb
        obtain ⟨ew₀, hw₀, hpw₀, hanch₀⟩ := hwroot
        have hsz : eb.par ≠ en.par →
            sizeD st.dsu eb.par + sizeD st.dsu en.par ≤ max k 1 := by
          intro hne
          have h3 : sizeD st.dsu eb.par ≤ size := by
            rw [← hrbpar]
            exact hsb
          have h4 : sizeD st.dsu en.par ≤ ns := by
            rw [hpen]
            exact hsn
          have h5 : sizeD st.dsu eb.par + sizeD st.dsu en.par ≤ k := by
            omega
          exact le_trans h5 (le_max_left _ _)
        obtain ⟨hInv', hlog', hkeys', hEx', hwid, hform, hsize, hothers⟩ :=
          unionBlock_inv k st b nb hInv hb hen hsz
        rcases unionBlock_spec k st b nb hInv hb hen with ⟨heq, -⟩ |
          ⟨hne, w, lo, ew, el, hwl, hew, hpew, hel, hpel, -, -, hmap⟩
        · exact absurd (show nb = rootD st.dsu b by
            rw [hrbpar, heq, hpen]) hnen
        · have hwor : w = eb.par ∨ w = en.par := by
            rcases hwl with ⟨h, -⟩ | ⟨h, -⟩
            · exact Or.inl h
            · exact Or.inr h
          have hrw : rootD st.dsu w = w := by
            rw [rootD_eq_par hew]
            exact hpew
          have hgw : dsuGet (unionBlock st b nb).dsu w =
              some ⟨w, ew.members ++ el.members, ew.anchor,
                ew.blockOps ++ el.blockOps⟩ := by
            rw [hmap w, if_pos rfl]
          have hrww : rootD (unionBlock st b nb).dsu w = w :=
            rootD_eq_par hgw
          have hwcond : rootD st.dsu w = eb.par ∨
              rootD st.dsu w = en.par := by
            rw [hrw]
            exact hwor
          have hrootb : rootD (unionBlock st b nb).dsu b = w := by
            have h5 := hform w
            rw [if_pos hwcond] at h5
            rw [← h5]
            exact hrww
          have hanchw : ew.anchor ≠ none := by
            rcases hwl with ⟨h, -⟩ | ⟨h, -⟩
            · rw [h, ← hrbpar] at hew
              rw [hw₀] at hew
              injection hew with hew
              rw [← hew]
              exact hanch₀
            · rw [h, hpen] at hew
              rw [hen] at hew
              injection hew with hew
              rw [← hew]
              exact hanchn
          have hEx2 : EISx (unionBlock st b nb).dsu
              (rootD (unionBlock st b nb).dsu b) := by
            apply hEx'
            rw [← hrbpar]
            exact hEx
          obtain ⟨eb2, hb2⟩ : ∃ eb2,
              dsuGet (unionBlock st b nb).dsu b = some eb2 :=
            present_of_keys_eq hkeys' hb
          have hsb' : sizeD (unionBlock st b nb).dsu
              (rootD (unionBlock st b nb).dsu b) ≤ size + ns := by
            have h6 := hsize
            have h3 : sizeD st.dsu eb.par ≤ size := by
              rw [← hrbpar]
              exact hsb
            have h4 : sizeD st.dsu en.par ≤ ns := by
              rw [hpen]
              exact hsn
            omega
          have hwroot' : ∃ ew2, dsuGet (unionBlock st b nb).dsu
              (rootD (unionBlock st b nb).dsu b) = some ew2 ∧
              ew2.par = rootD (unionBlock st b nb).dsu b ∧
              ew2.anchor ≠ none := by
            rw [hrootb]
            exact ⟨⟨w, ew.members ++ el.members, ew.anchor,
              ew.blockOps ++ el.blockOps⟩, hgw, rfl, hanchw⟩
          have hrest'' : ∀ p ∈ rest', ∃ e,
              dsuGet (unionBlock st b nb).dsu p.1 = some e ∧ e.par = p.1 ∧
              e.anchor ≠ none ∧
              sizeD (unionBlock st b nb).dsu p.1 ≤ p.2 ∧
              p.1 ≠ rootD (unionBlock st b nb).dsu b := by
            intro p hp
            obtain ⟨e, he, hpe, hae, hse, hneb⟩ :=
              hrest p (List.mem_cons_of_mem _ hp)
            have hproot : rootD st.dsu p.1 = p.1 := by
              rw [rootD_eq_par he]
              exact hpe
            have hpne1 : p.1 ≠ eb.par := by
              rw [← hrbpar]
              exact hneb
            have hpne2 : p.1 ≠ en.par := by
              rw [hpen]
              intro hc
              apply hnb_not
              rw [← hc]
              exact List.mem_map.mpr ⟨p, hp, rfl⟩
            obtain ⟨hsz2, hget2⟩ := hothers p.1 hproot hpne1 hpne2
            refine ⟨e, by rw [hget2]; exact he, hpe, hae, ?_, ?_⟩
            · rw [hsz2]
              exact hse
            · rw [hrootb]
              rcases hwor with h | h
              · rw [h]
                exact hpne1
              · rw [h]
                exact hpne2
          obtain ⟨rI, rEx, rlog, rb, rwroot, rnd, rout, rsub, rpres,
            rroot⟩ := ih (unionBlock st b nb) b (size + ns) eb2 hInv'
              hEx2 hb2 hwroot' hsb' hndf' hrest''
          refine ⟨rI, rEx, by rw [rlog, hlog'], rb, rwroot, rnd, rout,
            ?_, ?_, ?_⟩
          · intro c hc
            rw [List.map_cons]
            exact List.mem_cons_of_mem _ (rsub c hc)
          · intro c e hc hpc hcb hcn
            rw [List.map_cons, List.mem_cons] at hcn
            push_neg at hcn
            obtain ⟨hcn1, hcn2⟩ := hcn
            have hproot : rootD st.dsu c = c := by
              rw [rootD_eq_par hc]
              exact hpc
            have hpne1 : c ≠ eb.par := by
              rw [← hrbpar]
              exact hcb
            have hpne2 : c ≠ en.par := by
              rw [hpen]
              exact hcn1
            obtain ⟨-, hget2⟩ := hothers c hproot hpne1 hpne2
            have hc' : dsuGet (unionBlock st b nb).dsu c = some e := by
              rw [hget2]
              exact hc
            refine rpres c e hc' hpc ?_ hcn2
            rw [hrootb]
            rcases hwor with h | h
            · rw [h]
              exact hpne1
            · rw [h]
              exact hpne2
          · rcases rroot with h | h
            · rw [h, hrootb]
              rcases hwor with h2 | h2
              · refine Or.inl ?_
                rw [h2, hrbpar]
              · refine Or.inr ?_
                rw [h2, hpen, List.map_cons]
                exact List.mem_cons_self _ _
            · refine Or.inr ?_
              rw [List.map_cons]
              exact List.mem_cons_of_mem _ h
      · rw [if_neg h2]
        obtain ⟨rI, rEx, rlog, rb, rwroot, rnd, rout, rsub, rpres,
          rroot⟩ := ih st b size eb hInv hEx hb hwroot hsb hndf'
            (fun p hp => hrest p (List.mem_cons_of_mem _ hp))
        refine ⟨rI, rEx, rlog, rb, rwroot, ?_, ?_, ?_, ?_, ?_⟩
        · simp only [List.map_cons]
          rw [List.nodup_cons]
          exact ⟨fun hc => hnb_not (rsub nb hc), rnd⟩
        · intro p hp
          rcases List.mem_cons.mp hp with hp | hp
          · subst hp
            have hget := rpres nb en hen hpen hnen hnb_not
            refine ⟨en, hget, hpen, hanchn, ?_, ?_⟩
            · dsimp only
              rw [sizeD_eq hget, ← sizeD_eq hen]
              exact hsn
            · dsimp only
              rcases rroot with h | h
              · rw [h]
                exact hnen
              · intro hc
                apply hnb_not
                rw [hc]
                exact h
          · exact rout p hp
        · intro c hc
          rw [List.map_cons, List.mem_cons] at hc
          rw [List.map_cons]
          rcases hc with hc | hc
          · rw [hc]
            exact List.mem_cons_self _ _
          · exact List.mem_cons_of_mem _ (rsub c hc)
        · intro c e hc hpc hcb hcn
          rw [List.map_cons, List.mem_cons] at hcn
          push_neg at hcn
          exact rpres c e hc hpc hcb hcn.2
        · rcases rroot with h | h
          · exact Or.inl h
          · refine Or.inr ?_
            rw [List.map_cons]
            exact List.mem_cons_of_mem _ h
    · rw [if_neg h1]
      refine ⟨hInv, hEx, rfl, ⟨eb, hb⟩, hwroot, ?_, ?_, ?_, ?_,
        Or.inl rfl⟩
      · rw [List.map_cons, List.nodup_cons]
        exact ⟨hnb_not, hndf'⟩
      · intro p hp
        exact hrest p hp
      · intro c hc
        exact hc
      · intro c e hc hpc hcb hcn
        exact hc

/-- The over-cap packing loop keeps the invariants and logs only bounded
blocks, whatever the fuel. -/
theorem packGo_inv (k : Nat) : ∀ (fuel : Nat) (l : List (Nat × Nat))
    (st : CState),
    DInv k st.dsu → EIS st.dsu →
    ((l.map Prod.fst).Nodup) →
    (∀ p ∈ l, ∃ e, dsuGet st.dsu p.1 = some e ∧ e.par = p.1 ∧
      e.anchor ≠ none ∧ sizeD st.dsu p.1 ≤ p.2) →
    DInv k (packGo k fuel st l).dsu ∧ EIS (packGo k fuel st l).dsu ∧
    (∀ op ∈ (packGo k fuel st l).blocksLog, op ∈ st.blocksLog ∨
      op.getUsedQubits.length ≤ k) := by
  intro fuel
  induction fuel with
  | zero =>
    intro l st hInv hE hndf hl
    exact ⟨hInv, hE, fun op hop => Or.inl hop⟩
  | succ fuel ih =>
    intro l st hInv hE hndf hl
    match l with
    | [] => exact ⟨hInv, hE, fun op hop => Or.inl hop⟩
    | (b, size) :: rest =>
      obtain ⟨eb, hbe, hpb, hanchb, hsb⟩ :=
        hl (b, size) (List.mem_cons_self _ _)
      dsimp only at hbe hpb hanchb hsb
      have hrb : rootD st.dsu b = b := by
        rw [rootD_eq_par hbe]
        exact hpb
      rw [List.map_cons, List.nodup_cons] at hndf
      obtain ⟨hb_not, hndf'⟩ := hndf
      simp only [packGo]
      obtain ⟨hI1, hE1, hlog1, hkeys1, hpres1⟩ :=
        finalizeBlock_x k st b hInv hbe (hE.toX _)
          (show dsuGet st.dsu (rootD st.dsu b) = some eb by
            rw [hrb]; exact hbe)
          (show eb.par = rootD st.dsu b by rw [hrb]; exact hpb) hanchb
      by_cases hsk : size = k
      · rw [if_pos hsk]
        have hrest' : ∀ p ∈ rest, ∃ e,
            dsuGet (finalizeBlock st b).dsu p.1 = some e ∧ e.par = p.1 ∧
            e.anchor ≠ none ∧
            sizeD (finalizeBlock st b).dsu p.1 ≤ p.2 := by
          intro p hp
          obtain ⟨e, he, hpe, hae, hse⟩ := hl p (List.mem_cons_of_mem _ hp)
          have hpne : p.1 ≠ rootD st.dsu b := by
            rw [hrb]
            intro hc
            apply hb_not
            rw [← hc]
            exact List.mem_map.mpr ⟨p, hp, rfl⟩
          have hget := hpres1 p.1 e he hpe hpne
          refine ⟨e, hget, hpe, hae, ?_⟩
          rw [sizeD_eq hget, ← sizeD_eq he]
          exact hse
        obtain ⟨rI, rE, rlog⟩ := ih rest (finalizeBlock st b) hI1 hE1
          hndf' hrest'
        refine ⟨rI, rE, ?_⟩
        intro op hop
        rcases rlog op hop with h | h
        · exact hlog1 op h
        · exact Or.inr h
      · rw [if_neg hsk]
        obtain ⟨aI, aEx, alog, ⟨eb2, hb2⟩, ⟨ew2, hw2, hpw2, hanch2⟩, and6,
          aout, asub, apres, aroot⟩ :=
          absorbBlocks_spec k rest st b size eb hInv (hE.toX _) hbe
            ⟨eb, by rw [hrb]; exact hbe, by rw [hrb]; exact hpb, hanchb⟩
            (by rw [hrb]; exact hsb) hndf'
            (fun p hp => by
              obtain ⟨e, he, hpe, hae, hse⟩ :=
                hl p (List.mem_cons_of_mem _ hp)
              refine ⟨e, he, hpe, hae, hse, ?_⟩
              rw [hrb]
              intro hc
              apply hb_not
              rw [← hc]
              exact List.mem_map.mpr ⟨p, hp, rfl⟩)
        obtain ⟨fI, fE, flog, fkeys, fpres⟩ :=
          finalizeBlock_x k (absorbBlocks k st b size rest).1 b aI hb2
            aEx hw2 hpw2 hanch2
        have hrest2 : ∀ p ∈ (absorbBlocks k st b size rest).2, ∃ e,
            dsuGet (finalizeBlock (absorbBlocks k st b size rest).1 b).dsu
              p.1 = some e ∧ e.par = p.1 ∧ e.anchor ≠ none ∧
            sizeD (finalizeBlock (absorbBlocks k st b size rest).1 b).dsu
              p.1 ≤ p.2 := by
          intro p hp
          obtain ⟨e, he, hpe, hae, hse, hneb⟩ := aout p hp
          have hget := fpres p.1 e he hpe hneb
          refine ⟨e, hget, hpe, hae, ?_⟩
          rw [sizeD_eq hget, ← sizeD_eq he]
          exact hse
        obtain ⟨rI, rE, rlog⟩ := ih (absorbBlocks k st b size rest).2
          (finalizeBlock (absorbBlocks k st b size rest).1 b) fI fE and6
          hrest2
        refine ⟨rI, rE, ?_⟩
        intro op hop
        rcases rlog op hop with h | h
        · rcases flog op h with h2 | h2
          · rw [alog] at h2
            exact Or.inl h2
          · exact Or.inr h2
        · exact Or.inr h

theorem getLast_mem_cons : ∀ (rest : List Nat) (q : Nat),
    ∃ a, (q :: rest).getLast? = some a ∧ a ∈ q :: rest := by
  intro rest
  induction rest with
  | nil =>
    intro q
    exact ⟨q, rfl, List.mem_cons_self _ _⟩
  | cons r rs ih =>
    intro q
    obtain ⟨a, ha, hm⟩ := ih r
    refine ⟨a, ?_, List.mem_cons_of_mem _ hm⟩
    rw [List.getLast?_cons_cons]
    exact ha

/-- Phase 3 of a processed operation that fits under the cap: the union
chain and the write into the (anchored) block keep the invariants and the
log bound. -/
theorem emplace_MI (k : Nat) (st₂ : CState) (op : Op)
    (hInv : DInv k st₂.dsu) (hE : EIS st₂.dsu)
    (hlog : ∀ o ∈ st₂.blocksLog, o.getUsedQubits.length ≤ k)
    (hpres : ∀ q ∈ op.getUsedQubits, ∃ e, dsuGet st₂.dsu q = some e)
    (htc : touchedF st₂.dsu op.getUsedQubits ≤ max k 1)
    (hlen : op.getUsedQubits.length ≤ k) :
    let st₃ := match op.getUsedQubits with
      | [] => st₂
      | q :: rest => chainGo st₂ q rest
    let lastq := match op.getUsedQubits.getLast? with
      | some q => q
      | none => qubitNegOne
    let p := findBlock st₃ lastq
    let st₄ := p.1
    let b := p.2
    let e := (dsuGet st₄.dsu b).getD ⟨b, [b], none, []⟩
    let res := if e.anchor.isNone then
        { st₄ with
          dsu := dsuSet st₄.dsu b
            { e with anchor := some st₄.done.length,
                     blockOps := e.blockOps ++ [op] },
          done := st₄.done ++ [none] }
      else
        { st₄ with
          dsu := dsuSet st₄.dsu b
            { e with blockOps := e.blockOps ++ [op] } }
    DInv k res.dsu ∧ EIS res.dsu ∧
      ∀ o ∈ res.blocksLog, o.getUsedQubits.length ≤ k := by
  dsimp only
  rcases hul : op.getUsedQubits with - | ⟨q, rest⟩
  · -- an operation with no used qubits: lazy lookup of Qubit(-1)
    simp only [List.getLast?_nil]
    obtain ⟨pI, pE, pdone, plog, ⟨er, her, hper, -⟩, pext⟩ :=
      findBlock_spec k st₂ qubitNegOne hInv hE
    rw [her, Option.getD_some]
    have hused' : ∀ x ∈ op.getUsedQubits, ∃ ex,
        dsuGet (findBlock st₂ qubitNegOne).1.dsu x = some ex ∧
        ex.par = (findBlock st₂ qubitNegOne).2 := by
      rw [hul]
      intro x hx
      exact absurd hx (List.not_mem_nil x)
    have hlen' : op.getUsedQubits.length ≤ k := hlen
    by_cases hanch : er.anchor.isNone = true
    · rw [if_pos hanch]
      obtain ⟨dI, dE⟩ := pI.emplace her hper (pE.toX _) op
        (some (findBlock st₂ qubitNegOne).1.done.length)
        (fun hc => Option.noConfusion hc) hused' hlen'
      refine ⟨dI, dE, ?_⟩
      intro o ho
      apply hlog
      rw [← plog]
      exact ho
    · rw [if_neg hanch]
      have hA : er.anchor ≠ none := by
        intro hc
        apply hanch
        rw [hc]
        rfl
      obtain ⟨dI, dE⟩ := pI.emplace her hper (pE.toX _) op er.anchor hA
        hused' hlen'
      refine ⟨dI, dE, ?_⟩
      intro o ho
      apply hlog
      rw [← plog]
      exact ho
  · -- chain the used qubits, then write the operation into the block
    dsimp only
    rw [hul] at hpres htc
    obtain ⟨cI, cEx, clog, ckeys, cmono, ceqs⟩ :=
      chainGo_spec k rest st₂ q hInv (hE.toX _)
        (hpres q (List.mem_cons_self _ _))
        (fun q' hq' => hpres q' (List.mem_cons_of_mem _ hq')) htc
    obtain ⟨last, hlast, hlm⟩ := getLast_mem_cons rest q
    rw [hlast]
    obtain ⟨el, hel⟩ : ∃ el,
        dsuGet (chainGo st₂ q rest).dsu last = some el :=
      present_of_keys_eq ckeys (hpres last hlm).choose_spec
    rw [findBlock_pure hel]
    obtain ⟨er, her, hper⟩ := rootD_root cI hel
    rw [her, Option.getD_some]
    have hEx4 : EISx (chainGo st₂ q rest).dsu
        (rootD (chainGo st₂ q rest).dsu last) := by
      rw [ceqs last hlm]
      exact cEx
    have hused' : ∀ x ∈ op.getUsedQubits, ∃ ex,
        dsuGet (chainGo st₂ q rest).dsu x = some ex ∧
        ex.par = rootD (chainGo st₂ q rest).dsu last := by
      rw [hul]
      intro x hx
      obtain ⟨ex, hex⟩ := present_of_keys_eq ckeys
        (hpres x hx).choose_spec
      refine ⟨ex, hex, ?_⟩
      rw [← rootD_eq_par hex, ceqs x hx, ← ceqs last hlm]
    by_cases hanch : er.anchor.isNone = true
    · rw [if_pos hanch]
      obtain ⟨dI, dE⟩ := cI.emplace her hper hEx4 op
        (some (chainGo st₂ q rest).done.length)
        (fun hc => Option.noConfusion hc) hused' hlen
      refine ⟨dI, dE, ?_⟩
      intro o ho
      apply hlog
      rw [← clog]
      exact ho
    · rw [if_neg hanch]
      have hA : er.anchor ≠ none := by
        intro hc
        apply hanch
        rw [hc]
        rfl
      obtain ⟨dI, dE⟩ := cI.emplace her hper hEx4 op er.anchor hA
        hused' hlen
      refine ⟨dI, dE, ?_⟩
      intro o ho
      apply hlog
      rw [← clog]
      exact ho

theorem finalizeAll_inv (k : Nat) : ∀ (l : List Nat) (st : CState),
    DInv k st.dsu → EIS st.dsu →
    DInv k (finalizeAll st l).dsu ∧ EIS (finalizeAll st l).dsu ∧
    (∀ op ∈ (finalizeAll st l).blocksLog, op ∈ st.blocksLog ∨
      op.getUsedQubits.length ≤ k) := by
  intro l
  induction l with
  | nil =>
    intro st hInv hE
    exact ⟨hInv, hE, fun op hop => Or.inl hop⟩
  | cons q rest ih =>
    intro st hInv hE
    obtain ⟨hI1, hE1, hlog1, -⟩ := finalizeBlock_inv k st q hInv hE
    obtain ⟨rI, rE, rlog⟩ := ih (finalizeBlock st q) hI1 hE1
    refine ⟨rI, rE, ?_⟩
    intro op hop
    rcases rlog op hop with h | h
    · rcases hlog1 with h2 | ⟨wop, h2, hwb⟩
      · rw [h2] at h
        exact Or.inl h
      · rw [h2] at h
        rcases List.mem_append.mp h with h3 | h3
        · exact Or.inl h3
        · rw [List.mem_singleton] at h3
          subst h3
          exact Or.inr hwb
    · exact Or.inr h

theorem cleanupRoots_inv (k : Nat) : ∀ (l : List Nat) (st : CState),
    DInv k st.dsu → EIS st.dsu →
    DInv k (cleanupRoots st l).dsu ∧ EIS (cleanupRoots st l).dsu ∧
    (∀ op ∈ (cleanupRoots st l).blocksLog, op ∈ st.blocksLog ∨
      op.getUsedQubits.length ≤ k) := by
  intro l
  induction l with
  | nil =>
    intro st hInv hE
    exact ⟨hInv, hE, fun op hop => Or.inl hop⟩
  | cons q rest ih =>
    intro st hInv hE
    cases hq : dsuGet st.dsu q with
    | some e =>
      simp only [cleanupRoots, hq]
      by_cases hpar : e.par = q
      · rw [if_pos hpar]
        obtain ⟨hI1, hE1, hlog1, -⟩ := finalizeBlock_inv k st q hInv hE
        obtain ⟨rI, rE, rlog⟩ := ih (finalizeBlock st q) hI1 hE1
        refine ⟨rI, rE, ?_⟩
        intro op hop
        rcases rlog op hop with h | h
        · rcases hlog1 with h2 | ⟨wop, h2, hwb⟩
          · rw [h2] at h
            exact Or.inl h
          · rw [h2] at h
            rcases List.mem_append.mp h with h3 | h3
            · exact Or.inl h3
            · rw [List.mem_singleton] at h3
              subst h3
              exact Or.inr hwb
        · exact Or.inr h
      · rw [if_neg hpar]
        exact ih st hInv hE
    | none =>
      simp only [cleanupRoots, hq]
      exact ih st hInv hE

/-- One iteration of the block-collection scan preserves the invariants
and the bound on every logged block. -/
theorem scanStep_MI (k : Nat) (st : CState) (op : Op)
    (hInv : DInv k st.dsu) (hE : EIS st.dsu)
    (hlog : ∀ o ∈ st.blocksLog, o.getUsedQubits.length ≤ k) :
    DInv k (scanStep k st op).dsu ∧ EIS (scanStep k st op).dsu ∧
    (∀ o ∈ (scanStep k st op).blocksLog, o.getUsedQubits.length ≤ k) := by
  cases hu : op.isUnitary with
  | false =>
    simp only [scanStep, hu, Bool.false_eq_true, if_false]
    obtain ⟨fI, fE, flog⟩ := finalizeAll_inv k op.getUsedQubits st hInv hE
    refine ⟨fI, fE, ?_⟩
    intro o ho
    rcases flog o ho with h | h
    · exact hlog o h
    · exact h
  | true =>
    simp only [scanStep, hu, eq_self_iff_true, if_true, decide_eq_true_eq]
    obtain ⟨fbI, fbE, fbdone, fblog, fbext, fbpres, fbroots⟩ :=
      findBlocks_spec k op.getUsedQubits st hInv hE
    have hndu : op.getUsedQubits.Nodup := nodup_getUsedQubits op
    have hlog1 : ∀ o ∈ (findBlocks st op.getUsedQubits).1.blocksLog,
        o.getUsedQubits.length ≤ k := by
      rw [fblog]
      exact hlog
    have htots : ((findBlocks st op.getUsedQubits).2.dedup.map
        (blockSize (findBlocks st op.getUsedQubits).1)).sum =
        touchedF (findBlocks st op.getUsedQubits).1.dsu
          op.getUsedQubits := by
      rw [fbroots, dedup_map_sum]
      exact Finset.sum_congr rfl (fun b _ => blockSize_eq _ b)
    by_cases hbig : k < ((findBlocks st op.getUsedQubits).2.dedup.map
        (blockSize (findBlocks st op.getUsedQubits).1)).sum
    · rw [if_pos hbig]
      by_cases hlen : k < op.getUsedQubits.length
      · -- over-cap resolution by packing; the operation stays in place
        rw [if_pos hlen, if_pos hlen]
        obtain ⟨bI, bE, blg, bext, bnd, bout⟩ :=
          blocksAndSizes_spec k op.getUsedQubits
            (findBlocks st op.getUsedQubits).1 [] fbI fbE List.nodup_nil
            (fun p hp => absurd hp (List.not_mem_nil p))
        have hperm := sortDesc_perm (blocksAndSizes
          (findBlocks st op.getUsedQubits).1 op.getUsedQubits []).2
        have hnd2 : ((sortDesc (blocksAndSizes
            (findBlocks st op.getUsedQubits).1
              op.getUsedQubits []).2).map Prod.fst).Nodup := by
          rw [List.Perm.nodup_iff (hperm.map Prod.fst)]
          exact bnd
        obtain ⟨pI, pE, plg⟩ := packGo_inv k
          (sortDesc (blocksAndSizes (findBlocks st op.getUsedQubits).1
            op.getUsedQubits []).2).length
          (sortDesc (blocksAndSizes (findBlocks st op.getUsedQubits).1
            op.getUsedQubits []).2)
          (blocksAndSizes (findBlocks st op.getUsedQubits).1
            op.getUsedQubits []).1 bI bE hnd2
          (fun p hp => by
            obtain ⟨e, he, hpe, hae, hse⟩ := bout p (hperm.mem_iff.mp hp)
            exact ⟨e, he, hpe, hae, le_of_eq hse⟩)
        refine ⟨pI, pE, ?_⟩
        intro o ho
        rcases plg o ho with h | h
        · rw [blg] at h
          exact hlog1 o h
        · exact h
      · -- over-cap resolution by spending savings, then emplace
        rw [if_neg hlen, if_neg hlen]
        obtain ⟨sI, sE, sdone, slog, spres, snd, siff, sval, stot⟩ :=
          savingsAcc_spec k op.getUsedQubits hndu op.getUsedQubits []
            (findBlocks st op.getUsedQubits).1 [] 0
            (by rw [List.nil_append]) fbI fbE
            (fun q hq => absurd hq (List.not_mem_nil q)) List.nodup_nil
            (fun c => Iff.rfl)
            (fun p hp => absurd hp (List.not_mem_nil p)) rfl
        have hperm := sortDesc_perm (savingsAcc
          (findBlocks st op.getUsedQubits).1 op.getUsedQubits [] 0).2.1
        have hndspend : ((sortDesc (savingsAcc
            (findBlocks st op.getUsedQubits).1
              op.getUsedQubits [] 0).2.1).map Prod.fst).Nodup := by
          rw [List.Perm.nodup_iff (hperm.map Prod.fst)]
          exact snd
        have hsv : ∀ p ∈ sortDesc (savingsAcc
            (findBlocks st op.getUsedQubits).1
              op.getUsedQubits [] 0).2.1,
            (∃ e, dsuGet (savingsAcc (findBlocks st op.getUsedQubits).1
              op.getUsedQubits [] 0).1.dsu p.1 = some e ∧ e.par = p.1) ∧
            p.1 ∈ op.getUsedQubits.map
              (rootD (savingsAcc (findBlocks st op.getUsedQubits).1
                op.getUsedQubits [] 0).1.dsu) ∧
            p.2 = sizeD (savingsAcc (findBlocks st op.getUsedQubits).1
              op.getUsedQubits [] 0).1.dsu p.1 -
              (op.getUsedQubits.map
                (rootD (savingsAcc (findBlocks st op.getUsedQubits).1
                  op.getUsedQubits [] 0).1.dsu)).count p.1 ∧
            (op.getUsedQubits.map
              (rootD (savingsAcc (findBlocks st op.getUsedQubits).1
                op.getUsedQubits [] 0).1.dsu)).count p.1 ≤
              sizeD (savingsAcc (findBlocks st op.getUsedQubits).1
                op.getUsedQubits [] 0).1.dsu p.1 := by
          intro p hp
          obtain ⟨he, hv, hcb⟩ := sval p (hperm.mem_iff.mp hp)
          refine ⟨he, ?_, hv, hcb⟩
          exact (siff p.1).mp (List.mem_map.mpr
            ⟨p, hperm.mem_iff.mp hp, rfl⟩)
        have hcov : ∀ q ∈ op.getUsedQubits,
            rootD (savingsAcc (findBlocks st op.getUsedQubits).1
              op.getUsedQubits [] 0).1.dsu q ∈
              (sortDesc (savingsAcc (findBlocks st op.getUsedQubits).1
                op.getUsedQubits [] 0).2.1).map Prod.fst ∨
            sizeD (savingsAcc (findBlocks st op.getUsedQubits).1
              op.getUsedQubits [] 0).1.dsu
              (rootD (savingsAcc (findBlocks st op.getUsedQubits).1
                op.getUsedQubits [] 0).1.dsu q) =
              (op.getUsedQubits.map
                (rootD (savingsAcc (findBlocks st op.getUsedQubits).1
                  op.getUsedQubits [] 0).1.dsu)).count
                (rootD (savingsAcc (findBlocks st op.getUsedQubits).1
                  op.getUsedQubits [] 0).1.dsu q) := by
          intro q hq
          refine Or.inl ?_
          apply (hperm.map Prod.fst).mem_iff.mpr
          apply (siff _).mpr
          exact List.mem_map.mpr ⟨q, hq, rfl⟩
        have htcs : (touchedF (savingsAcc
            (findBlocks st op.getUsedQubits).1
              op.getUsedQubits [] 0).1.dsu op.getUsedQubits : Int) ≤
            (k : Int) + (((savingsAcc (findBlocks st op.getUsedQubits).1
              op.getUsedQubits [] 0).2.2 : Int) - (k : Int)) := by
          omega
        obtain ⟨spI, spE, splog, sppres, sptc⟩ :=
          spend_bound k op.getUsedQubits hndu
            (sortDesc (savingsAcc (findBlocks st op.getUsedQubits).1
              op.getUsedQubits [] 0).2.1)
            (savingsAcc (findBlocks st op.getUsedQubits).1
              op.getUsedQubits [] 0).1
            (((savingsAcc (findBlocks st op.getUsedQubits).1
              op.getUsedQubits [] 0).2.2 : Int) - (k : Int))
            sI sE spres hndspend hsv hcov htcs
        have hlenle : op.getUsedQubits.length ≤ k := Nat.le_of_not_lt hlen
        have htc2 : touchedF (spendSavings
            (savingsAcc (findBlocks st op.getUsedQubits).1
              op.getUsedQubits [] 0).1
            (((savingsAcc (findBlocks st op.getUsedQubits).1
              op.getUsedQubits [] 0).2.2 : Int) - (k : Int))
            (sortDesc (savingsAcc (findBlocks st op.getUsedQubits).1
              op.getUsedQubits [] 0).2.1)).dsu op.getUsedQubits ≤
            max k 1 := by
          rw [Nat.max_eq_left hlenle] at sptc
          exact le_trans sptc (le_max_left _ _)
        have hlog2 : ∀ o ∈ (spendSavings
            (savingsAcc (findBlocks st op.getUsedQubits).1
              op.getUsedQubits [] 0).1
            (((savingsAcc (findBlocks st op.getUsedQubits).1
              op.getUsedQubits [] 0).2.2 : Int) - (k : Int))
            (sortDesc (savingsAcc (findBlocks st op.getUsedQubits).1
              op.getUsedQubits [] 0).2.1)).blocksLog,
            o.getUsedQubits.length ≤ k := by
          intro o ho
          rcases splog o ho with h | h
          · rw [slog] at h
            exact hlog1 o h
          · exact h
        exact emplace_MI k _ op spI spE hlog2 sppres htc2 hlenle
    · rw [if_neg hbig]
      by_cases hlen : k < op.getUsedQubits.length
      · rw [if_pos hlen]
        exact ⟨fbI, fbE, hlog1⟩
      · rw [if_neg hlen]
        have htc : touchedF (findBlocks st op.getUsedQubits).1.dsu
            op.getUsedQubits ≤ max k 1 := by
          rw [← htots]
          exact le_trans (Nat.le_of_not_lt hbig) (le_max_left _ _)
        exact emplace_MI k _ op fbI fbE hlog1 fbpres htc
          (Nat.le_of_not_lt hlen)

theorem DInv_empty (k : Nat) : DInv k ([] : DsuMap) :=
  ⟨List.nodup_nil,
   fun _ _ hq => Option.noConfusion hq,
   fun _ _ hq => Option.noConfusion hq,
   fun _ _ hq => Option.noConfusion hq,
   fun _ _ hq => Option.noConfusion hq,
   fun _ _ hq => Option.noConfusion hq,
   fun _ _ hq => Option.noConfusion hq,
   fun _ _ hq => Option.noConfusion hq⟩

theorem collectScan_MI (k : Nat) : ∀ (ops : List Op) (st : CState),
    DInv k st.dsu → EIS st.dsu →
    (∀ o ∈ st.blocksLog, o.getUsedQubits.length ≤ k) →
    DInv k (collectScan k ops st).dsu ∧ EIS (collectScan k ops st).dsu ∧
    (∀ o ∈ (collectScan k ops st).blocksLog,
      o.getUsedQubits.length ≤ k) := by
  intro ops
  induction ops with
  | nil =>
    intro st hInv hE hlog
    exact ⟨hInv, hE, hlog⟩
  | cons op rest ih =>
    intro st hInv hE hlog
    obtain ⟨sI, sE, slog⟩ := scanStep_MI k st op hInv hE hlog
    exact ih (scanStep k st op) sI sE slog

/-- **C3.** `CircuitOptimizer::collectBlocks` with cap `maxBlockSize = k`:
every block the pass finalizes and writes back — whether collapsed to a
single operation or emitted as a Compound — spans a qubit set of size at
most `k`.  The write-back log collects exactly the finalized blocks, in
finalization order. -/
theorem C3_theorem (fuel k : Nat) (qc qc' : Circuit) (log : List Op)
    (h : collectBlocks fuel k qc = .ok (qc', log)) :
    ∀ op ∈ log, op.getUsedQubits.length ≤ k := by
  rw [collectBlocks] at h
  by_cases hle : qc.ops.length ≤ 1
  · rw [if_pos hle] at h
    injection h with h
    injection h with h1 h2
    rw [← h2]
    intro op hop
    cases hop
  · rw [if_neg hle] at h
    match hre : reorderOperations fuel qc with
    | .error e =>
      rw [hre] at h
      cases h
    | .ok qc₁ =>
      rw [hre] at h
      dsimp only at h
      match hde : deferMeasurements fuel qc₁ with
      | .error e =>
        rw [hde] at h
        cases h
      | .ok qc₂ =>
        rw [hde] at h
        dsimp only at h
        obtain ⟨cI, cE, clog⟩ := collectScan_MI k qc₂.ops ⟨[], [], []⟩
          (DInv_empty k) (fun _ _ hq => Option.noConfusion hq)
          (fun o ho => absurd ho (List.not_mem_nil o))
        obtain ⟨uI, uE, ulog⟩ := cleanupRoots_inv k
          ((collectScan k qc₂.ops ⟨[], [], []⟩).dsu.map (·.1))
          (collectScan k qc₂.ops ⟨[], [], []⟩) cI cE
        match hm : materialize (cleanupRoots
            (collectScan k qc₂.ops ⟨[], [], []⟩)
            ((collectScan k qc₂.ops ⟨[], [], []⟩).dsu.map (·.1))).done with
        | .error e =>
          rw [hm] at h
          cases h
        | .ok ops =>
          rw [hm] at h
          dsimp only at h
          injection h with h
          injection h with h1 h2
          rw [← h2]
          intro op hop
          rcases ulog op hop with h3 | h3
          · exact clog op h3
          · exact h3

/-- Witness for C3: collecting blocks of a concrete three-gate circuit at
cap 2 succeeds (one block, touching two qubits, is written back), and the
bound theorem applies to its log. -/
theorem C3_witness :
    ∃ r, collectBlocks 10 2 ⟨2, [c8a, c8b, Op.std [⟨0, .Pos⟩] [1] .X]⟩ =
      .ok r ∧ ∀ op ∈ r.2, op.getUsedQubits.length ≤ 2 :=
  ⟨_, rfl, C3_theorem 10 2 ⟨2, [c8a, c8b, Op.std [⟨0, .Pos⟩] [1] .X]⟩ _ _
    rfl⟩

/-- **C10.** `NonUnitaryOperation::actsOn`: a non-unitary operation acts on a
qubit exactly when it is a Measure listing it among its measured qubits or a
Reset listing it among its targets; Barrier, Snapshot and ShowProbabilities
act on no qubit, even one of their targets. -/
theorem C10_theorem (ty : OpType) (ts qs cls : List Nat) (q : Nat) :
    (Op.nonunitary ty ts qs cls).actsOn q = true ↔
      ((ty = .Measure ∧ q ∈ qs) ∨ (ty = .Reset ∧ q ∈ ts)) := by
  cases ty <;> simp [Op.actsOn]

end MQT
